import Mathlib

/-!
# Threshold logic function identification (`kitty::is_threshold`)

A shallow embedding of `include/kitty/threshold_identification.hpp`.

* Assignments of the `n` variables are minterm indices `x < 2 ^ n`; the value of
  variable `i` in `x` is `x.testBit i` (the indexing of `kitty::get_bit`).
* A `REAL` (the `double` of `lp_lib.h`) is embedded as the rational number it denotes; the
  values the solver reports are finite. The one floating-point operation of the function
  whose result is not exact, the subtraction `row[Ncol - 1] - row[j]`, rounds to the
  nearest double, ties to even (`double_sub`); the coefficients `0`, `1`, `-1` and the
  negation `-row[j]` are exact.
* The conversion of a `REAL` to `int64_t` done by `linear_form.emplace_back` is truncation
  toward zero when the truncated value is an `int64_t`; outside that range C++ leaves the
  conversion undefined and the embedding takes the value the platform produces, a parameter
  of the run about which nothing is assumed (`to_int64`).
* The truth-table primitives, `cube` and the LP library are collaborators of the
  function; the primitives are modelled from their documented contract, `isop` and
  the LP library are parameters (`Env`).
-/

namespace kitty

/-! ## Truth tables -/

/-- Modelled from the spec: the complete truth table type `TT` (spec §3 "an immutable,
complete (fully-specified) Boolean function over n variables"); the type is declared in
`dynamic_truth_table.hpp` / `static_truth_table.hpp`, which are not part of the source
at hand. `bits[x]` is the function value at the assignment with minterm index `x`. -/
structure TruthTable where
  num_vars : Nat
  bits : List Bool
deriving DecidableEq

/-- Modelled from the spec: `get_bit(tt, x)`, the function value at assignment `x`. -/
def get_bit (tt : TruthTable) (x : Nat) : Bool := tt.bits.getD x false

/-- The table of `n` variables whose value at assignment `x` is `g x`. -/
def tabulate (n : Nat) (g : Nat → Bool) : TruthTable :=
  ⟨n, (List.range (2 ^ n)).map g⟩

/-- The assignment `x` with variable `i` set to `b`. -/
def set_var (x i : Nat) (b : Bool) : Nat :=
  if x.testBit i = b then x else x ^^^ 2 ^ i

/-- Modelled from the spec: `cofactor0(tt, i)` (spec §6 "restrict variable i to 0"); the
result has the same number of variables and no longer depends on variable `i`. -/
def cofactor0 (tt : TruthTable) (i : Nat) : TruthTable :=
  tabulate tt.num_vars (fun x => get_bit tt (set_var x i false))

/-- Modelled from the spec: `cofactor1(tt, i)` (spec §6 "restrict variable i to 1"). -/
def cofactor1 (tt : TruthTable) (i : Nat) : TruthTable :=
  tabulate tt.num_vars (fun x => get_bit tt (set_var x i true))

/-- Modelled from the spec: `implies(a, b)` (spec §6 "true iff a's ON-set ⊆ b's ON-set"). -/
def implies (a b : TruthTable) : Bool :=
  decide (∀ x, x < 2 ^ a.num_vars → get_bit a x = true → get_bit b x = true)

/-- Modelled from the spec: `flip_inplace(tt, i)` (spec §6 "mutate a table by inverting
variable i"); the mutated table is the returned value. -/
def flip_inplace (tt : TruthTable) (i : Nat) : TruthTable :=
  tabulate tt.num_vars (fun x => get_bit tt (x ^^^ 2 ^ i))

/-- Modelled from the spec: `unary_not(tt)` (spec §6 "complement"). -/
def unary_not (tt : TruthTable) : TruthTable :=
  tabulate tt.num_vars (fun x => !get_bit tt x)

/-! ## Cubes -/

/-- Modelled from the spec: `cube` (spec §3 "a product term (partial assignment over a
subset of variables, each assigned 0 or 1)"), declared in `cube.hpp`, which is not part
of the source at hand. Variable `j` occurs in the cube iff bit `j` of `mask` is set, and
then bit `j` of `bits` is its required value. -/
structure cube where
  bits : Nat
  mask : Nat
deriving DecidableEq

/-- Modelled from the spec: `cube::num_literals()`, the number of variables that occur in
the cube, i.e. the number of set bits of `mask` (all of them lie below `mask + 1`). -/
def cube.num_literals (c : cube) : Nat :=
  ((Finset.range (c.mask + 1)).filter (fun j => c.mask.testBit j = true)).card

/-- Modelled from the spec: `cube::remove_literal(j)`, which drops variable `j` from the
cube (mutating a copy in the source; the mutated cube is the returned value). -/
def cube.remove_literal (c : cube) (j : Nat) : cube :=
  ⟨set_var c.bits j false, set_var c.mask j false⟩

/-- Assignment `x` of `n` variables lies in cube `c`. -/
def cube.contains (n : Nat) (c : cube) (x : Nat) : Prop :=
  ∀ j, j < n → c.mask.testBit j = true → x.testBit j = c.bits.testBit j

instance (n : Nat) (c : cube) (x : Nat) : Decidable (cube.contains n c x) := by
  unfold cube.contains; infer_instance

/-! ## The LP collaborator (`lp_solve`) -/

/-- The constraint types `GE` and `LE` of `lp_lib.h`. -/
inductive ConstrType where
  | GE
  | LE
deriving DecidableEq

/-- The arguments of one `add_constraintex(lp, count, row, colno, constr_type, rh)` call:
the first `count` entries of the two scratch buffers at the time of the call. -/
structure Constraint where
  count : Nat
  row : List ℚ
  colno : List Nat
  constr_type : ConstrType
  rh : ℚ
deriving DecidableEq

/-- The arguments of the `set_obj_fnex(lp, count, row, colno)` call. -/
structure Objective where
  count : Nat
  row : List ℚ
  colno : List Nat
deriving DecidableEq

/-- Status `OPTIMAL` of `lp_lib.h`. -/
def OPTIMAL : Int := 0

/-- The answers of the LP library. Each answer may depend on everything submitted before
it: `add_constraintex rows c` is the answer to submitting `c` after the rows `rows`,
`solve rows obj` the status for the model with rows `rows` and objective `obj`, and
`get_variables rows obj k` the value it reports for column `k + 1`, a finite `REAL`. -/
structure LpSolve where
  make_lp : Nat → Nat → Bool
  add_constraintex : List Constraint → Constraint → Bool
  set_obj_fnex : List Constraint → Objective → Bool
  solve : List Constraint → Objective → Int
  get_variables : List Constraint → Objective → Nat → ℚ

/-- Everything `is_threshold` consumes from outside: the LP library, `isop`, whether the
two `malloc` calls succeed, the indeterminate initial content of the two buffers, and
the value the platform produces when a `double` outside the range of `int64_t` is
converted to `int64_t` (undefined in C++; `INT64_MIN` on x86-64). -/
structure Env where
  lp : LpSolve
  isop : TruthTable → List cube
  malloc_colno : Bool
  malloc_row : Bool
  colno0 : Nat → Nat
  row0 : Nat → ℚ
  int64_out_of_range : ℚ → Int

/-- The calls `is_threshold` makes to the LP library and the allocator, in order. -/
inductive Call where
  | make_lp (rows columns : Nat)
  | malloc_colno (len : Nat)
  | malloc_row (len : Nat)
  | set_add_rowmode (turnon : Bool)
  | add_constraintex (c : Constraint)
  | set_obj_fnex (obj : Objective)
  | set_minim
  | set_verbose
  | solve
  | get_variables
  | free_row
  | free_colno
  | delete_lp
deriving DecidableEq

/-! ## `is_threshold` -/

/-- A counted loop `for (i = 0; i < n; i++) s = body i s`. -/
def for_range (n : Nat) {σ : Type} (body : Nat → σ → σ) (s : σ) : σ :=
  (List.range n).foldl (fun s i => body i s) s

/-- The classification loop (source lines 81-97), started at variable `i` with `k`
variables left: `none` is the `return false` of the binate branch, otherwise the final
`is_flipped` and `tt_modified`. Both tests read the original table `tt`. -/
def unate_loop (tt : TruthTable) :
    Nat → Nat → List Bool → TruthTable → Option (List Bool × TruthTable)
  | 0, _, is_flipped, tt_modified => some (is_flipped, tt_modified)
  | k + 1, i, is_flipped, tt_modified =>
    if implies (cofactor0 tt i) (cofactor1 tt i) then
      unate_loop tt k (i + 1) (is_flipped.set i false) tt_modified
    else if implies (cofactor1 tt i) (cofactor0 tt i) then
      unate_loop tt k (i + 1) (is_flipped.set i true) (flip_inplace tt_modified i)
    else
      none

/-- The classification loop as run by `is_threshold`: all `num_vars` variables, from
`is_flipped(number_variables)` (all `false`) and `tt_modified = tt`. -/
def classify (tt : TruthTable) : Option (List Bool × TruthTable) :=
  unate_loop tt tt.num_vars 0 (List.replicate tt.num_vars false) tt

/-- The mutable state of the constraint-building part: the two scratch buffers, the rows
passed to `add_constraintex` so far and the variable `ret`. -/
structure BuildState where
  colno : Nat → Nat
  row : Nat → ℚ
  submitted : List Constraint
  ret : Int

/-- The first `count` entries of a buffer. -/
def snapshot {α : Type} (count : Nat) (buf : Nat → α) : List α :=
  (List.range count).map buf

/-- One `if (!add_constraintex(lp, Ncol, row, colno, ty, rh)) ret = code;`. -/
def submit (lp : LpSolve) (Ncol : Nat) (ty : ConstrType) (rh : ℚ) (code : Int)
    (s : BuildState) : BuildState :=
  let c : Constraint := ⟨Ncol, snapshot Ncol s.row, snapshot Ncol s.colno, ty, rh⟩
  { s with
    submitted := s.submitted ++ [c]
    ret := if lp.add_constraintex s.submitted c then s.ret else code }

/-- Body of the inner loop of the ON-set part (source lines 121-133). -/
def onset_literal (present_cube : cube) (j : Nat) (s : BuildState) : BuildState :=
  if present_cube.num_literals ≠ (present_cube.remove_literal j).num_literals then
    { s with colno := Function.update s.colno j (j + 1), row := Function.update s.row j 1 }
  else
    { s with colno := Function.update s.colno j (j + 1), row := Function.update s.row j 0 }

/-- Body of the ON-set loop (source lines 119-139). -/
def onset_cube (lp : LpSolve) (number_variables : Nat) (s : BuildState)
    (present_cube : cube) : BuildState :=
  let s1 := for_range number_variables (onset_literal present_cube) s
  let s2 := { s1 with
    colno := Function.update s1.colno number_variables (number_variables + 1)
    row := Function.update s1.row number_variables (-1) }
  submit lp (number_variables + 1) ConstrType.GE 0 3 s2

/-- Body of the inner loop of the OFF-set part (source lines 149-161). -/
def offset_literal (present_cube : cube) (j : Nat) (s : BuildState) : BuildState :=
  if present_cube.num_literals = (present_cube.remove_literal j).num_literals then
    { s with colno := Function.update s.colno j (j + 1), row := Function.update s.row j 1 }
  else
    { s with colno := Function.update s.colno j (j + 1), row := Function.update s.row j 0 }

/-- Body of the OFF-set loop (source lines 147-167). -/
def offset_cube (lp : LpSolve) (number_variables : Nat) (s : BuildState)
    (present_cube : cube) : BuildState :=
  let s1 := for_range number_variables (offset_literal present_cube) s
  let s2 := { s1 with
    colno := Function.update s1.colno number_variables (number_variables + 1)
    row := Function.update s1.row number_variables (-1) }
  submit lp (number_variables + 1) ConstrType.LE (-1) 4 s2

/-- Body of the inner loop of the third part (source lines 175-184). -/
def nonneg_entry (j k : Nat) (s : BuildState) : BuildState :=
  if k = j then
    { s with colno := Function.update s.colno j (j + 1), row := Function.update s.row j 1 }
  else
    { s with colno := Function.update s.colno k (k + 1), row := Function.update s.row k 0 }

/-- Body of the third loop (source lines 173-188). -/
def nonneg_row (lp : LpSolve) (Ncol : Nat) (j : Nat) (s : BuildState) : BuildState :=
  submit lp Ncol ConstrType.GE 0 5 (for_range Ncol (nonneg_entry j) s)

/-- Source lines 116-189: the three loops that submit rows. -/
def build_constraints (lp : LpSolve) (number_variables : Nat)
    (isop_f_ONSET isop_f_OFFSET : List cube) (s : BuildState) : BuildState :=
  let s1 := isop_f_ONSET.foldl (onset_cube lp number_variables) s
  let s2 := isop_f_OFFSET.foldl (offset_cube lp number_variables) s1
  for_range (number_variables + 1) (nonneg_row lp (number_variables + 1)) s2

/-- Body of the objective loop (source lines 196-197). -/
def objective_entry (j : Nat) (s : BuildState) : BuildState :=
  { s with colno := Function.update s.colno j (j + 1), row := Function.update s.row j 1 }

/-- The least value of `int64_t`. -/
def INT64_MIN : Int := -2 ^ 63

/-- The greatest value of `int64_t`. -/
def INT64_MAX : Int := 2 ^ 63 - 1

/-- The integer part of `q`: truncation toward zero. -/
def truncate (q : ℚ) : Int := if 0 ≤ q then Int.floor q else Int.ceil q

/-- Conversion of a `REAL` to `int64_t`, as `linear_form.emplace_back(row[j])` does it
(source lines 229 and 231): the value truncated toward zero when that is an `int64_t`.
Otherwise the C++ conversion is undefined; the result is then whatever the platform
produces, `out_of_range q`. -/
def to_int64 (out_of_range : ℚ → Int) (q : ℚ) : Int :=
  if INT64_MIN ≤ truncate q ∧ truncate q ≤ INT64_MAX then truncate q else out_of_range q

/-- The integer nearest to `q`, the even one when `q` lies halfway between two integers. -/
def round_half_even (q : ℚ) : Int :=
  if q - Int.floor q < 1 / 2 then Int.floor q
  else if 1 / 2 < q - Int.floor q then Int.floor q + 1
  else if Int.floor q % 2 = 0 then Int.floor q else Int.floor q + 1

/-- The exponent of the spacing of the doubles around `q`: a double has 53 significant
bits, so the spacing is `2 ^ (⌊log2 |q|⌋ - 52)`, and `2 ^ (-1074)` in the subnormal
range. -/
def ulp_exponent (q : ℚ) : Int := max (Int.log 2 |q| - 52) (-1074)

/-- The double nearest to `q` (IEEE 754 binary64, round to nearest, ties to even). A value
beyond `DBL_MAX` in magnitude stands for the infinity of its sign. -/
def round_double (q : ℚ) : ℚ :=
  (round_half_even (q / 2 ^ ulp_exponent q) : ℚ) * 2 ^ ulp_exponent q

/-- The largest finite double, `(2^53 - 1)·2^971`. -/
def DBL_MAX : ℚ := (2 ^ 53 - 1) * 2 ^ 971

/-- The subtraction `a - b` of two `REAL`s (source line 226): the exact difference rounded
to the nearest double; an infinite `a` stays what it is. -/
def double_sub (a b : ℚ) : ℚ :=
  if DBL_MAX < |a| then a else round_double (a - b)

/-- Body of the back-translation loop (source lines 224-229) on the buffer `row` and
`linear_form`. The negation `-row[j]` of a double is exact. -/
def back_step (out_of_range : ℚ → Int) (is_flipped : List Bool) (Ncol : Nat) (j : Nat)
    (s : (Nat → ℚ) × List Int) : (Nat → ℚ) × List Int :=
  let row :=
    if is_flipped.getD j false then
      let row1 := Function.update s.1 (Ncol - 1) (double_sub (s.1 (Ncol - 1)) (s.1 j))
      Function.update row1 j (-row1 j)
    else s.1
  (row, s.2 ++ [to_int64 out_of_range (row j)])

/-- Source lines 222-231: `linear_form` built from the buffer `row` that `get_variables`
filled. -/
def back_translate (out_of_range : ℚ → Int) (is_flipped : List Bool) (Ncol : Nat)
    (row : Nat → ℚ) : List Int :=
  let s := for_range (Ncol - 1) (back_step out_of_range is_flipped Ncol) (row, [])
  s.2 ++ [to_int64 out_of_range (s.1 (Ncol - 1))]

/-- The content of `row[n]` (the threshold) after the first `j` passes of the
back-translation loop: the value of each flipped variable below `j` has been subtracted, in
increasing order, each subtraction rounding to a double. -/
def running_threshold (is_flipped : List Bool) (row : Nat → ℚ) (n : Nat) : Nat → ℚ
  | 0 => row n
  | j + 1 =>
    if is_flipped.getD j false = true then
      double_sub (running_threshold is_flipped row n j) (row j)
    else running_threshold is_flipped row n j

/-- What a call of `is_threshold` leaves behind: the returned boolean, the content of
`*plf` (`none` when `plf` is the null pointer) and the collaborator calls made. -/
structure Outcome where
  result : Bool
  plf : Option (List Int)
  calls : List Call

/-- The state in which the constraint-building part of `is_threshold` starts. -/
def build_init (env : Env) : BuildState := ⟨env.colno0, env.row0, [], 0⟩

/-- The state after source line 199: rows submitted, objective written to the buffers. -/
def build_final (env : Env) (number_variables : Nat) (tt_modified : TruthTable) :
    BuildState :=
  let isop_f_ONSET := env.isop tt_modified
  let isop_f_OFFSET := env.isop (unary_not tt_modified)
  let s := build_constraints env.lp number_variables isop_f_ONSET isop_f_OFFSET
    (build_init env)
  for_range (number_variables + 1) objective_entry s

/-- The objective passed to `set_obj_fnex`. -/
def objective_of (Ncol : Nat) (s : BuildState) : Objective :=
  ⟨Ncol, snapshot Ncol s.row, snapshot Ncol s.colno⟩

/-- The function `is_threshold(tt, plf)`. The argument `plf` is the content of `*plf`
before the call (`none` for a null pointer). The result is `none` when the run writes
through a null scratch buffer: after a failed `malloc` the source sets `ret = 2` and goes
on to fill `colno` and `row` (the third loop runs at least once), which is undefined. -/
def is_threshold (env : Env) (tt : TruthTable) (plf : Option (List Int)) :
    Option Outcome :=
  let number_variables := tt.num_vars
  let Ncol := number_variables + 1
  let lp := env.lp.make_lp 0 Ncol
  match classify tt with
  | none => some ⟨false, plf, [Call.make_lp 0 Ncol]⟩
  | some (is_flipped, tt_modified) =>
    if lp = false then
      -- ret = 1, the block is skipped, nothing to free
      some ⟨false, plf, [Call.make_lp 0 Ncol]⟩
    else if env.malloc_colno = false ∨ env.malloc_row = false then
      none
    else
      let s := build_final env number_variables tt_modified
      let obj := objective_of Ncol s
      let built : List Call :=
        [Call.make_lp 0 Ncol, Call.malloc_colno Ncol, Call.malloc_row Ncol,
          Call.set_add_rowmode true]
        ++ s.submitted.map Call.add_constraintex
        ++ [Call.set_add_rowmode false, Call.set_obj_fnex obj]
      if env.lp.set_obj_fnex s.submitted obj = false then
        some ⟨false, plf, built⟩
      else
        let ret := env.lp.solve s.submitted obj
        let row := fun k =>
          if k < Ncol then env.lp.get_variables s.submitted obj k else s.row k
        let linear_form := back_translate env.int64_out_of_range is_flipped Ncol row
        let calls := built ++
          [Call.set_minim, Call.set_verbose, Call.solve, Call.get_variables,
            Call.free_row, Call.free_colno, Call.delete_lp]
        if ret ≠ OPTIMAL then
          some ⟨false, plf, calls⟩
        else
          some ⟨true, plf.map (fun _ => linear_form), calls⟩

/-! ## Vocabulary of the statements -/

/-- The table `f` is positive unate in each of its variables, in the sense of the test at
source line 83. -/
def positive_unate (f : TruthTable) : Prop :=
  ∀ i, i < f.num_vars → implies (cofactor0 f i) (cofactor1 f i) = true

/-- Variable `i` is binate in `f`: both tests of the classification loop fail. -/
def binate_in (f : TruthTable) (i : Nat) : Prop :=
  implies (cofactor0 f i) (cofactor1 f i) = false ∧
    implies (cofactor1 f i) (cofactor0 f i) = false

/-- The weighted sum `Σ_{i<n} w_i·x_i` of assignment `x`. -/
def weighted_sum (n : Nat) (w : Nat → ℚ) (x : Nat) : ℚ :=
  ∑ i ∈ Finset.range n, if x.testBit i = true then w i else 0

/-- Weights `w` and threshold `T` represent `f`: on each of the `2^n` assignments,
`f(x) = 1` iff `Σ w_i·x_i ≥ T`. -/
def represents (f : TruthTable) (w : Nat → ℚ) (T : ℚ) : Prop :=
  ∀ x, x < 2 ^ f.num_vars → (get_bit f x = true ↔ T ≤ weighted_sum f.num_vars w x)

/-- The linear form `lf = [w_0, …, w_{n-1}, T]` represents `f`. -/
def linear_form_represents (f : TruthTable) (lf : List Int) : Prop :=
  represents f (fun i => ((lf.getD i 0 : Int) : ℚ)) ((lf.getD f.num_vars 0 : Int) : ℚ)

/-- The table `f` is a threshold function: some integer weights and threshold represent it. -/
def is_threshold_function (f : TruthTable) : Prop :=
  ∃ (w : Nat → Int) (T : Int), represents f (fun i => (w i : ℚ)) (T : ℚ)

/-- The point `p` (value of column `k + 1` at index `k`) satisfies the row `c`. -/
def satisfies (p : Nat → ℚ) (c : Constraint) : Prop :=
  match c.constr_type with
  | ConstrType.GE =>
    c.rh ≤ ∑ k ∈ Finset.range c.count, c.row.getD k 0 * p (c.colno.getD k 0 - 1)
  | ConstrType.LE =>
    ∑ k ∈ Finset.range c.count, c.row.getD k 0 * p (c.colno.getD k 0 - 1) ≤ c.rh

/-- The rows are jointly satisfiable. -/
def feasible (rows : List Constraint) : Prop :=
  ∃ p : Nat → ℚ, ∀ c, c ∈ rows → satisfies p c

/-- The first `n` values of the point `p` are integers. -/
def integer_valued (n : Nat) (p : Nat → ℚ) : Prop :=
  ∀ k, k < n → ∃ z : Int, p k = (z : ℚ)

/-- The working copy `tt_modified` at source line 99 (the table itself when the
classification loop returned early). -/
def normalized (f : TruthTable) : TruthTable :=
  match classify f with
  | some (_, tt_modified) => tt_modified
  | none => f

/-- The final `is_flipped` (all `false` when the classification loop returned early). -/
def flipped (f : TruthTable) : List Bool :=
  match classify f with
  | some (is_flipped, _) => is_flipped
  | none => List.replicate f.num_vars false

/-- The rows `is_threshold` passes to `add_constraintex` for `f`, in order. -/
def submitted_rows (env : Env) (f : TruthTable) : List Constraint :=
  (build_final env f.num_vars (normalized f)).submitted

/-- The objective `is_threshold` passes to `set_obj_fnex` for `f`. -/
def submitted_objective (env : Env) (f : TruthTable) : Objective :=
  objective_of (f.num_vars + 1) (build_final env f.num_vars (normalized f))

/-- The point the solver reports for the model `is_threshold` builds for `f`. -/
def solver_point (env : Env) (f : TruthTable) : Nat → ℚ :=
  env.lp.get_variables (submitted_rows env f) (submitted_objective env f)

/-- The status the solver reports for the model `is_threshold` builds for `f`. -/
def solver_status (env : Env) (f : TruthTable) : Int :=
  env.lp.solve (submitted_rows env f) (submitted_objective env f)

/-- Contract of the solver on the model built for `f`: it reports `OPTIMAL` only with an
integer-valued point that satisfies every submitted row. -/
def solver_sound (env : Env) (f : TruthTable) : Prop :=
  solver_status env f = OPTIMAL →
    integer_valued (f.num_vars + 1) (solver_point env f) ∧
      ∀ c, c ∈ submitted_rows env f → satisfies (solver_point env f) c

/-- The first `Ncol` values of the point `p` are integers whose absolute values sum to at
most `2^53`: every difference the back-translation loop forms is then an integer of
magnitude at most `2^53`, which is a double and an `int64_t`. -/
def small_point (Ncol : Nat) (p : Nat → ℚ) : Prop :=
  integer_valued Ncol p ∧ ∑ k ∈ Finset.range Ncol, |p k| ≤ 2 ^ 53

/-- Contract of the solver on the model built for `f`: the absolute values of the point it
reports with `OPTIMAL` sum to at most `2^53`. -/
def solver_small (env : Env) (f : TruthTable) : Prop :=
  solver_status env f = OPTIMAL →
    ∑ k ∈ Finset.range (f.num_vars + 1), |solver_point env f k| ≤ 2 ^ 53

/-- Contract of the solver on the model built for `f`: it reports `OPTIMAL` whenever the
submitted rows are feasible. -/
def solver_complete (env : Env) (f : TruthTable) : Prop :=
  feasible (submitted_rows env f) → solver_status env f = OPTIMAL

/-- The LP library builds the model for `f` without failure: `make_lp` returns a model,
both buffers are allocated and `set_obj_fnex` accepts the objective. -/
def model_built (env : Env) (f : TruthTable) : Prop :=
  env.lp.make_lp 0 (f.num_vars + 1) = true ∧ env.malloc_colno = true ∧
    env.malloc_row = true ∧
    env.lp.set_obj_fnex (submitted_rows env f) (submitted_objective env f) = true

/-- The cubes `cs` cover the ON-set of `t` by implicants: every assignment in the ON-set
lies in some cube, and every assignment in a cube is in the ON-set. -/
def is_cover (cs : List cube) (t : TruthTable) : Prop :=
  (∀ x, x < 2 ^ t.num_vars → get_bit t x = true → ∃ c, c ∈ cs ∧ c.contains t.num_vars x) ∧
  (∀ c, c ∈ cs → ∀ x, x < 2 ^ t.num_vars → c.contains t.num_vars x → get_bit t x = true)

/-- All literals of the cubes `cs` over the first `n` variables have polarity `b`. -/
def literals_only (b : Bool) (n : Nat) (cs : List cube) : Prop :=
  ∀ c, c ∈ cs → ∀ j, j < n → c.mask.testBit j = true → c.bits.testBit j = b

/-- Contract of `isop` on the two tables `is_threshold` passes to it when the working copy
is `g`: each answer is a cover by implicants, and when `g` is positive unate in all
variables the cubes of `g` carry only positive literals and the cubes of its
complement only negative literals. -/
def isop_contract (isop : TruthTable → List cube) (g : TruthTable) : Prop :=
  is_cover (isop g) g ∧ is_cover (isop (unary_not g)) (unary_not g) ∧
    (positive_unate g →
      literals_only true g.num_vars (isop g) ∧
        literals_only false g.num_vars (isop (unary_not g)))

/-- The assignment of `n` variables in which variable `j` has the value `p j`. -/
def of_bits (p : Nat → Bool) : Nat → Nat
  | 0 => 0
  | n + 1 => of_bits p n + (if p n then 2 ^ n else 0)

/-- The mask of the variables below `n` that are flagged in `is_flipped`. -/
def flip_mask (is_flipped : List Bool) (n : Nat) : Nat :=
  of_bits (fun j => is_flipped.getD j false) n

/-- Closed form of the row the ON-set loop submits for the cube `c`: coefficient `1` for
each variable that occurs in `c`, `0` for the others, `-1` for the threshold. -/
def onset_constraint (n : Nat) (c : cube) : Constraint :=
  ⟨n + 1,
    (List.range (n + 1)).map
      (fun k => if k < n then (if c.mask.testBit k = true then 1 else 0) else -1),
    (List.range (n + 1)).map (fun k => k + 1), ConstrType.GE, 0⟩

/-- Closed form of the row the OFF-set loop submits for the cube `c`: coefficient `1` for
each variable that does not occur in `c`, `0` for the others, `-1` for the threshold. -/
def offset_constraint (n : Nat) (c : cube) : Constraint :=
  ⟨n + 1,
    (List.range (n + 1)).map
      (fun k => if k < n then (if c.mask.testBit k = true then 0 else 1) else -1),
    (List.range (n + 1)).map (fun k => k + 1), ConstrType.LE, -1⟩

/-- Closed form of the `j`-th row of the third loop: coefficient `1` in column `j + 1`. -/
def nonneg_constraint (Ncol : Nat) (j : Nat) : Constraint :=
  ⟨Ncol, (List.range Ncol).map (fun k => if k = j then 1 else 0),
    (List.range Ncol).map (fun k => k + 1), ConstrType.GE, 0⟩

/-- The mask of the variables listed an odd number of times in `S`. -/
def list_mask (S : List Nat) : Nat := S.foldl (fun m i => m ^^^ 2 ^ i) 0

/-- The table `f` with the variables listed in `S` inverted, one `flip_inplace` each. -/
def flip_vars (f : TruthTable) (S : List Nat) : TruthTable := S.foldl flip_inplace f

/-- The table has one bit per assignment. -/
def well_formed (f : TruthTable) : Prop := f.bits.length = 2 ^ f.num_vars

instance (cs : List cube) (t : TruthTable) : Decidable (is_cover cs t) := by
  unfold is_cover; infer_instance

instance (b : Bool) (n : Nat) (cs : List cube) : Decidable (literals_only b n cs) := by
  unfold literals_only; infer_instance

instance (f : TruthTable) : Decidable (positive_unate f) := by
  unfold positive_unate; infer_instance

instance (f : TruthTable) (i : Nat) : Decidable (binate_in f i) := by
  unfold binate_in; infer_instance

instance (isop : TruthTable → List cube) (g : TruthTable) :
    Decidable (isop_contract isop g) := by
  unfold isop_contract; infer_instance

instance (f : TruthTable) : Decidable (well_formed f) := by
  unfold well_formed; infer_instance

/-! ## Concrete runs -/

/-- The table of `x0 ∧ ¬x1` (two variables), negative unate in `x1`. -/
def and_not_table : TruthTable := ⟨2, [false, true, false, false]⟩

/-- The table of `x0 ⊕ x1`, binate in both variables. -/
def xor_table : TruthTable := ⟨2, [false, true, true, false]⟩

/-- The table of `x0` (one variable). -/
def var_table : TruthTable := ⟨1, [false, true]⟩

/-- An `isop` that answers `x0·x1` for tables containing the assignment `x0 = x1 = 1`
and `¬x0 + ¬x1` for the others. -/
def and_isop (t : TruthTable) : List cube :=
  if get_bit t 3 = true then [⟨3, 3⟩] else [⟨0, 1⟩, ⟨0, 2⟩]

/-- An LP library that accepts everything and reports `OPTIMAL` with the point
`w0 = 1, w1 = 1, T = 2`. -/
def and_lp : LpSolve :=
  ⟨fun _ _ => true, fun _ _ => true, fun _ _ => true, fun _ _ => 0,
    fun _ _ k => (((if k = 2 then 2 else 1) : Int) : ℚ)⟩

/-- The collaborators of the run on `and_not_table`. -/
def and_env : Env := ⟨and_lp, and_isop, true, true, fun _ => 0, fun _ => 0, fun _ => INT64_MIN⟩

/-- An LP library whose `add_constraintex` rejects every row and whose `solve` reports
`OPTIMAL` all the same. -/
def rejecting_lp : LpSolve :=
  ⟨fun _ _ => true, fun _ _ => false, fun _ _ => true, fun _ _ => 0,
    fun _ _ _ => ((1 : Int) : ℚ)⟩

/-- The collaborators of the run with rejected rows. -/
def rejecting_env : Env :=
  ⟨rejecting_lp, fun t => if get_bit t 1 = true then [⟨1, 1⟩] else [⟨0, 1⟩], true, true,
    fun _ => 0, fun _ => 0, fun _ => INT64_MIN⟩

/-- The table of `x0 ∧ x1`. -/
def and_table : TruthTable := ⟨2, [false, false, false, true]⟩

/-- An LP library that accepts everything and reports `OPTIMAL` with the point
`w0 = 19/10, w1 = 19/10, T = 19/5`, which satisfies the rows built for `x0 ∧ x1`. -/
def frac_lp : LpSolve :=
  ⟨fun _ _ => true, fun _ _ => true, fun _ _ => true, fun _ _ => 0,
    fun _ _ k => if k = 2 then 19 / 5 else 19 / 10⟩

/-- The collaborators of the run with a fractional point. -/
def frac_env : Env := ⟨frac_lp, and_isop, true, true, fun _ => 0, fun _ => 0, fun _ => INT64_MIN⟩

/-! ## Vocabulary of the encoding and resource statements -/

/-- The row of an `add_constraintex` call, `none` for every other call. -/
def call_row : Call → Option Constraint
  | Call.add_constraintex c => some c
  | _ => none

/-- The rows passed to `add_constraintex` in a call trace, in order. -/
def rows_of_calls (calls : List Call) : List Constraint := calls.filterMap call_row

/-- The OFF-set row as the specification words it: the coefficient rule of the ON-set rows
(coefficient `1` for a variable appearing in the cube, `0` for a variable not appearing,
`-1` for the threshold) with relation `≤` and right-hand side `-1`. -/
def worded_offset_constraint (n : Nat) (c : cube) : Constraint :=
  ⟨n + 1,
    (List.range (n + 1)).map
      (fun k => if k < n then (if c.mask.testBit k = true then 1 else 0) else -1),
    (List.range (n + 1)).map (fun k => k + 1), ConstrType.LE, -1⟩

/-- The row `Σ_{i required true in c} w_i - T ≥ 0`: coefficient `1` exactly for the
variables that occur positively in `c`. -/
def required_true_constraint (n : Nat) (c : cube) : Constraint :=
  ⟨n + 1,
    (List.range (n + 1)).map
      (fun k => if k < n then
        (if c.mask.testBit k = true ∧ c.bits.testBit k = true then 1 else 0) else -1),
    (List.range (n + 1)).map (fun k => k + 1), ConstrType.GE, 0⟩

/-- The row `Σ_{i not required false in c} w_i - T ≤ -1`: coefficient `0` exactly for the
variables that occur negatively in `c`. -/
def not_required_false_constraint (n : Nat) (c : cube) : Constraint :=
  ⟨n + 1,
    (List.range (n + 1)).map
      (fun k => if k < n then
        (if c.mask.testBit k = true ∧ c.bits.testBit k = false then 0 else 1) else -1),
    (List.range (n + 1)).map (fun k => k + 1), ConstrType.LE, -1⟩

/-- The variables below `n` that are flagged in `is_flipped`, in increasing order. -/
def flagged_vars (is_flipped : List Bool) (n : Nat) : List Nat :=
  (List.range n).filter (fun i => is_flipped.getD i false)

/-- The value of the objective `obj` at the point `p`. -/
def objective_value (obj : Objective) (p : Nat → ℚ) : ℚ :=
  ∑ k ∈ Finset.range obj.count, obj.row.getD k 0 * p (obj.colno.getD k 0 - 1)

/-- The point `p` is an optimal point of the minimization problem with rows `rows` and
objective `obj`: it satisfies every row and no point satisfying every row has a smaller
objective value. -/
def optimal_point (rows : List Constraint) (obj : Objective) (p : Nat → ℚ) : Prop :=
  (∀ c, c ∈ rows → satisfies p c) ∧
    ∀ q : Nat → ℚ, (∀ c, c ∈ rows → satisfies q c) →
      objective_value obj p ≤ objective_value obj q

/-- Contract of the solver on the model built for `f`: it reports `OPTIMAL` with an optimal
point of the submitted minimization problem. -/
def solver_optimal (env : Env) (f : TruthTable) : Prop :=
  solver_status env f = OPTIMAL ∧
    optimal_point (submitted_rows env f) (submitted_objective env f) (solver_point env f)

/-- Contract of the solver on the model built for `f`: it decides feasibility correctly,
reporting `OPTIMAL` exactly when the submitted rows are feasible. -/
def solver_decides (env : Env) (f : TruthTable) : Prop :=
  solver_status env f = OPTIMAL ↔ feasible (submitted_rows env f)

/-! ## Enumeration of the small tables -/

/-- All lists of `k` booleans. -/
def bool_lists : Nat → List (List Bool)
  | 0 => [[]]
  | k + 1 => (bool_lists k).map (fun l => false :: l) ++ (bool_lists k).map (fun l => true :: l)

/-- All lists of `k` integers taken from `vals`. -/
def int_lists (vals : List Int) : Nat → List (List Int)
  | 0 => [[]]
  | k + 1 => vals.flatMap (fun v => (int_lists vals k).map (fun l => v :: l))

/-- The weighted sum of the first `k` variables of assignment `x`, over the integers. -/
def int_sum (w : List Int) (x : Nat) : Nat → Int
  | 0 => 0
  | k + 1 => int_sum w x k + (if x.testBit k then w.getD k 0 else 0)

/-- The weights `w` and threshold `T` agree with the table on every assignment. -/
def fits (t : TruthTable) (w : List Int) (T : Int) : Bool :=
  (List.range (2 ^ t.num_vars)).all
    (fun x => get_bit t x == decide (T ≤ int_sum w x t.num_vars))

/-- The table is non-decreasing in each variable. -/
def monotone_table (t : TruthTable) : Bool :=
  (List.range t.num_vars).all (fun i => (List.range (2 ^ t.num_vars)).all
    (fun x => !get_bit t (set_var x i false) || get_bit t (set_var x i true)))

/-- Some weights in `{0, 1, 2}` and threshold in `{0, 1, 2, 3}` agree with the table. -/
def small_search (t : TruthTable) : Bool :=
  (int_lists [0, 1, 2] t.num_vars).any (fun w => [0, 1, 2, 3].any (fun T => fits t w T))

/-- Every non-decreasing table of `n` variables is found by `small_search`. -/
def small_check (n : Nat) : Bool :=
  (bool_lists (2 ^ n)).all (fun l => !monotone_table ⟨n, l⟩ || small_search ⟨n, l⟩)

/-! ## More concrete runs -/

/-- The table of the majority of three variables. -/
def maj_table : TruthTable := ⟨3, [false, false, false, true, false, true, true, true]⟩

/-- An `isop` that answers the prime cover `x0·x1 + x0·x2 + x1·x2` for tables containing
the assignment `x0 = x1 = x2 = 1` and `¬x0·¬x1 + ¬x0·¬x2 + ¬x1·¬x2` for the others. -/
def maj_isop (t : TruthTable) : List cube :=
  if get_bit t 7 = true then [⟨3, 3⟩, ⟨5, 5⟩, ⟨6, 6⟩] else [⟨0, 3⟩, ⟨0, 5⟩, ⟨0, 6⟩]

/-- An LP library that accepts everything and reports `OPTIMAL` with the point
`w0 = w1 = w2 = 1, T = 2`. -/
def maj_lp : LpSolve :=
  ⟨fun _ _ => true, fun _ _ => true, fun _ _ => true, fun _ _ => 0,
    fun _ _ k => (((if k = 3 then 2 else 1) : Int) : ℚ)⟩

/-- The collaborators of the run on `maj_table`. -/
def maj_env : Env := ⟨maj_lp, maj_isop, true, true, fun _ => 0, fun _ => 0, fun _ => INT64_MIN⟩

/-- The table of `x0·x1 + x2·x3`: unate in its four variables, not a threshold function. -/
def two_pairs_table : TruthTable :=
  ⟨4, [false, false, false, true, false, false, false, true,
       false, false, false, true, true, true, true, true]⟩

/-- An `isop` that answers `x0·x1 + x2·x3` for tables containing the assignment with all
four variables `1` and `¬x0·¬x2 + ¬x0·¬x3 + ¬x1·¬x2 + ¬x1·¬x3` for the others. -/
def two_pairs_isop (t : TruthTable) : List cube :=
  if get_bit t 15 = true then [⟨3, 3⟩, ⟨12, 12⟩]
  else [⟨0, 5⟩, ⟨0, 9⟩, ⟨0, 6⟩, ⟨0, 10⟩]

/-- An LP library that accepts everything and reports `INFEASIBLE` (status `2`). -/
def infeasible_lp : LpSolve :=
  ⟨fun _ _ => true, fun _ _ => true, fun _ _ => true, fun _ _ => 2, fun _ _ _ => 0⟩

/-- The collaborators of the run on `two_pairs_table`. -/
def two_pairs_env : Env :=
  ⟨infeasible_lp, two_pairs_isop, true, true, fun _ => 0, fun _ => 0, fun _ => INT64_MIN⟩

/-- An LP library whose `set_obj_fnex` refuses the objective. -/
def no_objective_lp : LpSolve :=
  ⟨fun _ _ => true, fun _ _ => true, fun _ _ => false, fun _ _ => 0,
    fun _ _ _ => ((1 : Int) : ℚ)⟩

/-- The collaborators of the run with a refused objective. -/
def no_objective_env : Env :=
  ⟨no_objective_lp, fun t => if get_bit t 1 = true then [⟨1, 1⟩] else [⟨0, 1⟩], true, true,
    fun _ => 0, fun _ => 0, fun _ => INT64_MIN⟩

/-- A cube with a negative literal: `x0·¬x1`. -/
def mixed_cube : cube := ⟨1, 3⟩

/-- The table of `x0 ∨ x1`. -/
def or_table : TruthTable := ⟨2, [false, true, true, true]⟩

/-- The table of `¬x0 ∨ x1`, negative unate in `x0`. -/
def not_or_table : TruthTable := ⟨2, [true, false, true, true]⟩

/-- An `isop` that answers `x0 + x1` for tables containing the assignment `x0 = x1 = 1`
and `¬x0·¬x1` for the others. -/
def or_isop (t : TruthTable) : List cube :=
  if get_bit t 3 = true then [⟨1, 1⟩, ⟨2, 2⟩] else [⟨0, 3⟩]

/-- An LP library that accepts everything and reports `OPTIMAL` with the integer point
`w0 = 2^53 + 2, w1 = 1, T = 1`, which satisfies the rows built for `x0 ∨ x1`. -/
def big_lp : LpSolve :=
  ⟨fun _ _ => true, fun _ _ => true, fun _ _ => true, fun _ _ => 0,
    fun _ _ k => (((if k = 0 then 9007199254740994 else 1) : Int) : ℚ)⟩

/-- The collaborators of the run with a weight above `2^53`. -/
def big_env : Env := ⟨big_lp, or_isop, true, true, fun _ => 0, fun _ => 0, fun _ => INT64_MIN⟩

/-- An LP library that accepts everything and reports `OPTIMAL` with the integer point
`w0 = 10^19, w1 = 1, T = 1`, which satisfies the rows built for `x0 ∨ x1`; `10^19` is a
double and exceeds `INT64_MAX`. -/
def huge_lp : LpSolve :=
  ⟨fun _ _ => true, fun _ _ => true, fun _ _ => true, fun _ _ => 0,
    fun _ _ k => (((if k = 0 then 10000000000000000000 else 1) : Int) : ℚ)⟩

/-- The collaborators of the run with a weight above `INT64_MAX`, on a platform whose
out-of-range conversion yields `INT64_MIN`. -/
def huge_env : Env :=
  ⟨huge_lp, or_isop, true, true, fun _ => 0, fun _ => 0, fun _ => INT64_MIN⟩

/-! ## Assignments and truth-table primitives -/

theorem testBit_flip (x i j : Nat) :
    (x ^^^ 2 ^ i).testBit j = if j = i then !x.testBit i else x.testBit j := by
  rw [Nat.testBit_xor, Nat.testBit_two_pow]
  by_cases h : j = i
  · subst h; simp
  · have h2 : ¬ i = j := fun e => h e.symm
    simp [h, h2]

theorem testBit_set_var (x i j : Nat) (b : Bool) :
    (set_var x i b).testBit j = if j = i then b else x.testBit j := by
  unfold set_var
  by_cases hb : x.testBit i = b
  · rw [if_pos hb]
    by_cases h : j = i
    · subst h; simp [hb]
    · simp [h]
  · rw [if_neg hb, testBit_flip]
    by_cases h : j = i
    · subst h
      simp
      cases hx : x.testBit j <;> cases b <;> simp_all
    · simp [h]

theorem flip_lt {x i n : Nat} (hx : x < 2 ^ n) (hi : i < n) : x ^^^ 2 ^ i < 2 ^ n :=
  Nat.xor_lt_two_pow hx (Nat.pow_lt_pow_right (by decide) hi)

theorem set_var_lt {x i n : Nat} (b : Bool) (hx : x < 2 ^ n) (hi : i < n) :
    set_var x i b < 2 ^ n := by
  unfold set_var
  split
  · exact hx
  · exact flip_lt hx hi

theorem get_bit_tabulate {n x : Nat} (g : Nat → Bool) (hx : x < 2 ^ n) :
    get_bit (tabulate n g) x = g x := by
  simp [get_bit, tabulate, List.getD_eq_getElem?_getD, List.getElem?_map, List.getElem?_range hx]

@[simp] theorem tabulate_num_vars (n : Nat) (g : Nat → Bool) : (tabulate n g).num_vars = n := rfl
@[simp] theorem cofactor0_num_vars (f : TruthTable) (i : Nat) : (cofactor0 f i).num_vars = f.num_vars := rfl
@[simp] theorem cofactor1_num_vars (f : TruthTable) (i : Nat) : (cofactor1 f i).num_vars = f.num_vars := rfl
@[simp] theorem flip_inplace_num_vars (f : TruthTable) (i : Nat) : (flip_inplace f i).num_vars = f.num_vars := rfl
@[simp] theorem unary_not_num_vars (f : TruthTable) : (unary_not f).num_vars = f.num_vars := rfl

theorem implies_iff (a b : TruthTable) :
    implies a b = true ↔ ∀ x, x < 2 ^ a.num_vars → get_bit a x = true → get_bit b x = true := by
  simp [implies]

theorem get_bit_cofactor0 {f : TruthTable} {x : Nat} (i : Nat) (hx : x < 2 ^ f.num_vars) :
    get_bit (cofactor0 f i) x = get_bit f (set_var x i false) := get_bit_tabulate _ hx

theorem get_bit_cofactor1 {f : TruthTable} {x : Nat} (i : Nat) (hx : x < 2 ^ f.num_vars) :
    get_bit (cofactor1 f i) x = get_bit f (set_var x i true) := get_bit_tabulate _ hx

theorem get_bit_flip_inplace {f : TruthTable} {x : Nat} (i : Nat) (hx : x < 2 ^ f.num_vars) :
    get_bit (flip_inplace f i) x = get_bit f (x ^^^ 2 ^ i) := get_bit_tabulate _ hx

theorem get_bit_unary_not {f : TruthTable} {x : Nat} (hx : x < 2 ^ f.num_vars) :
    get_bit (unary_not f) x = !get_bit f x := get_bit_tabulate _ hx

/-- Semantics of the positive-unate test. -/
theorem pos_test_iff (f : TruthTable) (i : Nat) :
    implies (cofactor0 f i) (cofactor1 f i) = true ↔
      ∀ x, x < 2 ^ f.num_vars → get_bit f (set_var x i false) = true →
        get_bit f (set_var x i true) = true := by
  rw [implies_iff]
  constructor
  · intro h x hx h0
    have := h x hx
    rw [get_bit_cofactor0 i hx, get_bit_cofactor1 i hx] at this
    exact this h0
  · intro h x hx
    have hx2 : x < 2 ^ f.num_vars := hx
    rw [get_bit_cofactor0 i hx2, get_bit_cofactor1 i hx2]
    exact h x hx2

theorem neg_test_iff (f : TruthTable) (i : Nat) :
    implies (cofactor1 f i) (cofactor0 f i) = true ↔
      ∀ x, x < 2 ^ f.num_vars → get_bit f (set_var x i true) = true →
        get_bit f (set_var x i false) = true := by
  rw [implies_iff]
  constructor
  · intro h x hx h0
    have := h x hx
    rw [get_bit_cofactor0 i hx, get_bit_cofactor1 i hx] at this
    exact this h0
  · intro h x hx
    have hx2 : x < 2 ^ f.num_vars := hx
    rw [get_bit_cofactor0 i hx2, get_bit_cofactor1 i hx2]
    exact h x hx2

/-! ## The classification loop -/

theorem of_bits_lt (p : Nat → Bool) (n : Nat) : of_bits p n < 2 ^ n := by
  induction n with
  | zero => simp [of_bits]
  | succ n ih =>
    simp only [of_bits]
    split <;> rw [Nat.pow_succ] <;> omega

theorem testBit_of_bits (p : Nat → Bool) (n j : Nat) :
    (of_bits p n).testBit j = (decide (j < n) && p j) := by
  induction n with
  | zero => simp [of_bits]
  | succ n ih =>
    simp only [of_bits]
    by_cases hF : p n = true
    · rw [if_pos hF, Nat.add_comm]
      rcases Nat.lt_trichotomy j n with h | h | h
      · rw [Nat.testBit_two_pow_add_gt h, ih]
        simp [h, Nat.lt_succ_of_lt h]
      · subst h
        rw [Nat.testBit_two_pow_add_eq, Nat.testBit_lt_two_pow (of_bits_lt p j), hF]
        simp
      · have h1 : 2 ^ n + of_bits p n < 2 ^ j := by
          have := of_bits_lt p n
          have h2 : 2 ^ (n + 1) ≤ 2 ^ j := Nat.pow_le_pow_right (by decide) h
          rw [Nat.pow_succ] at h2
          omega
        rw [Nat.testBit_lt_two_pow h1]
        have : ¬ j < n + 1 := by omega
        simp [this]
    · rw [if_neg hF, Nat.add_zero, ih]
      by_cases h : j = n
      · subst h
        simp at hF
        simp [hF]
      · have : (j < n + 1) = (j < n) := by
          apply propext; omega
        simp [this]

theorem flip_mask_lt (F : List Bool) (n : Nat) : flip_mask F n < 2 ^ n := of_bits_lt _ n

theorem testBit_flip_mask (F : List Bool) (n j : Nat) :
    (flip_mask F n).testBit j = (decide (j < n) && F.getD j false) := testBit_of_bits _ n j

theorem flip_mask_congr (F G : List Bool) (n : Nat)
    (h : ∀ j, j < n → F.getD j false = G.getD j false) : flip_mask F n = flip_mask G n := by
  apply Nat.eq_of_testBit_eq
  intro j
  rw [testBit_flip_mask, testBit_flip_mask]
  by_cases hj : j < n
  · rw [h j hj]
  · simp [hj]

theorem xor_lt {x m n : Nat} (hx : x < 2 ^ n) (hm : m < 2 ^ n) : x ^^^ m < 2 ^ n :=
  Nat.xor_lt_two_pow hx hm

/-- Invariant of the classification loop. -/
theorem unate_loop_spec (f : TruthTable) (k i : Nat) (fl : List Bool) (tm : TruthTable)
    (F : List Bool) (g : TruthTable)
    (hki : k + i = f.num_vars) (hlen : fl.length = f.num_vars)
    (hnv : tm.num_vars = f.num_vars)
    (hinv : ∀ x, x < 2 ^ f.num_vars → get_bit tm x = get_bit f (x ^^^ flip_mask fl i))
    (hfl : ∀ j, j < i → fl.getD j false = !implies (cofactor0 f j) (cofactor1 f j))
    (hun : ∀ j, j < i → implies (cofactor0 f j) (cofactor1 f j) = true ∨
      implies (cofactor1 f j) (cofactor0 f j) = true)
    (hrun : unate_loop f k i fl tm = some (F, g)) :
    F.length = f.num_vars ∧ g.num_vars = f.num_vars ∧
    (∀ x, x < 2 ^ f.num_vars → get_bit g x = get_bit f (x ^^^ flip_mask F f.num_vars)) ∧
    (∀ j, j < f.num_vars → F.getD j false = !implies (cofactor0 f j) (cofactor1 f j)) ∧
    (∀ j, j < f.num_vars → implies (cofactor0 f j) (cofactor1 f j) = true ∨
      implies (cofactor1 f j) (cofactor0 f j) = true) := by
  induction k generalizing i fl tm with
  | zero =>
    simp only [unate_loop, Option.some.injEq, Prod.mk.injEq] at hrun
    obtain ⟨rfl, rfl⟩ := hrun
    have hi : i = f.num_vars := by omega
    subst hi
    exact ⟨hlen, hnv, hinv, hfl, hun⟩
  | succ k ih =>
    have hi : i < f.num_vars := by omega
    simp only [unate_loop] at hrun
    by_cases hp : implies (cofactor0 f i) (cofactor1 f i) = true
    · rw [if_pos hp] at hrun
      have hget : ∀ j, (fl.set i false).getD j false = if j = i then false else fl.getD j false := by
        intro j
        by_cases hj : j = i
        · subst hj; simp [List.getD_eq_getElem?_getD, List.getElem?_set, hlen, hi]
        · have : ¬ i = j := fun e => hj e.symm
          simp [List.getD_eq_getElem?_getD, List.getElem?_set, this, hj]
      refine ih (i + 1) (fl.set i false) tm (by omega) (by simp [hlen]) hnv ?_ ?_ ?_ hrun
      · intro x hx
        rw [hinv x hx]
        congr 1
        congr 1
        apply Nat.eq_of_testBit_eq
        intro j
        rw [testBit_flip_mask, testBit_flip_mask, hget]
        by_cases hj : j = i
        · subst hj; simp
        · have : (j < i + 1) = (j < i) := by apply propext; omega
          simp [hj, this]
      · intro j hj
        rw [hget]
        by_cases hji : j = i
        · subst hji; simp [hp]
        · rw [if_neg hji]; exact hfl j (by omega)
      · intro j hj
        by_cases hji : j = i
        · subst hji; exact Or.inl hp
        · exact hun j (by omega)
    · rw [if_neg hp] at hrun
      by_cases hq : implies (cofactor1 f i) (cofactor0 f i) = true
      · rw [if_pos hq] at hrun
        have hget : ∀ j, (fl.set i true).getD j false = if j = i then true else fl.getD j false := by
          intro j
          by_cases hj : j = i
          · subst hj; simp [List.getD_eq_getElem?_getD, List.getElem?_set, hlen, hi]
          · have : ¬ i = j := fun e => hj e.symm
            simp [List.getD_eq_getElem?_getD, List.getElem?_set, this, hj]
        refine ih (i + 1) (fl.set i true) (flip_inplace tm i) (by omega) (by simp [hlen])
          (by simp [hnv]) ?_ ?_ ?_ hrun
        · intro x hx
          have hx2 : x < 2 ^ tm.num_vars := by rw [hnv]; exact hx
          rw [get_bit_flip_inplace i hx2, hinv _ (flip_lt hx hi)]
          congr 1
          apply Nat.eq_of_testBit_eq
          intro j
          simp only [Nat.testBit_xor, Nat.testBit_two_pow, testBit_flip_mask, hget]
          by_cases hj : j = i
          · subst hj; simp
          · have : (j < i + 1) = (j < i) := by apply propext; omega
            have hij : ¬ i = j := fun e => hj e.symm
            simp [hj, hij, this]
        · intro j hj
          rw [hget]
          by_cases hji : j = i
          · subst hji; simp [hp]
          · rw [if_neg hji]; exact hfl j (by omega)
        · intro j hj
          by_cases hji : j = i
          · subst hji; exact Or.inr hq
          · exact hun j (by omega)
      · rw [if_neg hq] at hrun
        exact absurd hrun (by simp)

theorem classify_spec (f : TruthTable) (F : List Bool) (g : TruthTable)
    (hrun : classify f = some (F, g)) :
    F.length = f.num_vars ∧ g.num_vars = f.num_vars ∧
    (∀ x, x < 2 ^ f.num_vars → get_bit g x = get_bit f (x ^^^ flip_mask F f.num_vars)) ∧
    (∀ j, j < f.num_vars → F.getD j false = !implies (cofactor0 f j) (cofactor1 f j)) ∧
    (∀ j, j < f.num_vars → implies (cofactor0 f j) (cofactor1 f j) = true ∨
      implies (cofactor1 f j) (cofactor0 f j) = true) := by
  refine unate_loop_spec f f.num_vars 0 _ f F g (by omega) (by simp) rfl ?_ ?_ ?_ hrun
  · intro x _; simp [flip_mask, of_bits]
  · intro j hj; omega
  · intro j hj; omega

/-! ## Unateness under inverted variables -/

theorem xor_xor_cancel (x m : Nat) : (x ^^^ m) ^^^ m = x := by
  rw [Nat.xor_assoc, Nat.xor_self, Nat.xor_zero]

theorem set_var_xor (x i m : Nat) (b : Bool) :
    set_var x i b ^^^ m = set_var (x ^^^ m) i (b ^^ m.testBit i) := by
  apply Nat.eq_of_testBit_eq
  intro j
  simp only [Nat.testBit_xor, testBit_set_var]
  by_cases hj : j = i
  · subst hj; simp
  · simp [hj]

/-- The positive-unate test on a table with inverted variables. -/
theorem pos_test_xor (f h : TruthTable) (m i : Nat) (hm : m < 2 ^ f.num_vars)
    (hnv : h.num_vars = f.num_vars)
    (hh : ∀ x, x < 2 ^ f.num_vars → get_bit h x = get_bit f (x ^^^ m)) (hi : i < f.num_vars) :
    implies (cofactor0 h i) (cofactor1 h i) =
      if m.testBit i = true then implies (cofactor1 f i) (cofactor0 f i)
      else implies (cofactor0 f i) (cofactor1 f i) := by
  rw [Bool.eq_iff_iff, pos_test_iff, hnv]
  by_cases hb : m.testBit i = true
  · rw [if_pos hb, neg_test_iff]
    constructor
    · intro H x hx h1
      have := H (x ^^^ m) (xor_lt hx hm)
      rw [hh _ (set_var_lt _ (xor_lt hx hm) hi), hh _ (set_var_lt _ (xor_lt hx hm) hi),
        set_var_xor, set_var_xor, xor_xor_cancel, hb] at this
      exact this h1
    · intro H x hx h1
      rw [hh _ (set_var_lt _ hx hi), set_var_xor, hb] at h1 ⊢
      exact H _ (xor_lt hx hm) h1
  · rw [if_neg hb, pos_test_iff]
    have hb2 : m.testBit i = false := by simpa using hb
    constructor
    · intro H x hx h1
      have := H (x ^^^ m) (xor_lt hx hm)
      rw [hh _ (set_var_lt _ (xor_lt hx hm) hi), hh _ (set_var_lt _ (xor_lt hx hm) hi),
        set_var_xor, set_var_xor, xor_xor_cancel, hb2] at this
      exact this h1
    · intro H x hx h1
      rw [hh _ (set_var_lt _ hx hi), set_var_xor, hb2] at h1 ⊢
      exact H _ (xor_lt hx hm) h1

/-- The negative-unate test on a table with inverted variables. -/
theorem neg_test_xor (f h : TruthTable) (m i : Nat) (hm : m < 2 ^ f.num_vars)
    (hnv : h.num_vars = f.num_vars)
    (hh : ∀ x, x < 2 ^ f.num_vars → get_bit h x = get_bit f (x ^^^ m)) (hi : i < f.num_vars) :
    implies (cofactor1 h i) (cofactor0 h i) =
      if m.testBit i = true then implies (cofactor0 f i) (cofactor1 f i)
      else implies (cofactor1 f i) (cofactor0 f i) := by
  rw [Bool.eq_iff_iff, neg_test_iff, hnv]
  by_cases hb : m.testBit i = true
  · rw [if_pos hb, pos_test_iff]
    constructor
    · intro H x hx h1
      have := H (x ^^^ m) (xor_lt hx hm)
      rw [hh _ (set_var_lt _ (xor_lt hx hm) hi), hh _ (set_var_lt _ (xor_lt hx hm) hi),
        set_var_xor, set_var_xor, xor_xor_cancel, hb] at this
      exact this h1
    · intro H x hx h1
      rw [hh _ (set_var_lt _ hx hi), set_var_xor, hb] at h1 ⊢
      exact H _ (xor_lt hx hm) h1
  · rw [if_neg hb, neg_test_iff]
    have hb2 : m.testBit i = false := by simpa using hb
    constructor
    · intro H x hx h1
      have := H (x ^^^ m) (xor_lt hx hm)
      rw [hh _ (set_var_lt _ (xor_lt hx hm) hi), hh _ (set_var_lt _ (xor_lt hx hm) hi),
        set_var_xor, set_var_xor, xor_xor_cancel, hb2] at this
      exact this h1
    · intro H x hx h1
      rw [hh _ (set_var_lt _ hx hi), set_var_xor, hb2] at h1 ⊢
      exact H _ (xor_lt hx hm) h1

/-- After the classification loop the working copy is positive unate in every variable. -/
theorem classify_positive_unate (f : TruthTable) (F : List Bool) (g : TruthTable)
    (hrun : classify f = some (F, g)) : positive_unate g := by
  obtain ⟨_, hnv, hg, hF, hun⟩ := classify_spec f F g hrun
  intro i hi
  rw [hnv] at hi
  rw [pos_test_xor f g _ i (flip_mask_lt F _) hnv hg hi, testBit_flip_mask, hF i hi]
  by_cases hp : implies (cofactor0 f i) (cofactor1 f i) = true
  · simp [hp]
  · have hp2 : implies (cofactor0 f i) (cofactor1 f i) = false := by simpa using hp
    rcases hun i hi with h | h
    · exact absurd h hp
    · simp [hp2, hi, h]

/-! ## The literal test and the submitted rows -/

theorem mem_bit_set (m i : Nat) :
    i ∈ (Finset.range (m + 1)).filter (fun j => m.testBit j = true) ↔ m.testBit i = true := by
  rw [Finset.mem_filter, Finset.mem_range]
  constructor
  · exact fun h => h.2
  · intro h
    refine ⟨?_, h⟩
    have h1 := Nat.testBit_implies_ge h
    have h2 := Nat.lt_two_pow i
    omega

/-- The literal test of the constraint builder: removing literal `j` changes the number
of literals exactly when variable `j` occurs in the cube. -/
theorem num_literals_remove (c : cube) (j : Nat) :
    c.num_literals ≠ (c.remove_literal j).num_literals ↔ c.mask.testBit j = true := by
  unfold cube.num_literals cube.remove_literal
  simp only
  by_cases h : c.mask.testBit j = true
  · simp only [h, iff_true]
    have hset : (Finset.range (set_var c.mask j false + 1)).filter
        (fun k => (set_var c.mask j false).testBit k = true) =
        ((Finset.range (c.mask + 1)).filter (fun k => c.mask.testBit k = true)).erase j := by
      ext k
      rw [mem_bit_set, Finset.mem_erase, mem_bit_set, testBit_set_var]
      by_cases hk : k = j
      · simp [hk]
      · simp [hk]
    rw [hset, Finset.card_erase_of_mem ((mem_bit_set _ _).2 h)]
    have hpos : 0 < ((Finset.range (c.mask + 1)).filter (fun k => c.mask.testBit k = true)).card :=
      Finset.card_pos.2 ⟨j, (mem_bit_set _ _).2 h⟩
    omega
  · have h2 : c.mask.testBit j = false := by simpa using h
    have : set_var c.mask j false = c.mask := by simp [set_var, h2]
    rw [this]
    simp [h2]

theorem for_range_succ {σ : Type} (n : Nat) (body : Nat → σ → σ) (s : σ) :
    for_range (n + 1) body s = body n (for_range n body s) := by
  simp [for_range, List.range_succ, List.foldl_append]

theorem for_range_zero {σ : Type} (body : Nat → σ → σ) (s : σ) :
    for_range 0 body s = s := rfl

theorem onset_literals_spec (c : cube) (n : Nat) (s : BuildState) :
    for_range n (onset_literal c) s =
      { s with
        colno := fun k => if k < n then k + 1 else s.colno k
        row := fun k => if k < n then (if c.mask.testBit k = true then 1 else 0) else s.row k } := by
  induction n with
  | zero => simp [for_range_zero]
  | succ n ih =>
    rw [for_range_succ, ih]
    unfold onset_literal
    have hiff := num_literals_remove c n
    by_cases h : c.mask.testBit n = true
    · rw [if_pos (hiff.2 h)]
      simp only [BuildState.mk.injEq, and_true, true_and]
      constructor <;> funext k <;> by_cases hk : k = n
      · subst hk; simp
      · have : (k < n + 1) = (k < n) := by apply propext; omega
        simp [Function.update, hk, this]
      · subst hk; simp [h]
      · have : (k < n + 1) = (k < n) := by apply propext; omega
        simp [Function.update, hk, this]
    · rw [if_neg (fun hc => h (hiff.1 hc))]
      simp only [BuildState.mk.injEq, and_true, true_and]
      constructor <;> funext k <;> by_cases hk : k = n
      · subst hk; simp
      · have : (k < n + 1) = (k < n) := by apply propext; omega
        simp [Function.update, hk, this]
      · subst hk; simp [h]
      · have : (k < n + 1) = (k < n) := by apply propext; omega
        simp [Function.update, hk, this]

theorem offset_literals_spec (c : cube) (n : Nat) (s : BuildState) :
    for_range n (offset_literal c) s =
      { s with
        colno := fun k => if k < n then k + 1 else s.colno k
        row := fun k => if k < n then (if c.mask.testBit k = true then 0 else 1) else s.row k } := by
  induction n with
  | zero => simp [for_range_zero]
  | succ n ih =>
    rw [for_range_succ, ih]
    unfold offset_literal
    have hiff := num_literals_remove c n
    by_cases h : c.mask.testBit n = true
    · have hne : ¬ c.num_literals = (c.remove_literal n).num_literals := hiff.2 h
      rw [if_neg hne]
      simp only [BuildState.mk.injEq, and_true, true_and]
      constructor <;> funext k <;> by_cases hk : k = n
      · subst hk; simp
      · have : (k < n + 1) = (k < n) := by apply propext; omega
        simp [Function.update, hk, this]
      · subst hk; simp [h]
      · have : (k < n + 1) = (k < n) := by apply propext; omega
        simp [Function.update, hk, this]
    · have heq : c.num_literals = (c.remove_literal n).num_literals := by
        by_contra hc; exact h (hiff.1 hc)
      rw [if_pos heq]
      simp only [BuildState.mk.injEq, and_true, true_and]
      constructor <;> funext k <;> by_cases hk : k = n
      · subst hk; simp
      · have : (k < n + 1) = (k < n) := by apply propext; omega
        simp [Function.update, hk, this]
      · subst hk; simp [h]
      · have : (k < n + 1) = (k < n) := by apply propext; omega
        simp [Function.update, hk, this]

theorem nonneg_entries_spec (j n : Nat) (s : BuildState) :
    for_range n (nonneg_entry j) s =
      { s with
        colno := fun k => if k < n then k + 1 else s.colno k
        row := fun k => if k < n then (if k = j then 1 else 0) else s.row k } := by
  induction n with
  | zero => simp [for_range_zero]
  | succ n ih =>
    rw [for_range_succ, ih]
    unfold nonneg_entry
    by_cases h : n = j
    · rw [if_pos h]
      subst h
      simp only [BuildState.mk.injEq, and_true, true_and]
      constructor <;> funext k <;> by_cases hk : k = n
      · subst hk; simp
      · have : (k < n + 1) = (k < n) := by apply propext; omega
        simp [Function.update, hk, this]
      · subst hk; simp
      · have : (k < n + 1) = (k < n) := by apply propext; omega
        simp [Function.update, hk, this]
    · rw [if_neg h]
      simp only [BuildState.mk.injEq, and_true, true_and]
      constructor <;> funext k <;> by_cases hk : k = n
      · subst hk; simp [h]
      · have : (k < n + 1) = (k < n) := by apply propext; omega
        simp [Function.update, hk, this]
      · subst hk; simp [h]
      · have : (k < n + 1) = (k < n) := by apply propext; omega
        simp [Function.update, hk, this]

theorem objective_entries_spec (n : Nat) (s : BuildState) :
    for_range n objective_entry s =
      { s with
        colno := fun k => if k < n then k + 1 else s.colno k
        row := fun k => if k < n then 1 else s.row k } := by
  induction n with
  | zero => simp [for_range_zero]
  | succ n ih =>
    rw [for_range_succ, ih]
    unfold objective_entry
    simp only [BuildState.mk.injEq, and_true, true_and]
    constructor <;> funext k <;> by_cases hk : k = n
    · subst hk; simp
    · have : (k < n + 1) = (k < n) := by apply propext; omega
      simp [Function.update, hk, this]
    · subst hk; simp
    · have : (k < n + 1) = (k < n) := by apply propext; omega
      simp [Function.update, hk, this]

theorem snapshot_congr {α : Type} (n : Nat) (a b : Nat → α) (h : ∀ k, k < n → a k = b k) :
    snapshot n a = snapshot n b := by
  unfold snapshot
  apply List.map_congr_left
  intro k hk
  exact h k (List.mem_range.1 hk)

theorem onset_cube_submitted (lp : LpSolve) (n : Nat) (s : BuildState) (c : cube) :
    (onset_cube lp n s c).submitted = s.submitted ++ [onset_constraint n c] := by
  unfold onset_cube submit
  rw [onset_literals_spec]
  simp only [onset_constraint, List.append_cancel_left_eq, List.cons.injEq, and_true,
    Constraint.mk.injEq, true_and]
  constructor
  · apply snapshot_congr
    intro k hk
    by_cases h : k = n
    · subst h; simp
    · have : k < n := by omega
      simp [Function.update, h, this]
  · apply snapshot_congr
    intro k hk
    by_cases h : k = n
    · subst h; simp
    · have : k < n := by omega
      simp [Function.update, h, this]

theorem offset_cube_submitted (lp : LpSolve) (n : Nat) (s : BuildState) (c : cube) :
    (offset_cube lp n s c).submitted = s.submitted ++ [offset_constraint n c] := by
  unfold offset_cube submit
  rw [offset_literals_spec]
  simp only [offset_constraint, List.append_cancel_left_eq, List.cons.injEq, and_true,
    Constraint.mk.injEq, true_and]
  constructor
  · apply snapshot_congr
    intro k hk
    by_cases h : k = n
    · subst h; simp
    · have : k < n := by omega
      simp [Function.update, h, this]
  · apply snapshot_congr
    intro k hk
    by_cases h : k = n
    · subst h; simp
    · have : k < n := by omega
      simp [Function.update, h, this]

theorem nonneg_row_submitted (lp : LpSolve) (Ncol j : Nat) (s : BuildState) :
    (nonneg_row lp Ncol j s).submitted = s.submitted ++ [nonneg_constraint Ncol j] := by
  unfold nonneg_row submit
  rw [nonneg_entries_spec]
  simp only [nonneg_constraint, List.append_cancel_left_eq, List.cons.injEq, and_true,
    Constraint.mk.injEq, true_and]
  constructor
  · apply snapshot_congr
    intro k hk
    simp [hk]
  · apply snapshot_congr
    intro k hk
    simp [hk]

theorem onset_loop_submitted (lp : LpSolve) (n : Nat) (cs : List cube) (s : BuildState) :
    (cs.foldl (onset_cube lp n) s).submitted = s.submitted ++ cs.map (onset_constraint n) := by
  induction cs generalizing s with
  | nil => simp
  | cons c cs ih => rw [List.foldl_cons, ih, onset_cube_submitted]; simp

theorem offset_loop_submitted (lp : LpSolve) (n : Nat) (cs : List cube) (s : BuildState) :
    (cs.foldl (offset_cube lp n) s).submitted = s.submitted ++ cs.map (offset_constraint n) := by
  induction cs generalizing s with
  | nil => simp
  | cons c cs ih => rw [List.foldl_cons, ih, offset_cube_submitted]; simp

theorem nonneg_loop_submitted (lp : LpSolve) (Ncol m : Nat) (s : BuildState) :
    (for_range m (nonneg_row lp Ncol) s).submitted =
      s.submitted ++ (List.range m).map (nonneg_constraint Ncol) := by
  induction m with
  | zero => simp [for_range_zero]
  | succ m ih =>
    rw [for_range_succ, nonneg_row_submitted, ih, List.range_succ]
    simp

/-- The rows submitted by the three loops, in closed form. -/
theorem build_constraints_submitted (lp : LpSolve) (n : Nat) (cs ds : List cube)
    (s : BuildState) :
    (build_constraints lp n cs ds s).submitted =
      s.submitted ++ cs.map (onset_constraint n) ++ ds.map (offset_constraint n) ++
        (List.range (n + 1)).map (nonneg_constraint (n + 1)) := by
  unfold build_constraints
  simp only [nonneg_loop_submitted, offset_loop_submitted, onset_loop_submitted]

theorem submitted_rows_eq (env : Env) (f : TruthTable) :
    submitted_rows env f =
      (env.isop (normalized f)).map (onset_constraint f.num_vars) ++
        (env.isop (unary_not (normalized f))).map (offset_constraint f.num_vars) ++
        (List.range (f.num_vars + 1)).map (nonneg_constraint (f.num_vars + 1)) := by
  unfold submitted_rows build_final
  simp only [objective_entries_spec, build_constraints_submitted, build_init, List.nil_append]

/-! ## Meaning of the submitted rows -/

theorem getD_map_range {α : Type} (n k : Nat) (hk : k < n) (g : Nat → α) (d : α) :
    ((List.range n).map g).getD k d = g k := by
  simp [List.getD_eq_getElem?_getD, List.getElem?_map, List.getElem?_range hk]

theorem row_sum_eq (n : Nat) (coef : Nat → ℚ) (p : Nat → ℚ) :
    ∑ k ∈ Finset.range n, ((List.range n).map coef).getD k 0 *
        p (((List.range n).map (fun k => k + 1)).getD k 0 - 1) =
      ∑ k ∈ Finset.range n, coef k * p k := by
  apply Finset.sum_congr rfl
  intro k hk
  have hk2 := Finset.mem_range.1 hk
  rw [getD_map_range n k hk2, getD_map_range n k hk2]
  simp

theorem satisfies_onset (n : Nat) (c : cube) (p : Nat → ℚ) :
    satisfies p (onset_constraint n c) ↔
      p n ≤ ∑ k ∈ Finset.range n, if c.mask.testBit k = true then p k else 0 := by
  unfold satisfies onset_constraint
  simp only
  rw [row_sum_eq, Finset.sum_range_succ]
  have : ∑ k ∈ Finset.range n,
      (if k < n then (if c.mask.testBit k = true then (1 : ℚ) else 0) else -1) * p k =
      ∑ k ∈ Finset.range n, if c.mask.testBit k = true then p k else 0 := by
    apply Finset.sum_congr rfl
    intro k hk
    have hk2 := Finset.mem_range.1 hk
    rw [if_pos hk2]
    split <;> simp
  rw [this]
  simp only [lt_self_iff_false, if_false]
  constructor <;> intro h <;> linarith

theorem satisfies_offset (n : Nat) (c : cube) (p : Nat → ℚ) :
    satisfies p (offset_constraint n c) ↔
      (∑ k ∈ Finset.range n, if c.mask.testBit k = true then 0 else p k) ≤ p n - 1 := by
  unfold satisfies offset_constraint
  simp only
  rw [row_sum_eq, Finset.sum_range_succ]
  have : ∑ k ∈ Finset.range n,
      (if k < n then (if c.mask.testBit k = true then (0 : ℚ) else 1) else -1) * p k =
      ∑ k ∈ Finset.range n, if c.mask.testBit k = true then 0 else p k := by
    apply Finset.sum_congr rfl
    intro k hk
    have hk2 := Finset.mem_range.1 hk
    rw [if_pos hk2]
    split <;> simp
  rw [this]
  simp only [lt_self_iff_false, if_false]
  constructor <;> intro h <;> linarith

theorem satisfies_nonneg (Ncol j : Nat) (hj : j < Ncol) (p : Nat → ℚ) :
    satisfies p (nonneg_constraint Ncol j) ↔ 0 ≤ p j := by
  unfold satisfies nonneg_constraint
  simp only
  rw [row_sum_eq]
  have : ∑ k ∈ Finset.range Ncol, (if k = j then (1 : ℚ) else 0) * p k = p j := by
    rw [Finset.sum_eq_single j]
    · simp
    · intro b _ hb; simp [hb]
    · intro h; exact absurd (Finset.mem_range.2 hj) h
  rw [this]

/-- A point satisfies all submitted rows iff it satisfies the three families. -/
theorem satisfies_submitted (env : Env) (f : TruthTable) (p : Nat → ℚ) :
    (∀ c, c ∈ submitted_rows env f → satisfies p c) ↔
      (∀ c, c ∈ env.isop (normalized f) →
        p f.num_vars ≤ ∑ k ∈ Finset.range f.num_vars,
          if c.mask.testBit k = true then p k else 0) ∧
      (∀ c, c ∈ env.isop (unary_not (normalized f)) →
        (∑ k ∈ Finset.range f.num_vars, if c.mask.testBit k = true then 0 else p k) ≤
          p f.num_vars - 1) ∧
      (∀ j, j < f.num_vars + 1 → 0 ≤ p j) := by
  rw [submitted_rows_eq]
  constructor
  · intro h
    refine ⟨?_, ?_, ?_⟩
    · intro c hc
      rw [← satisfies_onset]
      apply h
      simp only [List.mem_append, List.mem_map]
      exact Or.inl (Or.inl ⟨c, hc, rfl⟩)
    · intro c hc
      rw [← satisfies_offset]
      apply h
      simp only [List.mem_append, List.mem_map]
      exact Or.inl (Or.inr ⟨c, hc, rfl⟩)
    · intro j hj
      rw [← satisfies_nonneg _ j hj]
      apply h
      simp only [List.mem_append, List.mem_map]
      exact Or.inr ⟨j, List.mem_range.2 hj, rfl⟩
  · rintro ⟨h1, h2, h3⟩ c hc
    simp only [List.mem_append, List.mem_map] at hc
    rcases hc with (⟨d, hd, rfl⟩ | ⟨d, hd, rfl⟩) | ⟨j, hj, rfl⟩
    · rw [satisfies_onset]; exact h1 d hd
    · rw [satisfies_offset]; exact h2 d hd
    · rw [satisfies_nonneg _ j (List.mem_range.1 hj)]; exact h3 j (List.mem_range.1 hj)

/-! ## Rows and representation -/

/-- Any point that satisfies the three families of rows represents the working copy. -/
theorem rows_sound (isop : TruthTable → List cube) (g : TruthTable) (p : Nat → ℚ)
    (hc : isop_contract isop g) (hpu : positive_unate g)
    (h1 : ∀ c, c ∈ isop g →
        p g.num_vars ≤ ∑ k ∈ Finset.range g.num_vars,
          if c.mask.testBit k = true then p k else 0)
    (h2 : ∀ c, c ∈ isop (unary_not g) →
        (∑ k ∈ Finset.range g.num_vars, if c.mask.testBit k = true then 0 else p k) ≤
          p g.num_vars - 1)
    (h3 : ∀ j, j < g.num_vars + 1 → 0 ≤ p j) :
    represents g p (p g.num_vars) := by
  obtain ⟨⟨hcov1, _⟩, ⟨hcov2, _⟩, hpol⟩ := hc
  obtain ⟨hpos, hneg⟩ := hpol hpu
  intro x hx
  constructor
  · intro hgx
    obtain ⟨c, hcm, hcx⟩ := hcov1 x hx hgx
    refine le_trans (h1 c hcm) ?_
    unfold weighted_sum
    apply Finset.sum_le_sum
    intro k hk
    have hk2 := Finset.mem_range.1 hk
    by_cases hm : c.mask.testBit k = true
    · have : x.testBit k = true := by rw [hcx k hk2 hm]; exact hpos c hcm k hk2 hm
      rw [if_pos hm, if_pos this]
    · rw [if_neg hm]
      split
      · exact h3 k (by omega)
      · exact le_refl _
  · intro hle
    by_contra hgx
    have hgx2 : get_bit g x = false := by simpa using hgx
    have hnx : get_bit (unary_not g) x = true := by
      rw [get_bit_unary_not hx, hgx2]; rfl
    obtain ⟨c, hcm, hcx⟩ := hcov2 x hx hnx
    have hsum : weighted_sum g.num_vars p x ≤
        ∑ k ∈ Finset.range g.num_vars, if c.mask.testBit k = true then 0 else p k := by
      unfold weighted_sum
      apply Finset.sum_le_sum
      intro k hk
      have hk2 := Finset.mem_range.1 hk
      by_cases hm : c.mask.testBit k = true
      · have : x.testBit k = false := by
          rw [hcx k hk2 hm]; exact hneg c hcm k hk2 hm
        rw [if_pos hm, this]
        simp
      · rw [if_neg hm]
        split
        · exact le_refl _
        · exact h3 k (by omega)
    have := h2 c hcm
    linarith

theorem xor_rel_symm (a b : TruthTable) (m : Nat) (hm : m < 2 ^ a.num_vars)
    (h : ∀ x, x < 2 ^ a.num_vars → get_bit b x = get_bit a (x ^^^ m)) :
    ∀ x, x < 2 ^ a.num_vars → get_bit a x = get_bit b (x ^^^ m) := by
  intro x hx
  rw [h _ (xor_lt hx hm), xor_xor_cancel]

theorem weighted_sum_xor (n : Nat) (F : List Bool) (v : Nat → ℚ) (x : Nat) :
    weighted_sum n v (x ^^^ flip_mask F n) =
      weighted_sum n (fun i => if F.getD i false = true then -v i else v i) x +
        ∑ i ∈ Finset.range n, if F.getD i false = true then v i else 0 := by
  unfold weighted_sum
  rw [← Finset.sum_add_distrib]
  apply Finset.sum_congr rfl
  intro i hi
  have hi2 := Finset.mem_range.1 hi
  rw [Nat.testBit_xor, testBit_flip_mask]
  beta_reduce
  generalize F.getD i false = fb
  cases hx : x.testBit i <;> cases fb <;> simp [hi2]

/-- Representation is carried across the inversion of the flagged variables. -/
theorem represents_xor (a b : TruthTable) (F : List Bool) (hnv : b.num_vars = a.num_vars)
    (h : ∀ x, x < 2 ^ a.num_vars → get_bit b x = get_bit a (x ^^^ flip_mask F a.num_vars))
    (v : Nat → ℚ) (T : ℚ) (hrep : represents a v T) :
    represents b (fun i => if F.getD i false = true then -v i else v i)
      (T - ∑ i ∈ Finset.range a.num_vars, if F.getD i false = true then v i else 0) := by
  intro x hx
  rw [hnv] at hx
  rw [hnv, h x hx, hrep _ (xor_lt hx (flip_mask_lt F _)), weighted_sum_xor]
  constructor <;> intro h <;> linarith

/-! ## The back-translation loop -/

theorem round_half_even_intCast (m : Int) : round_half_even (m : ℚ) = m := by
  unfold round_half_even
  simp

theorem round_double_of_mul (q : ℚ) (m : Int) (h : q = m * 2 ^ ulp_exponent q) :
    round_double q = q := by
  unfold round_double
  have hpos : (2 : ℚ) ^ ulp_exponent q ≠ 0 := zpow_ne_zero _ (by norm_num)
  have : q / 2 ^ ulp_exponent q = (m : ℚ) := by
    rw [div_eq_iff hpos]; exact h
  rw [this, round_half_even_intCast]
  exact h.symm

theorem ulp_exponent_int (z : Int) (h0 : z ≠ 0) (hz : |z| ≤ 2 ^ 53) :
    ∃ m : Int, (z : ℚ) = m * 2 ^ ulp_exponent (z : ℚ) := by
  have habs : (0 : ℚ) < |(z : ℚ)| := abs_pos.2 (by exact_mod_cast h0)
  have h1 : (1 : ℚ) ≤ |(z : ℚ)| := by
    have : (1 : Int) ≤ |z| := Int.one_le_abs h0
    exact_mod_cast this
  have hle : (2 : ℚ) ^ Int.log 2 |(z : ℚ)| ≤ |(z : ℚ)| := by
    have := Int.zpow_log_le_self (b := 2) (by norm_num) habs
    simpa using this
  have he0 : 0 ≤ Int.log 2 |(z : ℚ)| := by
    have := (Int.zpow_le_iff_le_log (b := 2) (by norm_num) habs (x := 0)).1 (by simpa using h1)
    exact this
  have hzq : |(z : ℚ)| ≤ 2 ^ 53 := by
    have : ((|z| : Int) : ℚ) ≤ ((2 ^ 53 : Int) : ℚ) := by exact_mod_cast hz
    simpa using this
  have he53 : Int.log 2 |(z : ℚ)| ≤ 53 := by
    by_contra hc
    push_neg at hc
    have h54 : (2 : ℚ) ^ (54 : Int) ≤ (2 : ℚ) ^ Int.log 2 |(z : ℚ)| :=
      zpow_le_zpow_right₀ (by norm_num) (by omega)
    have : (2 : ℚ) ^ (54 : Int) ≤ 2 ^ 53 := le_trans h54 (le_trans hle hzq)
    norm_num at this
  generalize he : Int.log 2 |(z : ℚ)| = e at *
  have hu : ulp_exponent (z : ℚ) = e - 52 := by
    unfold ulp_exponent
    rw [he]
    exact max_eq_left (by omega)
  rw [hu]
  by_cases h52 : e ≤ 52
  · obtain ⟨k, hk⟩ : ∃ k : Nat, (k : Int) = 52 - e := ⟨(52 - e).toNat, by omega⟩
    refine ⟨z * 2 ^ k, ?_⟩
    have : e - 52 = -(k : Int) := by omega
    rw [this, zpow_neg, zpow_natCast]
    push_cast
    field_simp
  · have he53b : e = 53 := by omega
    subst he53b
    have habs2 : |(z : ℚ)| = 2 ^ 53 := by
      apply le_antisymm hzq
      have : (2 : ℚ) ^ (53 : Int) = 2 ^ 53 := by norm_num
      rw [← this]; exact hle
    rcases abs_cases (z : ℚ) with ⟨h, _⟩ | ⟨h, _⟩
    · refine ⟨2 ^ 52, ?_⟩
      rw [← h, habs2]; norm_num
    · refine ⟨-2 ^ 52, ?_⟩
      have : (z : ℚ) = -2 ^ 53 := by rw [← habs2, h]; ring
      rw [this]; norm_num

/-- An integer of magnitude at most `2^53` is a double. -/
theorem round_double_int (z : Int) (hz : |z| ≤ 2 ^ 53) : round_double (z : ℚ) = z := by
  by_cases h0 : z = 0
  · subst h0
    unfold round_double
    simp [round_half_even]
  · obtain ⟨m, hm⟩ := ulp_exponent_int z h0 hz
    exact round_double_of_mul _ m hm

theorem DBL_MAX_large : (2 : ℚ) ^ 53 ≤ DBL_MAX := by
  unfold DBL_MAX
  norm_num

/-- The double subtraction of two integers is exact when the minuend and the difference
have magnitude at most `2^53`. -/
theorem double_sub_int (a b : Int) (ha : |a| ≤ 2 ^ 53) (hab : |a - b| ≤ 2 ^ 53) :
    double_sub (a : ℚ) (b : ℚ) = ((a - b : Int) : ℚ) := by
  unfold double_sub
  have haq : |(a : ℚ)| ≤ 2 ^ 53 := by
    have : ((|a| : Int) : ℚ) ≤ ((2 ^ 53 : Int) : ℚ) := by exact_mod_cast ha
    simpa using this
  rw [if_neg (not_lt.2 (le_trans haq DBL_MAX_large))]
  have := round_double_int (a - b) hab
  push_cast at this ⊢
  exact this

theorem truncate_intCast (z : Int) : truncate (z : ℚ) = z := by
  unfold truncate
  split <;> simp

theorem to_int64_in_range (c : ℚ → Int) (q : ℚ) (h1 : INT64_MIN ≤ truncate q)
    (h2 : truncate q ≤ INT64_MAX) : to_int64 c q = truncate q := by
  unfold to_int64
  rw [if_pos ⟨h1, h2⟩]

theorem to_int64_intCast (c : ℚ → Int) (z : Int) (h1 : INT64_MIN ≤ z) (h2 : z ≤ INT64_MAX) :
    to_int64 c (z : ℚ) = z := by
  rw [to_int64_in_range c _ (by rw [truncate_intCast]; exact h1)
    (by rw [truncate_intCast]; exact h2), truncate_intCast]

/-- The conversion of an integer of magnitude at most `2^53` is that integer. -/
theorem to_int64_small (c : ℚ → Int) (z : Int) (hz : |z| ≤ 2 ^ 53) :
    to_int64 c (z : ℚ) = z := by
  have h := abs_le.1 hz
  apply to_int64_intCast
  · unfold INT64_MIN; omega
  · unfold INT64_MAX; omega

theorem back_loop_spec (c : ℚ → Int) (F : List Bool) (n : Nat) (row : Nat → ℚ) (j : Nat)
    (hj : j ≤ n) :
    for_range j (back_step c F (n + 1)) (row, []) =
      ((fun k => if k < j then (if F.getD k false = true then -row k else row k)
          else if k = n then running_threshold F row n j
          else row k),
        (List.range j).map
          (fun i => to_int64 c (if F.getD i false = true then -row i else row i))) := by
  induction j with
  | zero =>
    rw [for_range_zero]
    simp only [Prod.mk.injEq, List.range_zero, List.map_nil, and_true]
    funext k
    by_cases hk : k = n
    · subst hk; simp [running_threshold]
    · simp [hk]
  | succ j ih =>
    rw [for_range_succ, ih (by omega)]
    have hjn : j ≠ n := by omega
    unfold back_step
    simp only [Nat.add_sub_cancel]
    by_cases hF : F.getD j false = true
    · rw [if_pos hF]
      have hF2 := hF
      rw [List.getD_eq_getElem?_getD] at hF2
      simp only [Prod.mk.injEq]
      constructor
      · funext k
        by_cases hk : k = j
        · subst hk
          simp [Function.update, hjn, hF2]
        · by_cases hkn : k = n
          · subst hkn
            have h1 : ¬ k < j := by omega
            have h2 : ¬ k < j + 1 := by omega
            simp [Function.update, hk, h1, h2, running_threshold, hF2, hjn]
          · have : (k < j + 1) = (k < j) := by apply propext; omega
            simp [Function.update, hk, hkn, this]
      · rw [List.range_succ, List.map_append]
        simp [Function.update, hjn, hF2]
    · rw [if_neg hF]
      have hF2 := hF
      rw [List.getD_eq_getElem?_getD] at hF2
      simp only [Prod.mk.injEq]
      constructor
      · funext k
        by_cases hk : k = j
        · subst hk
          simp [hjn, hF2]
        · by_cases hkn : k = n
          · subst hkn
            have h1 : ¬ k < j := by omega
            have h2 : ¬ k < j + 1 := by omega
            simp [h1, h2, running_threshold, hF2]
          · have : (k < j + 1) = (k < j) := by apply propext; omega
            simp [hk, hkn, this]
      · rw [List.range_succ, List.map_append]
        simp [hjn, hF2]

/-- Closed form of `linear_form`. -/
theorem back_translate_eq (c : ℚ → Int) (F : List Bool) (n : Nat) (row : Nat → ℚ) :
    back_translate c F (n + 1) row =
      (List.range n).map
          (fun i => to_int64 c (if F.getD i false = true then -row i else row i)) ++
        [to_int64 c (running_threshold F row n n)] := by
  unfold back_translate
  simp only [Nat.add_sub_cancel]
  rw [back_loop_spec c F n row n (le_refl n)]
  simp

theorem back_translate_length (c : ℚ → Int) (F : List Bool) (n : Nat) (row : Nat → ℚ) :
    (back_translate c F (n + 1) row).length = n + 1 := by
  rw [back_translate_eq]; simp

theorem back_translate_getD_lt (c : ℚ → Int) (F : List Bool) (n : Nat) (row : Nat → ℚ)
    (i : Nat) (hi : i < n) :
    (back_translate c F (n + 1) row).getD i 0 =
      to_int64 c (if F.getD i false = true then -row i else row i) := by
  rw [back_translate_eq, List.getD_eq_getElem?_getD, List.getElem?_append_left (by simp [hi])]
  simp [List.getElem?_range hi]

theorem back_translate_getD_last (c : ℚ → Int) (F : List Bool) (n : Nat) (row : Nat → ℚ) :
    (back_translate c F (n + 1) row).getD n 0 = to_int64 c (running_threshold F row n n) := by
  rw [back_translate_eq, List.getD_eq_getElem?_getD, List.getElem?_append_right (by simp)]
  simp

theorem running_threshold_congr (F : List Bool) (n : Nat) (row row2 : Nat → ℚ)
    (h : ∀ k, k < n + 1 → row k = row2 k) (j : Nat) (hj : j ≤ n) :
    running_threshold F row n j = running_threshold F row2 n j := by
  induction j with
  | zero => simp only [running_threshold]; exact h n (by omega)
  | succ j ih =>
    simp only [running_threshold]
    rw [ih (by omega), h j (by omega)]

/-- With integer values whose absolute values sum to at most `2^53`, no subtraction of the
back-translation loop rounds: the threshold after `j` passes is the exact difference. -/
theorem running_threshold_exact (F : List Bool) (n : Nat) (v : Nat → Int)
    (hsmall : ∑ k ∈ Finset.range (n + 1), |v k| ≤ 2 ^ 53) (j : Nat) (hj : j ≤ n) :
    running_threshold F (fun k => (v k : ℚ)) n j =
        ((v n - ∑ i ∈ Finset.range j, (if F.getD i false = true then v i else 0) : Int) : ℚ) ∧
      |v n - ∑ i ∈ Finset.range j, (if F.getD i false = true then v i else 0)| +
        ∑ i ∈ Finset.Ico j n, |v i| ≤ 2 ^ 53 := by
  induction j with
  | zero =>
    constructor
    · simp [running_threshold]
    · rw [Finset.sum_range_succ, Finset.range_eq_Ico] at hsmall
      simp only [Finset.range_zero, Finset.sum_empty, sub_zero]
      omega
  | succ j ih =>
    obtain ⟨h1, h2⟩ := ih (by omega)
    have hsplit : ∑ i ∈ Finset.Ico j n, |v i| = |v j| + ∑ i ∈ Finset.Ico (j + 1) n, |v i| :=
      Finset.sum_eq_sum_Ico_succ_bot (by omega) _
    rw [hsplit] at h2
    have hnn : 0 ≤ ∑ i ∈ Finset.Ico (j + 1) n, |v i| :=
      Finset.sum_nonneg (fun i _ => abs_nonneg _)
    simp only [running_threshold]
    rw [Finset.sum_range_succ]
    by_cases hF : F.getD j false = true
    · rw [if_pos hF, if_pos hF, h1]
      have htri : |v n - ∑ i ∈ Finset.range j, (if F.getD i false = true then v i else 0)
          - v j| ≤ |v n - ∑ i ∈ Finset.range j, (if F.getD i false = true then v i else 0)|
            + |v j| := abs_sub _ _
      have hA := abs_nonneg (v n -
        ∑ i ∈ Finset.range j, (if F.getD i false = true then v i else 0))
      have hB := abs_nonneg (v j)
      constructor
      · rw [double_sub_int _ _ (by omega) (by omega)]
        congr 1
        ring
      · have : v n - (∑ i ∈ Finset.range j, (if F.getD i false = true then v i else 0) + v j)
            = v n - ∑ i ∈ Finset.range j, (if F.getD i false = true then v i else 0) - v j := by
          ring
        rw [this]
        omega
    · rw [if_neg hF, if_neg hF, h1, add_zero]
      have hB := abs_nonneg (v j)
      exact ⟨rfl, by omega⟩

/-! ## Runs of `is_threshold` -/

theorem normalized_of_classify {f : TruthTable} {F : List Bool} {g : TruthTable}
    (h : classify f = some (F, g)) : normalized f = g := by
  simp [normalized, h]

theorem flipped_of_classify {f : TruthTable} {F : List Bool} {g : TruthTable}
    (h : classify f = some (F, g)) : flipped f = F := by
  simp [flipped, h]

theorem back_translate_congr (c : ℚ → Int) (F : List Bool) (n : Nat) (row row2 : Nat → ℚ)
    (h : ∀ k, k < n + 1 → row k = row2 k) :
    back_translate c F (n + 1) row = back_translate c F (n + 1) row2 := by
  rw [back_translate_eq, back_translate_eq,
    running_threshold_congr F n row row2 h n (le_refl n)]
  congr 1
  apply List.map_congr_left
  intro i hi
  rw [h i (by have := List.mem_range.1 hi; omega)]

theorem abs_le_of_sum (n : Nat) (v : Nat → Int) (B : Int)
    (h : ∑ k ∈ Finset.range n, |v k| ≤ B) (i : Nat) (hi : i < n) : |v i| ≤ B :=
  le_trans (Finset.single_le_sum (f := fun k => |v k|) (fun k _ => abs_nonneg (v k))
    (Finset.mem_range.2 hi)) h

/-- Closed form of `linear_form` for integer values whose absolute values sum to at most
`2^53`: nothing is rounded and every conversion is in range. -/
theorem back_translate_int (c : ℚ → Int) (F : List Bool) (n : Nat) (v : Nat → Int)
    (hsmall : ∑ k ∈ Finset.range (n + 1), |v k| ≤ 2 ^ 53) :
    back_translate c F (n + 1) (fun k => (v k : ℚ)) =
      (List.range n).map (fun i => if F.getD i false = true then -v i else v i) ++
        [v n - ∑ i ∈ Finset.range n, (if F.getD i false = true then v i else 0)] := by
  rw [back_translate_eq]
  obtain ⟨h1, h2⟩ := running_threshold_exact F n v hsmall n (le_refl n)
  congr 1
  · apply List.map_congr_left
    intro i hi
    have hi2 := abs_le_of_sum _ v _ hsmall i (by have := List.mem_range.1 hi; omega)
    by_cases hF : F.getD i false = true
    · rw [if_pos hF, if_pos hF, ← Int.cast_neg, to_int64_small c _ (by rwa [abs_neg])]
    · rw [if_neg hF, if_neg hF, to_int64_small c _ hi2]
  · simp only [Finset.Ico_self, Finset.sum_empty, add_zero] at h2
    rw [h1, to_int64_small c _ h2]

theorem linear_getD_lt (F : List Bool) (n : Nat) (v : Nat → Int) (T : Int) (i : Nat)
    (hi : i < n) :
    ((List.range n).map (fun i => if F.getD i false = true then -v i else v i) ++ [T]).getD i 0 =
      if F.getD i false = true then -v i else v i := by
  rw [List.getD_eq_getElem?_getD, List.getElem?_append_left (by simp [hi])]
  simp [List.getElem?_range hi]

theorem linear_getD_last (F : List Bool) (n : Nat) (v : Nat → Int) (T : Int) :
    ((List.range n).map (fun i => if F.getD i false = true then -v i else v i) ++ [T]).getD n 0 =
      T := by
  rw [List.getD_eq_getElem?_getD, List.getElem?_append_right (by simp)]
  simp

/-- The integers of a small point. -/
theorem small_point_ints (Ncol : Nat) (p : Nat → ℚ) (h : small_point Ncol p) :
    ∃ v : Nat → Int, (∀ k, k < Ncol → p k = (v k : ℚ)) ∧
      ∑ k ∈ Finset.range Ncol, |v k| ≤ 2 ^ 53 := by
  obtain ⟨hint, hsum⟩ := h
  have hv : ∀ k, k < Ncol → p k = ((Int.floor (p k) : Int) : ℚ) := by
    intro k hk
    obtain ⟨z, hz⟩ := hint k hk
    rw [hz]; simp
  refine ⟨fun k => Int.floor (p k), hv, ?_⟩
  have hcast : ((∑ k ∈ Finset.range Ncol, |Int.floor (p k)| : Int) : ℚ) =
      ∑ k ∈ Finset.range Ncol, |p k| := by
    push_cast
    apply Finset.sum_congr rfl
    intro k hk
    rw [← hv k (Finset.mem_range.1 hk)]
  have : ((∑ k ∈ Finset.range Ncol, |Int.floor (p k)| : Int) : ℚ) ≤ ((2 ^ 53 : Int) : ℚ) := by
    rw [hcast]; push_cast; exact hsum
  exact_mod_cast this

theorem is_threshold_binate (env : Env) (f : TruthTable) (plf : Option (List Int))
    (h : classify f = none) :
    is_threshold env f plf = some ⟨false, plf, [Call.make_lp 0 (f.num_vars + 1)]⟩ := by
  simp [is_threshold, h]

/-- The run of `is_threshold` that reaches `solve`. -/
theorem is_threshold_solved (env : Env) (f : TruthTable) (plf : Option (List Int))
    (F : List Bool) (g : TruthTable) (hc : classify f = some (F, g))
    (hb : model_built env f) :
    ∃ calls, is_threshold env f plf =
      some ⟨decide (solver_status env f = OPTIMAL),
        if solver_status env f = OPTIMAL then
          plf.map (fun _ =>
            back_translate env.int64_out_of_range F (f.num_vars + 1) (solver_point env f))
        else plf, calls⟩ := by
  have hbt : ∀ r : Nat → ℚ,
      back_translate env.int64_out_of_range F (f.num_vars + 1)
        (fun k => if k < f.num_vars + 1 then solver_point env f k else r k) =
      back_translate env.int64_out_of_range F (f.num_vars + 1) (solver_point env f) := by
    intro r
    apply back_translate_congr
    intro k hk
    simp [hk]
  rw [← hbt (build_final env f.num_vars g).row]
  obtain ⟨h1, h2, h3, h4⟩ := hb
  have hn := normalized_of_classify hc
  unfold submitted_rows submitted_objective at h4
  rw [hn] at h4
  unfold solver_status solver_point submitted_rows submitted_objective
  rw [hn]
  unfold is_threshold
  simp only [hc, h1, h2, h3, h4]
  by_cases hs : env.lp.solve (build_final env f.num_vars g).submitted
      (objective_of (f.num_vars + 1) (build_final env f.num_vars g)) = OPTIMAL
  · simp [hs]
  · simp [hs]

/-- Every run of `is_threshold` that returns `true` reached `solve` with status `OPTIMAL`. -/
theorem is_threshold_true (env : Env) (f : TruthTable) (plf : Option (List Int))
    (o : Outcome) (hrun : is_threshold env f plf = some o) (ht : o.result = true) :
    ∃ F g, classify f = some (F, g) ∧ model_built env f ∧ solver_status env f = OPTIMAL ∧
      o.plf = plf.map (fun _ =>
            back_translate env.int64_out_of_range F (f.num_vars + 1) (solver_point env f)) := by
  cases hc : classify f with
  | none =>
    rw [is_threshold_binate env f plf hc] at hrun
    simp only [Option.some.injEq] at hrun
    subst hrun
    simp at ht
  | some Fg =>
    obtain ⟨F, g⟩ := Fg
    have hn := normalized_of_classify hc
    by_cases hb : model_built env f
    · obtain ⟨calls, hE⟩ := is_threshold_solved env f plf F g hc hb
      rw [hE] at hrun
      simp only [Option.some.injEq] at hrun
      subst hrun
      simp only [decide_eq_true_eq] at ht
      refine ⟨F, g, rfl, hb, ht, ?_⟩
      simp [ht]
    · exfalso
      unfold model_built submitted_rows submitted_objective at hb
      rw [hn] at hb
      unfold is_threshold at hrun
      simp only [hc] at hrun
      by_cases h1 : env.lp.make_lp 0 (f.num_vars + 1) = true
      · by_cases h2 : env.malloc_colno = true
        · by_cases h3 : env.malloc_row = true
          · have h4 : env.lp.set_obj_fnex (build_final env f.num_vars g).submitted
                (objective_of (f.num_vars + 1) (build_final env f.num_vars g)) = false := by
              by_contra h4
              exact hb ⟨h1, h2, h3, by simpa using h4⟩
            simp [h1, h2, h3, h4] at hrun
            subst hrun
            simp at ht
          · simp [h1, h2, h3] at hrun
        · simp [h1, h2] at hrun
      · simp [h1] at hrun
        subst hrun
        simp at ht

/-! ## Soundness -/

theorem represents_congr (f : TruthTable) (w w2 : Nat → ℚ) (T T2 : ℚ)
    (hw : ∀ i, i < f.num_vars → w i = w2 i) (hT : T = T2) (h : represents f w T) :
    represents f w2 T2 := by
  intro x hx
  rw [h x hx, hT]
  have : weighted_sum f.num_vars w x = weighted_sum f.num_vars w2 x := by
    unfold weighted_sum
    apply Finset.sum_congr rfl
    intro i hi
    rw [hw i (Finset.mem_range.1 hi)]
  rw [this]

/-- The linear form computed from a small integer point that represents the working copy
represents the table. -/
theorem back_translate_represents (c : ℚ → Int) (f g : TruthTable) (F : List Bool)
    (row : Nat → ℚ) (hnv : g.num_vars = f.num_vars)
    (hg : ∀ x, x < 2 ^ f.num_vars → get_bit g x = get_bit f (x ^^^ flip_mask F f.num_vars))
    (hsmall : small_point (f.num_vars + 1) row)
    (hrep : represents g row (row f.num_vars)) :
    linear_form_represents f (back_translate c F (f.num_vars + 1) row) := by
  have hsym : ∀ x, x < 2 ^ g.num_vars →
      get_bit f x = get_bit g (x ^^^ flip_mask F g.num_vars) := by
    rw [hnv]
    exact xor_rel_symm f g _ (flip_mask_lt F _) hg
  have h := represents_xor g f F hnv.symm hsym row (row f.num_vars) hrep
  rw [hnv] at h
  obtain ⟨v, hv, hsum⟩ := small_point_ints _ row hsmall
  rw [back_translate_congr c F _ row (fun k => (v k : ℚ)) hv, back_translate_int c F _ v hsum]
  unfold linear_form_represents
  refine represents_congr f _ _ _ _ ?_ ?_ h
  · intro i hi
    rw [linear_getD_lt F _ v _ i hi, hv i (by omega)]
    by_cases hF : F.getD i false = true
    · rw [if_pos hF, if_pos hF]; push_cast; rfl
    · rw [if_neg hF, if_neg hF]
  · rw [linear_getD_last, hv _ (by omega)]
    push_cast
    congr 1
    apply Finset.sum_congr rfl
    intro i hi
    rw [hv i (by have := Finset.mem_range.1 hi; omega)]

/-- Soundness of a run that returns `true`, from the collaborator contracts. -/
theorem sound_of_contracts (env : Env) (f : TruthTable) (plf0 lf : List Int) (o : Outcome)
    (hsolver : solver_sound env f) (hsmall : solver_small env f)
    (hisop : isop_contract env.isop (normalized f))
    (hrun : is_threshold env f (some plf0) = some o) (htrue : o.result = true)
    (hlf : o.plf = some lf) :
    ∀ x, x < 2 ^ f.num_vars →
      (get_bit f x = true ↔
        ((lf.getD f.num_vars 0 : Int) : ℚ) ≤
          weighted_sum f.num_vars (fun i => ((lf.getD i 0 : Int) : ℚ)) x) := by
  obtain ⟨F, g, hc, _, hopt, hplf⟩ := is_threshold_true env f (some plf0) o hrun htrue
  obtain ⟨hint, hsat⟩ := hsolver hopt
  obtain ⟨_, hnv, hg, _, _⟩ := classify_spec f F g hc
  have hn := normalized_of_classify hc
  rw [hn] at hisop
  rw [satisfies_submitted, hn, ← hnv] at hsat
  obtain ⟨h1, h2, h3⟩ := hsat
  have hrep := rows_sound env.isop g (solver_point env f) hisop
    (classify_positive_unate f F g hc) h1 h2 h3
  rw [hplf] at hlf
  simp only [Option.map_some', Option.some.injEq] at hlf
  subst hlf
  rw [hnv] at hrep
  exact back_translate_represents _ f g F (solver_point env f) hnv hg
    ⟨hint, hsmall hopt⟩ hrep

/-- C1 (soundness, for solution values of moderate size). Suppose that, on the model built
for `f`, the solver reports `OPTIMAL` only with an integer-valued point that satisfies
every submitted row and whose absolute values sum to at most `2^53`, and that `isop`
answers with covers by implicants whose literals are positive for the positive unate
working copy and negative for its complement. Then whenever `is_threshold` returns `true`
and writes the linear form `lf = (w_0, …, w_{n-1}, T)`, each of the `2^n` assignments `x`
has `f(x) = 1` iff `Σ w_i·x_i ≥ T`. -/
theorem is_threshold_sound (env : Env) (f : TruthTable) (plf0 lf : List Int) (o : Outcome)
    (hsolver : solver_sound env f) (hsmall : solver_small env f)
    (hisop : isop_contract env.isop (normalized f))
    (hrun : is_threshold env f (some plf0) = some o) (htrue : o.result = true)
    (hlf : o.plf = some lf) :
    ∀ x, x < 2 ^ f.num_vars →
      (get_bit f x = true ↔
        ((lf.getD f.num_vars 0 : Int) : ℚ) ≤
          weighted_sum f.num_vars (fun i => ((lf.getD i 0 : Int) : ℚ)) x) :=
  sound_of_contracts env f plf0 lf o hsolver hsmall hisop hrun htrue hlf

/-! ## Early return, result, output parameter, back-translation -/

theorem unate_loop_none (f : TruthTable) (k i j : Nat) (fl : List Bool) (tm : TruthTable)
    (hij : i ≤ j) (hjk : j < i + k) (hb : binate_in f j) :
    unate_loop f k i fl tm = none := by
  induction k generalizing i fl tm with
  | zero => omega
  | succ k ih =>
    simp only [unate_loop]
    by_cases hji : j = i
    · subst hji
      simp [hb.1, hb.2]
    · split
      · exact ih (i + 1) _ _ (by omega) (by omega)
      · split
        · exact ih (i + 1) _ _ (by omega) (by omega)
        · rfl

theorem unate_loop_some (f : TruthTable) (k i : Nat) (fl : List Bool) (tm : TruthTable)
    (h : ∀ j, i ≤ j → j < i + k → ¬ binate_in f j) :
    ∃ r, unate_loop f k i fl tm = some r := by
  induction k generalizing i fl tm with
  | zero => exact ⟨_, rfl⟩
  | succ k ih =>
    simp only [unate_loop]
    split
    · exact ih (i + 1) _ _ (fun j h1 h2 => h j (by omega) (by omega))
    · split
      · exact ih (i + 1) _ _ (fun j h1 h2 => h j (by omega) (by omega))
      · rename_i h1 h2
        exfalso
        apply h i (le_refl i) (by omega)
        exact ⟨by simpa using h1, by simpa using h2⟩

theorem classify_none_of_binate (f : TruthTable) (i : Nat) (hi : i < f.num_vars)
    (hb : binate_in f i) : classify f = none :=
  unate_loop_none f f.num_vars 0 i _ _ (Nat.zero_le i) (by omega) hb

theorem classify_some_of_unate (f : TruthTable)
    (h : ∀ i, i < f.num_vars → ¬ binate_in f i) : ∃ F g, classify f = some (F, g) := by
  obtain ⟨⟨F, g⟩, hr⟩ := unate_loop_some f f.num_vars 0 (List.replicate f.num_vars false) f
    (fun j _ h2 => h j (by omega))
  exact ⟨F, g, hr⟩

/-- C2. If some variable `i` of `f` is binate (neither cofactor implies the other),
`is_threshold` returns `false` whatever the collaborators answer, and no row is ever
passed to `add_constraintex`. -/
theorem binate_returns_false (env : Env) (f : TruthTable) (plf : Option (List Int)) (i : Nat)
    (hi : i < f.num_vars) (hb : binate_in f i) :
    ∃ o, is_threshold env f plf = some o ∧ o.result = false ∧
      ∀ c, Call.add_constraintex c ∉ o.calls := by
  refine ⟨_, is_threshold_binate env f plf (classify_none_of_binate f i hi hb), rfl, ?_⟩
  intro c hc
  simp at hc

/-- C5. When no variable of `f` is binate and the model is built without failure (model
constructed, buffers allocated, objective accepted), `is_threshold` returns, and it
returns `true` iff `solve` reports `OPTIMAL`; every other status gives `false`. -/
theorem result_iff_optimal (env : Env) (f : TruthTable) (plf : Option (List Int))
    (hno : ∀ i, i < f.num_vars → ¬ binate_in f i) (hb : model_built env f) :
    ∃ o, is_threshold env f plf = some o ∧
      (o.result = true ↔ solver_status env f = OPTIMAL) := by
  obtain ⟨F, g, hc⟩ := classify_some_of_unate f hno
  obtain ⟨calls, hE⟩ := is_threshold_solved env f plf F g hc hb
  exact ⟨_, hE, by simp⟩

/-- C7. On every run of `is_threshold` that returns `false`, for every table, every
behaviour of the collaborators and every initial content of `*plf`, the content of `*plf`
after the call is its content before the call. -/
theorem plf_unchanged_on_false (env : Env) (f : TruthTable) (plf : Option (List Int))
    (o : Outcome) (hrun : is_threshold env f plf = some o) (hfalse : o.result = false) :
    o.plf = plf := by
  cases hc : classify f with
  | none =>
    rw [is_threshold_binate env f plf hc] at hrun
    simp only [Option.some.injEq] at hrun
    subst hrun; rfl
  | some Fg =>
    obtain ⟨F, g⟩ := Fg
    unfold is_threshold at hrun
    simp only [hc] at hrun
    by_cases h1 : env.lp.make_lp 0 (f.num_vars + 1) = true
    · by_cases h2 : env.malloc_colno = true
      · by_cases h3 : env.malloc_row = true
        · by_cases h4 : env.lp.set_obj_fnex (build_final env f.num_vars g).submitted
              (objective_of (f.num_vars + 1) (build_final env f.num_vars g)) = true
          · by_cases hs : env.lp.solve (build_final env f.num_vars g).submitted
                (objective_of (f.num_vars + 1) (build_final env f.num_vars g)) = OPTIMAL
            · simp [h1, h2, h3, h4, hs] at hrun
              subst hrun
              simp at hfalse
            · simp [h1, h2, h3, h4, hs] at hrun
              subst hrun; rfl
          · simp [h1, h2, h3, h4] at hrun
            subst hrun; rfl
        · simp [h1, h2, h3] at hrun
      · simp [h1, h2] at hrun
    · simp [h1] at hrun
      subst hrun; rfl

/-- C8. On every run that returns `true` with `plf` provided, `*plf` holds exactly
`num_vars + 1` entries, none of which depends on the previous content: entry `i < n` is the
converted weight of variable `i` (negated when the variable was flipped) and the last
entry is the converted threshold, the value of the solver from which the values of the
flipped variables have been subtracted in `double` arithmetic; for integer values whose
absolute values sum to at most `2^53` it is the exact difference. -/
theorem plf_shape_on_true (env : Env) (f : TruthTable) (plf0 : List Int) (o : Outcome)
    (hrun : is_threshold env f (some plf0) = some o) (htrue : o.result = true) :
    ∃ lf, o.plf = some lf ∧ lf.length = f.num_vars + 1 ∧
      (∀ i, i < f.num_vars → lf.getD i 0 =
        to_int64 env.int64_out_of_range
          (if (flipped f).getD i false = true then -solver_point env f i
            else solver_point env f i)) ∧
      lf.getD f.num_vars 0 =
        to_int64 env.int64_out_of_range
          (running_threshold (flipped f) (solver_point env f) f.num_vars f.num_vars) ∧
      (small_point (f.num_vars + 1) (solver_point env f) →
        ((lf.getD f.num_vars 0 : Int) : ℚ) =
          solver_point env f f.num_vars -
            ∑ i ∈ Finset.range f.num_vars,
              if (flipped f).getD i false = true then solver_point env f i else 0) := by
  obtain ⟨F, g, hc, _, _, hplf⟩ := is_threshold_true env f (some plf0) o hrun htrue
  rw [flipped_of_classify hc]
  refine ⟨_, hplf, back_translate_length _ _ _ _, ?_, back_translate_getD_last _ _ _ _, ?_⟩
  · intro i hi
    exact back_translate_getD_lt _ _ _ _ i hi
  · intro hsmall
    obtain ⟨v, hv, hsum⟩ := small_point_ints _ _ hsmall
    rw [back_translate_congr _ F _ _ (fun k => (v k : ℚ)) hv, back_translate_int _ F _ v hsum,
      linear_getD_last, hv _ (by omega)]
    push_cast
    congr 1
    apply Finset.sum_congr rfl
    intro i hi
    rw [hv i (by have := Finset.mem_range.1 hi; omega)]

theorem weighted_sum_set_var (n : Nat) (w : Nat → ℚ) (x i : Nat) (b : Bool) (hi : i < n) :
    weighted_sum n w (set_var x i b) =
      (∑ k ∈ Finset.range n, if k = i then 0 else if x.testBit k = true then w k else 0) +
        (if b = true then w i else 0) := by
  unfold weighted_sum
  have : (if b = true then w i else 0) =
      ∑ k ∈ Finset.range n, if k = i then (if b = true then w i else 0) else 0 := by
    rw [Finset.sum_ite_eq' (Finset.range n) i]
    simp [hi]
  rw [this, ← Finset.sum_add_distrib]
  apply Finset.sum_congr rfl
  intro k _
  rw [testBit_set_var]
  by_cases hk : k = i
  · subst hk; simp
  · simp [hk]

/-- A variable with a non-negative weight passes the positive-unate test. -/
theorem pos_test_of_weight (f : TruthTable) (w : Nat → ℚ) (T : ℚ) (h : represents f w T)
    (i : Nat) (hi : i < f.num_vars) (hw : 0 ≤ w i) :
    implies (cofactor0 f i) (cofactor1 f i) = true := by
  rw [pos_test_iff]
  intro x hx h0
  rw [h _ (set_var_lt _ hx hi), weighted_sum_set_var _ _ _ _ _ hi] at h0 ⊢
  simp only [if_true] at h0 ⊢
  simp only [Bool.false_eq_true, if_false] at h0
  linarith

/-- A variable with a non-positive weight passes the negative-unate test. -/
theorem neg_test_of_weight (f : TruthTable) (w : Nat → ℚ) (T : ℚ) (h : represents f w T)
    (i : Nat) (hi : i < f.num_vars) (hw : w i ≤ 0) :
    implies (cofactor1 f i) (cofactor0 f i) = true := by
  rw [neg_test_iff]
  intro x hx h0
  rw [h _ (set_var_lt _ hx hi), weighted_sum_set_var _ _ _ _ _ hi] at h0 ⊢
  simp only [if_true] at h0
  simp only [Bool.false_eq_true, if_false] at h0 ⊢
  linarith

theorem not_binate_of_represents (f : TruthTable) (w : Nat → ℚ) (T : ℚ)
    (h : represents f w T) (i : Nat) (hi : i < f.num_vars) : ¬ binate_in f i := by
  intro hb
  rcases le_total 0 (w i) with hw | hw
  · have := pos_test_of_weight f w T h i hi hw
    rw [hb.1] at this; exact absurd this (by simp)
  · have := neg_test_of_weight f w T h i hi hw
    rw [hb.2] at this; exact absurd this (by simp)

/-- C4. A table represented by integer weights and a threshold passes, in each of its
variables, the positive-unate or the negative-unate test; hence the classification loop
does not take its binate `return false` on a threshold function. -/
theorem threshold_is_unate (f : TruthTable) (w : Nat → Int) (T : Int)
    (h : represents f (fun i => (w i : ℚ)) (T : ℚ)) :
    (∀ i, i < f.num_vars →
      implies (cofactor0 f i) (cofactor1 f i) = true ∨
        implies (cofactor1 f i) (cofactor0 f i) = true) ∧
    classify f ≠ none := by
  constructor
  · intro i hi
    rcases le_total 0 ((w i : Int) : ℚ) with hw | hw
    · exact Or.inl (pos_test_of_weight f _ _ h i hi hw)
    · exact Or.inr (neg_test_of_weight f _ _ h i hi hw)
  · obtain ⟨F, g, hc⟩ := classify_some_of_unate f
      (fun i hi => not_binate_of_represents f _ _ h i hi)
    rw [hc]; simp

/-- C9 (back-translation, for integer solution values of moderate size). Let the integers
`v_0, …, v_{n-1}, v_T`, whose absolute values sum to at most `2^53`, be the solution values
read from the solver on a run that returns `true` and writes `lf`. Then `lf_i = -v_i` for
each flipped variable, `lf_i = v_i` for the others, `lf_n = v_T - Σ_{i flipped} v_i`, and
`lf` represents `f` whenever `(v, v_T)` represents a table `g` with
`g(x) = f(x with the flipped variables inverted)`. -/
theorem back_translation (env : Env) (f g : TruthTable) (plf0 lf : List Int) (o : Outcome)
    (v : Nat → Int)
    (hrun : is_threshold env f (some plf0) = some o) (htrue : o.result = true)
    (hlf : o.plf = some lf)
    (hv : ∀ k, k < f.num_vars + 1 → solver_point env f k = (v k : ℚ))
    (hsmall : ∑ k ∈ Finset.range (f.num_vars + 1), |v k| ≤ 2 ^ 53)
    (hnv : g.num_vars = f.num_vars)
    (hg : ∀ x, x < 2 ^ f.num_vars →
      get_bit g x = get_bit f (x ^^^ flip_mask (flipped f) f.num_vars))
    (hrep : represents g (fun i => (v i : ℚ)) (v f.num_vars : ℚ)) :
    (∀ i, i < f.num_vars →
      lf.getD i 0 = if (flipped f).getD i false = true then -v i else v i) ∧
    lf.getD f.num_vars 0 =
      v f.num_vars - ∑ i ∈ Finset.range f.num_vars,
        (if (flipped f).getD i false = true then v i else 0) ∧
    ∀ x, x < 2 ^ f.num_vars →
      (get_bit f x = true ↔
        ((lf.getD f.num_vars 0 : Int) : ℚ) ≤
          weighted_sum f.num_vars (fun i => ((lf.getD i 0 : Int) : ℚ)) x) := by
  obtain ⟨F, g2, hc, _, _, hplf⟩ := is_threshold_true env f (some plf0) o hrun htrue
  rw [flipped_of_classify hc] at hg ⊢
  rw [hplf] at hlf
  simp only [Option.map_some', Option.some.injEq] at hlf
  have hbt : back_translate env.int64_out_of_range F (f.num_vars + 1) (solver_point env f) =
      back_translate env.int64_out_of_range F (f.num_vars + 1) (fun k => (v k : ℚ)) :=
    back_translate_congr _ F _ _ _ hv
  rw [hbt] at hlf
  subst hlf
  have hsp : small_point (f.num_vars + 1) (fun k => (v k : ℚ)) := by
    refine ⟨fun k _ => ⟨v k, rfl⟩, ?_⟩
    have : ((∑ k ∈ Finset.range (f.num_vars + 1), |v k| : Int) : ℚ) ≤ ((2 ^ 53 : Int) : ℚ) := by
      exact_mod_cast hsmall
    push_cast at this
    exact this
  refine ⟨?_, ?_, ?_⟩
  · intro i hi
    rw [back_translate_int _ F _ v hsmall, linear_getD_lt F _ v _ i hi]
  · rw [back_translate_int _ F _ v hsmall, linear_getD_last]
  · exact back_translate_represents _ f g F _ hnv hg hsp hrep

/-! ## Variables a table does not depend on -/

theorem xor_of_bits_succ (p : Nat → Bool) (k x : Nat) :
    x ^^^ of_bits p (k + 1) = (x ^^^ of_bits p k) ^^^ (if p k = true then 2 ^ k else 0) := by
  apply Nat.eq_of_testBit_eq
  intro j
  simp only [Nat.testBit_xor, testBit_of_bits]
  by_cases hp : p k = true
  · rw [if_pos hp, Nat.testBit_two_pow]
    by_cases hj : j = k
    · subst hj; simp [hp]
    · have : (j < k + 1) = (j < k) := by apply propext; omega
      have hkj : ¬ k = j := fun e => hj e.symm
      simp [this, hkj]
  · rw [if_neg hp]
    by_cases hj : j = k
    · subst hj
      have : p j = false := by simpa using hp
      simp [this]
    · have : (j < k + 1) = (j < k) := by apply propext; omega
      simp [this]

/-- Inverting variables the table does not depend on leaves it unchanged. -/
theorem indep_of_bits (g : TruthTable) (p : Nat → Bool)
    (h : ∀ j, j < g.num_vars → p j = true →
      ∀ x, x < 2 ^ g.num_vars → get_bit g (x ^^^ 2 ^ j) = get_bit g x)
    (k : Nat) (hk : k ≤ g.num_vars) :
    ∀ x, x < 2 ^ g.num_vars → get_bit g (x ^^^ of_bits p k) = get_bit g x := by
  induction k with
  | zero => intro x _; simp [of_bits]
  | succ k ih =>
    intro x hx
    rw [xor_of_bits_succ]
    have hlt : of_bits p k < 2 ^ g.num_vars :=
      lt_of_lt_of_le (of_bits_lt p k) (Nat.pow_le_pow_right (by decide) (by omega))
    by_cases hp : p k = true
    · rw [if_pos hp, h k (by omega) hp _ (xor_lt hx hlt)]
      exact ih (by omega) x hx
    · rw [if_neg hp, Nat.xor_zero]
      exact ih (by omega) x hx

theorem flip_eq_set_var (x j : Nat) : x ^^^ 2 ^ j = set_var x j (!x.testBit j) := by
  apply Nat.eq_of_testBit_eq
  intro k
  rw [testBit_flip, testBit_set_var]

theorem set_var_self (x j : Nat) : set_var x j (x.testBit j) = x := by
  simp [set_var]

/-- A table that passes both unateness tests in variable `j` does not depend on it. -/
theorem indep_of_both (g : TruthTable) (j : Nat)
    (hp : implies (cofactor0 g j) (cofactor1 g j) = true)
    (hn : implies (cofactor1 g j) (cofactor0 g j) = true) :
    ∀ x, x < 2 ^ g.num_vars → get_bit g (x ^^^ 2 ^ j) = get_bit g x := by
  rw [pos_test_iff] at hp
  rw [neg_test_iff] at hn
  intro x hx
  have h01 : get_bit g (set_var x j false) = get_bit g (set_var x j true) := by
    rw [Bool.eq_iff_iff]
    exact ⟨hp x hx, hn x hx⟩
  rw [flip_eq_set_var]
  cases hb : x.testBit j
  · have hx0 : set_var x j false = x := by rw [← hb]; exact set_var_self x j
    simp only [Bool.not_false]
    rw [← h01, hx0]
  · have hx1 : set_var x j true = x := by rw [← hb]; exact set_var_self x j
    simp only [Bool.not_true]
    rw [h01, hx1]

theorem weighted_sum_int (n : Nat) (v : Nat → Int) (x : Nat) :
    weighted_sum n (fun i => (v i : ℚ)) x =
      ((∑ i ∈ Finset.range n, if x.testBit i = true then v i else 0 : Int) : ℚ) := by
  unfold weighted_sum
  push_cast
  rfl

/-- A positive unate table that is represented by integer weights is represented by
non-negative integer weights and a non-negative threshold. -/
theorem represents_nonneg (g : TruthTable) (v : Nat → Int) (T : Int)
    (hpu : positive_unate g) (hrep : represents g (fun i => (v i : ℚ)) (T : ℚ)) :
    represents g (fun i => ((max (v i) 0 : Int) : ℚ)) ((max T 0 : Int) : ℚ) := by
  have hind : ∀ j, j < g.num_vars → decide (v j < 0) = true →
      ∀ x, x < 2 ^ g.num_vars → get_bit g (x ^^^ 2 ^ j) = get_bit g x := by
    intro j hj hv
    have hv2 : v j < 0 := by simpa using hv
    apply indep_of_both g j (hpu j hj)
    apply neg_test_of_weight g _ _ hrep j hj
    exact_mod_cast le_of_lt hv2
  intro x hx
  have hlt : of_bits (fun j => x.testBit j && decide (v j < 0)) g.num_vars < 2 ^ g.num_vars :=
    of_bits_lt _ _
  have hx0 := indep_of_bits g (fun j => x.testBit j && decide (v j < 0))
    (fun j hj hp => hind j hj (by simp at hp; simpa using hp.2)) g.num_vars (le_refl _) x hx
  have hsum : weighted_sum g.num_vars (fun i => (v i : ℚ))
      (x ^^^ of_bits (fun j => x.testBit j && decide (v j < 0)) g.num_vars) =
      weighted_sum g.num_vars (fun i => ((max (v i) 0 : Int) : ℚ)) x := by
    unfold weighted_sum
    apply Finset.sum_congr rfl
    intro i hi
    have hi2 := Finset.mem_range.1 hi
    rw [Nat.testBit_xor, testBit_of_bits]
    cases hxi : x.testBit i
    · simp [hi2]
    · by_cases hv : v i < 0
      · have : max (v i) 0 = 0 := max_eq_right (le_of_lt hv)
        simp [hi2, hv, this]
      · have : max (v i) 0 = v i := max_eq_left (by omega)
        simp [hi2, hv, this]
  rw [← hx0, hrep _ (xor_lt hx hlt), hsum]
  have hnn : (0 : ℚ) ≤ weighted_sum g.num_vars (fun i => ((max (v i) 0 : Int) : ℚ)) x := by
    unfold weighted_sum
    apply Finset.sum_nonneg
    intro i _
    beta_reduce
    split
    · exact_mod_cast le_max_right (v i) 0
    · exact le_refl _
  rcases le_total 0 T with hT | hT
  · rw [max_eq_left hT]
  · rw [max_eq_right hT]
    have : (T : ℚ) ≤ 0 := by exact_mod_cast hT
    constructor
    · intro _; simpa using hnn
    · intro _; linarith

/-! ## Feasibility of the rows -/

/-- Non-negative integer weights that represent the working copy satisfy every row. -/
theorem rows_complete (isop : TruthTable → List cube) (g : TruthTable) (v : Nat → Int)
    (T : Int) (hc : isop_contract isop g) (hv : ∀ i, 0 ≤ v i)
    (hrep : represents g (fun i => (v i : ℚ)) (T : ℚ)) :
    (∀ c, c ∈ isop g →
      (T : ℚ) ≤ ∑ k ∈ Finset.range g.num_vars,
        if c.mask.testBit k = true then (v k : ℚ) else 0) ∧
    (∀ c, c ∈ isop (unary_not g) →
      (∑ k ∈ Finset.range g.num_vars, if c.mask.testBit k = true then 0 else (v k : ℚ)) ≤
        (T : ℚ) - 1) := by
  obtain ⟨⟨_, himp1⟩, ⟨_, himp2⟩, _⟩ := hc
  constructor
  · intro c hcm
    have hlt := of_bits_lt (fun j => c.mask.testBit j && c.bits.testBit j) g.num_vars
    have hcon : c.contains g.num_vars
        (of_bits (fun j => c.mask.testBit j && c.bits.testBit j) g.num_vars) := by
      intro j hj hm
      rw [testBit_of_bits]
      simp [hj, hm]
    have hg := himp1 c hcm _ hlt hcon
    rw [hrep _ hlt] at hg
    refine le_trans hg ?_
    unfold weighted_sum
    apply Finset.sum_le_sum
    intro k hk
    have hk2 := Finset.mem_range.1 hk
    rw [testBit_of_bits]
    have hvk : (0 : ℚ) ≤ (v k : ℚ) := by exact_mod_cast hv k
    cases hm : c.mask.testBit k <;> cases hb : c.bits.testBit k <;> simp [hk2, hvk]
  · intro c hcm
    have hlt := of_bits_lt (fun j => !c.mask.testBit j || c.bits.testBit j) g.num_vars
    have hcon : c.contains (unary_not g).num_vars
        (of_bits (fun j => !c.mask.testBit j || c.bits.testBit j) g.num_vars) := by
      intro j hj hm
      rw [testBit_of_bits]
      have hj2 : j < g.num_vars := hj
      simp [hj2, hm]
    have hg := himp2 c hcm _ hlt hcon
    rw [get_bit_unary_not hlt] at hg
    have hg2 : ¬ get_bit g
        (of_bits (fun j => !c.mask.testBit j || c.bits.testBit j) g.num_vars) = true := by
      intro h; rw [h] at hg; simp at hg
    rw [hrep _ hlt, weighted_sum_int] at hg2
    have hlt2 : (∑ i ∈ Finset.range g.num_vars,
        if (of_bits (fun j => !c.mask.testBit j || c.bits.testBit j) g.num_vars).testBit i = true
          then v i else 0) ≤ T - 1 := by
      have : (∑ i ∈ Finset.range g.num_vars,
        if (of_bits (fun j => !c.mask.testBit j || c.bits.testBit j) g.num_vars).testBit i = true
          then v i else 0) < T := by
        by_contra hcon2
        apply hg2
        exact_mod_cast not_lt.1 hcon2
      omega
    have hle : (∑ k ∈ Finset.range g.num_vars,
        if c.mask.testBit k = true then 0 else (v k : ℚ)) ≤
        ((∑ i ∈ Finset.range g.num_vars,
          if (of_bits (fun j => !c.mask.testBit j || c.bits.testBit j) g.num_vars).testBit i = true
            then v i else 0 : Int) : ℚ) := by
      push_cast
      apply Finset.sum_le_sum
      intro k hk
      have hk2 := Finset.mem_range.1 hk
      rw [testBit_of_bits]
      have hvk : (0 : ℚ) ≤ (v k : ℚ) := by exact_mod_cast hv k
      cases hm : c.mask.testBit k <;> cases hb : c.bits.testBit k <;> simp [hk2, hvk]
    refine le_trans hle ?_
    exact_mod_cast hlt2

theorem common_denominator (w : Nat → ℚ) (n : Nat) :
    ∃ D : Nat, 0 < D ∧ ∀ i, i < n → ∃ z : Int, (D : ℚ) * w i = (z : ℚ) := by
  induction n with
  | zero => exact ⟨1, by decide, fun i hi => absurd hi (Nat.not_lt_zero i)⟩
  | succ n ih =>
    obtain ⟨D, hD, h⟩ := ih
    refine ⟨D * (w n).den, Nat.mul_pos hD (w n).den_pos, ?_⟩
    intro i hi
    by_cases hin : i = n
    · subst hin
      refine ⟨D * (w i).num, ?_⟩
      push_cast
      rw [mul_assoc, Rat.den_mul_eq_num]
    · obtain ⟨z, hz⟩ := h i (by omega)
      refine ⟨(w n).den * z, ?_⟩
      push_cast
      rw [← hz]
      ring

theorem weighted_sum_scale (n : Nat) (w : Nat → ℚ) (d : ℚ) (x : Nat) :
    weighted_sum n (fun i => d * w i) x = d * weighted_sum n w x := by
  unfold weighted_sum
  rw [Finset.mul_sum]
  apply Finset.sum_congr rfl
  intro i _
  split <;> simp

/-- A table represented by rational weights is a threshold function. -/
theorem threshold_of_rational (f : TruthTable) (w : Nat → ℚ) (T : ℚ)
    (h : represents f w T) : is_threshold_function f := by
  obtain ⟨D, hD, hz⟩ := common_denominator (fun i => if i < f.num_vars then w i else T)
    (f.num_vars + 1)
  have hDq : (0 : ℚ) < (D : ℚ) := by exact_mod_cast hD
  refine ⟨fun i => Int.floor ((D : ℚ) * w i), Int.floor ((D : ℚ) * T), ?_⟩
  have hscaled : represents f (fun i => (D : ℚ) * w i) ((D : ℚ) * T) := by
    intro x hx
    rw [h x hx, weighted_sum_scale]
    exact (mul_le_mul_left hDq).symm
  refine represents_congr f _ _ _ _ ?_ ?_ hscaled
  · intro i hi
    obtain ⟨z, hzi⟩ := hz i (by omega)
    simp only [hi, if_true] at hzi
    beta_reduce
    rw [hzi, Int.floor_intCast]
  · obtain ⟨z, hzi⟩ := hz f.num_vars (by omega)
    simp only [lt_self_iff_false, if_false] at hzi
    rw [hzi, Int.floor_intCast]

/-! ## Exactness of the linear program -/

theorem feasible_of_threshold (env : Env) (f : TruthTable) (F : List Bool) (g : TruthTable)
    (hc : classify f = some (F, g)) (hisop : isop_contract env.isop g)
    (hthr : is_threshold_function f) : feasible (submitted_rows env f) := by
  obtain ⟨w, T, hrep⟩ := hthr
  obtain ⟨_, hnv, hg, _, _⟩ := classify_spec f F g hc
  have hpu := classify_positive_unate f F g hc
  have hn := normalized_of_classify hc
  have h1 := represents_xor f g F hnv hg _ _ hrep
  have h2 : represents g
      (fun i => ((if F.getD i false = true then -w i else w i : Int) : ℚ))
      ((T - ∑ i ∈ Finset.range f.num_vars,
        (if F.getD i false = true then w i else 0) : Int) : ℚ) := by
    refine represents_congr g _ _ _ _ ?_ ?_ h1
    · intro i _
      split <;> simp
    · push_cast
      rfl
  have h3 := represents_nonneg g _ _ hpu h2
  obtain ⟨r1, r2⟩ := rows_complete env.isop g _ _ hisop (fun i => le_max_right _ 0) h3
  set v : Nat → Int := fun i => max (if F.getD i false = true then -w i else w i) 0 with hv
  set T2 : Int := max (T - ∑ i ∈ Finset.range f.num_vars,
        (if F.getD i false = true then w i else 0)) 0 with hT2
  refine ⟨fun k => if k < f.num_vars then (v k : ℚ) else (T2 : ℚ), ?_⟩
  rw [satisfies_submitted, hn]
  have hs1 : ∀ c : cube, (∑ k ∈ Finset.range f.num_vars,
      if c.mask.testBit k = true then (if k < f.num_vars then (v k : ℚ) else (T2 : ℚ)) else 0) =
      ∑ k ∈ Finset.range g.num_vars, if c.mask.testBit k = true then (v k : ℚ) else 0 := by
    intro c
    rw [hnv]
    apply Finset.sum_congr rfl
    intro k hk
    rw [if_pos (Finset.mem_range.1 hk)]
  have hs2 : ∀ c : cube, (∑ k ∈ Finset.range f.num_vars,
      if c.mask.testBit k = true then 0 else (if k < f.num_vars then (v k : ℚ) else (T2 : ℚ))) =
      ∑ k ∈ Finset.range g.num_vars, if c.mask.testBit k = true then 0 else (v k : ℚ) := by
    intro c
    rw [hnv]
    apply Finset.sum_congr rfl
    intro k hk
    rw [if_pos (Finset.mem_range.1 hk)]
  refine ⟨?_, ?_, ?_⟩
  · intro c hcm
    simp only [lt_self_iff_false, if_false]
    rw [hs1]
    exact r1 c hcm
  · intro c hcm
    simp only [lt_self_iff_false, if_false]
    rw [hs2]
    exact r2 c hcm
  · intro j _
    split
    · exact_mod_cast le_max_right _ 0
    · exact_mod_cast le_max_right _ 0

theorem threshold_of_feasible (env : Env) (f : TruthTable) (F : List Bool) (g : TruthTable)
    (hc : classify f = some (F, g)) (hisop : isop_contract env.isop g)
    (hfeas : feasible (submitted_rows env f)) : is_threshold_function f := by
  obtain ⟨p, hp⟩ := hfeas
  obtain ⟨_, hnv, hg, _, _⟩ := classify_spec f F g hc
  have hpu := classify_positive_unate f F g hc
  have hn := normalized_of_classify hc
  rw [satisfies_submitted, hn, ← hnv] at hp
  obtain ⟨h1, h2, h3⟩ := hp
  have hrep := rows_sound env.isop g p hisop hpu h1 h2 h3
  have hsym : ∀ x, x < 2 ^ g.num_vars →
      get_bit f x = get_bit g (x ^^^ flip_mask F g.num_vars) := by
    rw [hnv]
    exact xor_rel_symm f g _ (flip_mask_lt F _) hg
  exact threshold_of_rational f _ _ (represents_xor g f F hnv.symm hsym p _ hrep)

/-- C3 (exactness of the linear program). Let `f` pass the classification loop and let
`isop` keep its contract on the working copy. Then the rows submitted for `f` have a
solution iff `f` is a threshold function; they are one row per ON-set cube, one row per
OFF-set cube and `n + 1` non-negativity rows; and when the solver reports `OPTIMAL` whenever
the submitted rows are feasible and the model is built without failure, a threshold
function is flagged `true`. -/
theorem lp_exact (env : Env) (f : TruthTable) (hpass : classify f ≠ none)
    (hisop : isop_contract env.isop (normalized f)) :
    (feasible (submitted_rows env f) ↔ is_threshold_function f) ∧
    (submitted_rows env f).length =
      (env.isop (normalized f)).length + (env.isop (unary_not (normalized f))).length +
        (f.num_vars + 1) ∧
    (is_threshold_function f → solver_complete env f → model_built env f →
      ∀ plf, ∃ o, is_threshold env f plf = some o ∧ o.result = true) := by
  cases hc : classify f with
  | none => exact absurd hc hpass
  | some Fg =>
    obtain ⟨F, g⟩ := Fg
    have hn := normalized_of_classify hc
    rw [hn] at hisop
    have hiff : feasible (submitted_rows env f) ↔ is_threshold_function f :=
      ⟨threshold_of_feasible env f F g hc hisop, feasible_of_threshold env f F g hc hisop⟩
    refine ⟨hiff, ?_, ?_⟩
    · rw [submitted_rows_eq]; simp; omega
    · intro hthr hcomp hb plf
      obtain ⟨calls, hE⟩ := is_threshold_solved env f plf F g hc hb
      refine ⟨_, hE, ?_⟩
      simp [hcomp (hiff.2 hthr)]

/-! ## Inverting variables of the input -/

theorem foldl_xor_mask (S : List Nat) (m : Nat) :
    S.foldl (fun m i => m ^^^ 2 ^ i) m = m ^^^ list_mask S := by
  unfold list_mask
  induction S generalizing m with
  | nil => simp
  | cons i S ih =>
    rw [List.foldl_cons, List.foldl_cons, ih, ih (0 ^^^ 2 ^ i), Nat.zero_xor, Nat.xor_assoc]

theorem list_mask_cons (i : Nat) (S : List Nat) :
    list_mask (i :: S) = 2 ^ i ^^^ list_mask S := by
  have h := foldl_xor_mask S (0 ^^^ 2 ^ i)
  simp only [list_mask, List.foldl_cons] at h ⊢
  rw [h, Nat.zero_xor]

theorem list_mask_lt (S : List Nat) (n : Nat) (hS : ∀ i, i ∈ S → i < n) :
    list_mask S < 2 ^ n := by
  induction S with
  | nil => simp [list_mask]
  | cons i S ih =>
    rw [list_mask_cons]
    apply Nat.xor_lt_two_pow
    · exact Nat.pow_lt_pow_right (by decide) (hS i (List.mem_cons_self i S))
    · exact ih (fun j hj => hS j (List.mem_cons_of_mem i hj))

theorem well_formed_tabulate (n : Nat) (g : Nat → Bool) : well_formed (tabulate n g) := by
  simp [well_formed, tabulate]

theorem flip_vars_num_vars (f : TruthTable) (S : List Nat) :
    (flip_vars f S).num_vars = f.num_vars := by
  unfold flip_vars
  induction S generalizing f with
  | nil => rfl
  | cons i S ih => rw [List.foldl_cons, ih]; rfl

theorem flip_vars_well_formed (f : TruthTable) (S : List Nat) (h : well_formed f) :
    well_formed (flip_vars f S) := by
  unfold flip_vars
  induction S generalizing f with
  | nil => exact h
  | cons i S ih => rw [List.foldl_cons]; exact ih _ (well_formed_tabulate _ _)

theorem get_bit_flip_vars (f : TruthTable) (S : List Nat) (hS : ∀ i, i ∈ S → i < f.num_vars) :
    ∀ x, x < 2 ^ f.num_vars → get_bit (flip_vars f S) x = get_bit f (x ^^^ list_mask S) := by
  induction S generalizing f with
  | nil => intro x _; simp [flip_vars, list_mask]
  | cons i S ih =>
    intro x hx
    have hi : i < f.num_vars := hS i (List.mem_cons_self i S)
    have hS2 : ∀ j, j ∈ S → j < (flip_inplace f i).num_vars :=
      fun j hj => hS j (List.mem_cons_of_mem i hj)
    have h1 : flip_vars f (i :: S) = flip_vars (flip_inplace f i) S := rfl
    have hlt : list_mask S < 2 ^ f.num_vars := list_mask_lt S _ hS2
    rw [h1, ih (flip_inplace f i) hS2 x hx, get_bit_flip_inplace i (xor_lt hx hlt),
      list_mask_cons, Nat.xor_assoc, Nat.xor_comm (list_mask S)]

/-- Two well-formed tables of the same size with the same values are equal. -/
theorem table_ext (a b : TruthTable) (ha : well_formed a) (hb : well_formed b)
    (hn : a.num_vars = b.num_vars)
    (h : ∀ x, x < 2 ^ a.num_vars → get_bit a x = get_bit b x) : a = b := by
  obtain ⟨na, ba⟩ := a
  obtain ⟨nb, bb⟩ := b
  simp only [well_formed] at ha hb
  simp only at hn
  subst hn
  simp only [TruthTable.mk.injEq, true_and]
  apply List.ext_getElem (by rw [ha, hb])
  intro x h1 h2
  have := h x (by rw [← ha]; exact h1)
  simp only [get_bit, List.getD_eq_getElem?_getD, List.getElem?_eq_getElem h1,
    List.getElem?_eq_getElem h2, Option.getD_some] at this
  exact this

theorem unate_loop_well_formed (f : TruthTable) (k i : Nat) (fl : List Bool) (tm : TruthTable)
    (F : List Bool) (g : TruthTable) (hwf : well_formed tm)
    (hrun : unate_loop f k i fl tm = some (F, g)) : well_formed g := by
  induction k generalizing i fl tm with
  | zero =>
    simp only [unate_loop, Option.some.injEq, Prod.mk.injEq] at hrun
    rw [← hrun.2]; exact hwf
  | succ k ih =>
    simp only [unate_loop] at hrun
    split at hrun
    · exact ih _ _ _ hwf hrun
    · split at hrun
      · exact ih _ _ _ (well_formed_tabulate _ _) hrun
      · exact absurd hrun (by simp)

theorem of_bits_testBit (d n : Nat) (hd : d < 2 ^ n) : of_bits (fun j => d.testBit j) n = d := by
  apply Nat.eq_of_testBit_eq
  intro j
  rw [testBit_of_bits]
  by_cases hj : j < n
  · simp [hj]
  · have : d < 2 ^ j := lt_of_lt_of_le hd (Nat.pow_le_pow_right (by decide) (by omega))
    rw [Nat.testBit_lt_two_pow this]
    simp [hj]

/-- The working copy does not change when variables of the input are inverted. -/
theorem normalized_flip_vars (f : TruthTable) (S : List Nat) (hwf : well_formed f)
    (hS : ∀ i, i ∈ S → i < f.num_vars) (F : List Bool) (g : TruthTable)
    (hc : classify f = some (F, g)) :
    ∃ F2, classify (flip_vars f S) = some (F2, g) := by
  obtain ⟨_, hnv, hg, hF, hun⟩ := classify_spec f F g hc
  have hnS := flip_vars_num_vars f S
  have hmS := list_mask_lt S _ hS
  have hgS := get_bit_flip_vars f S hS
  have hpos := fun i hi => pos_test_xor f (flip_vars f S) (list_mask S) i hmS hnS hgS hi
  have hneg := fun i hi => neg_test_xor f (flip_vars f S) (list_mask S) i hmS hnS hgS hi
  obtain ⟨F2, g2, hc2⟩ := classify_some_of_unate (flip_vars f S) (by
    intro i hi hb
    rw [hnS] at hi
    obtain ⟨hb1, hb2⟩ := hb
    rw [hpos i hi] at hb1
    rw [hneg i hi] at hb2
    have hu := hun i hi
    by_cases hm : (list_mask S).testBit i = true <;>
      cases hq : implies (cofactor1 f i) (cofactor0 f i) <;>
      cases hq2 : implies (cofactor0 f i) (cofactor1 f i) <;>
      simp [hm, hq, hq2] at hb1 hb2 hu)
  obtain ⟨_, hnv2, hg2, hF2, _⟩ := classify_spec (flip_vars f S) F2 g2 hc2
  rw [hnS] at hnv2 hg2 hF2
  refine ⟨F2, ?_⟩
  rw [hc2]
  have hwg : well_formed g := unate_loop_well_formed f _ _ _ _ F g hwf hc
  have hwg2 : well_formed g2 :=
    unate_loop_well_formed _ _ _ _ _ F2 g2 (flip_vars_well_formed f S hwf) hc2
  have : g2 = g := by
    apply table_ext g2 g hwg2 hwg (by rw [hnv2, hnv])
    rw [hnv2]
    intro x hx
    have hM2 := flip_mask_lt F2 f.num_vars
    have hM := flip_mask_lt F f.num_vars
    rw [hg2 x hx, hgS _ (xor_lt hx hM2), hg x hx]
    set D := flip_mask F2 f.num_vars ^^^ list_mask S ^^^ flip_mask F f.num_vars with hD
    have hDlt : D < 2 ^ f.num_vars := xor_lt (xor_lt hM2 hmS) hM
    have hxD : x ^^^ flip_mask F2 f.num_vars ^^^ list_mask S =
        (x ^^^ flip_mask F f.num_vars) ^^^ D := by
      apply Nat.eq_of_testBit_eq
      intro j
      simp only [hD, Nat.testBit_xor]
      cases x.testBit j <;> cases (flip_mask F2 f.num_vars).testBit j <;>
        cases (list_mask S).testBit j <;> cases (flip_mask F f.num_vars).testBit j <;> rfl
    rw [hxD, ← of_bits_testBit D _ hDlt]
    apply indep_of_bits f (fun j => D.testBit j) ?_ f.num_vars (le_refl _) _ (xor_lt hx hM)
    intro j hj hDj
    have hDj2 : (((decide (j < f.num_vars) && F2.getD j false) ^^ (list_mask S).testBit j) ^^
        (decide (j < f.num_vars) && F.getD j false)) = true := by
      simpa only [hD, Nat.testBit_xor, testBit_flip_mask] using hDj
    rw [hF2 j hj, hF j hj, hpos j hj] at hDj2
    have hp : implies (cofactor0 f j) (cofactor1 f j) = true ∧
        implies (cofactor1 f j) (cofactor0 f j) = true := by
      have hu := hun j hj
      by_cases hm : (list_mask S).testBit j = true <;>
        cases hq : implies (cofactor1 f j) (cofactor0 f j) <;>
        cases hq2 : implies (cofactor0 f j) (cofactor1 f j) <;>
        simp [hm, hj, hq, hq2] at hDj2 hu ⊢
    exact indep_of_both f j hp.1 hp.2
  rw [this]

/-! ## Polarity invariance -/

theorem submitted_rows_congr (env : Env) (a b : TruthTable) (hn : a.num_vars = b.num_vars)
    (hg : normalized a = normalized b) : submitted_rows env a = submitted_rows env b := by
  unfold submitted_rows; rw [hn, hg]

theorem submitted_objective_congr (env : Env) (a b : TruthTable)
    (hn : a.num_vars = b.num_vars) (hg : normalized a = normalized b) :
    submitted_objective env a = submitted_objective env b := by
  unfold submitted_objective; rw [hn, hg]

theorem solver_point_congr (env : Env) (a b : TruthTable) (hn : a.num_vars = b.num_vars)
    (hg : normalized a = normalized b) : solver_point env a = solver_point env b := by
  unfold solver_point
  rw [submitted_rows_congr env a b hn hg, submitted_objective_congr env a b hn hg]

theorem solver_status_congr (env : Env) (a b : TruthTable) (hn : a.num_vars = b.num_vars)
    (hg : normalized a = normalized b) : solver_status env a = solver_status env b := by
  unfold solver_status
  rw [submitted_rows_congr env a b hn hg, submitted_objective_congr env a b hn hg]

theorem model_built_congr (env : Env) (a b : TruthTable) (hn : a.num_vars = b.num_vars)
    (hg : normalized a = normalized b) (h : model_built env b) : model_built env a := by
  unfold model_built at h ⊢
  rw [submitted_rows_congr env a b hn hg, submitted_objective_congr env a b hn hg, hn]
  exact h

theorem solver_sound_congr (env : Env) (a b : TruthTable) (hn : a.num_vars = b.num_vars)
    (hg : normalized a = normalized b) (h : solver_sound env b) : solver_sound env a := by
  unfold solver_sound at h ⊢
  rw [submitted_rows_congr env a b hn hg, solver_status_congr env a b hn hg,
    solver_point_congr env a b hn hg, hn]
  exact h

theorem solver_small_congr (env : Env) (a b : TruthTable) (hn : a.num_vars = b.num_vars)
    (hg : normalized a = normalized b) (h : solver_small env b) : solver_small env a := by
  unfold solver_small at h ⊢
  rw [solver_status_congr env a b hn hg, solver_point_congr env a b hn hg, hn]
  exact h

/-- The returned boolean depends on the table only through the number of variables and
the working copy. -/
theorem result_congr (env : Env) (a b : TruthTable) (F F2 : List Bool) (g : TruthTable)
    (hn : a.num_vars = b.num_vars) (ha : classify a = some (F, g))
    (hb : classify b = some (F2, g)) (plf : Option (List Int)) :
    (is_threshold env a plf).map (fun o => o.result) =
      (is_threshold env b plf).map (fun o => o.result) := by
  unfold is_threshold
  simp only [ha, hb, hn]
  by_cases h1 : env.lp.make_lp 0 (b.num_vars + 1) = true
  · by_cases h2 : env.malloc_colno = true
    · by_cases h3 : env.malloc_row = true
      · by_cases h4 : env.lp.set_obj_fnex (build_final env b.num_vars g).submitted
            (objective_of (b.num_vars + 1) (build_final env b.num_vars g)) = true
        · by_cases hs : env.lp.solve (build_final env b.num_vars g).submitted
              (objective_of (b.num_vars + 1) (build_final env b.num_vars g)) = OPTIMAL
          · simp [h1, h2, h3, h4, hs]
          · simp [h1, h2, h3, h4, hs]
        · simp [h1, h2, h3, h4]
      · simp [h1, h2, h3]
    · simp [h1, h2]
  · simp [h1]

/-- C10 (polarity invariance, with the contracts of the collaborators). Let `f` be a
well-formed threshold function and `S` a list of its variables. The working copy computed
for `f` with the variables of `S` inverted equals the one computed for `f`, the same rows
are submitted, and for every behaviour of the collaborators the returned boolean is the
same. When `isop` keeps its contract, the solver reports `OPTIMAL` on feasible rows and the
model is built, both runs return `true`; and when the solver reports `OPTIMAL` only with an
integer-valued point that satisfies the rows and whose absolute values sum to at most
`2^53`, every linear form returned for the inverted table represents it. -/
theorem polarity_invariance (env : Env) (f : TruthTable) (S : List Nat)
    (hwf : well_formed f) (hS : ∀ i, i ∈ S → i < f.num_vars)
    (hthr : is_threshold_function f) :
    normalized (flip_vars f S) = normalized f ∧
    submitted_rows env (flip_vars f S) = submitted_rows env f ∧
    (∀ plf, (is_threshold env (flip_vars f S) plf).map (fun o => o.result) =
      (is_threshold env f plf).map (fun o => o.result)) ∧
    (isop_contract env.isop (normalized f) → solver_complete env f → model_built env f →
      ∀ plf, ∃ o o2, is_threshold env f plf = some o ∧
        is_threshold env (flip_vars f S) plf = some o2 ∧
        o.result = true ∧ o2.result = true) ∧
    (isop_contract env.isop (normalized f) → solver_sound env f → solver_small env f →
      ∀ plf0 o2 lf, is_threshold env (flip_vars f S) (some plf0) = some o2 →
        o2.result = true → o2.plf = some lf → linear_form_represents (flip_vars f S) lf) := by
  obtain ⟨w, T, hrep⟩ := hthr
  obtain ⟨F, g, hc⟩ := classify_some_of_unate f
    (fun i hi => not_binate_of_represents f _ _ hrep i hi)
  obtain ⟨F2, hc2⟩ := normalized_flip_vars f S hwf hS F g hc
  have hn := flip_vars_num_vars f S
  have hg : normalized (flip_vars f S) = normalized f := by
    rw [normalized_of_classify hc, normalized_of_classify hc2]
  refine ⟨hg, submitted_rows_congr env _ f hn hg, ?_, ?_, ?_⟩
  · intro plf
    exact result_congr env _ f F2 F g hn hc2 hc plf
  · intro hisop hcomplete hbuilt plf
    have hfeas : feasible (submitted_rows env f) :=
      feasible_of_threshold env f F g hc (by rw [← normalized_of_classify hc]; exact hisop)
        ⟨w, T, hrep⟩
    have hopt : solver_status env f = OPTIMAL := hcomplete hfeas
    have hopt2 : solver_status env (flip_vars f S) = OPTIMAL := by
      rw [solver_status_congr env _ f hn hg]; exact hopt
    have hbuilt2 := model_built_congr env _ f hn hg hbuilt
    obtain ⟨calls, hE⟩ := is_threshold_solved env f plf F g hc hbuilt
    obtain ⟨calls2, hE2⟩ := is_threshold_solved env _ plf F2 g hc2 hbuilt2
    exact ⟨_, _, hE, hE2, by simp [hopt], by simp [hopt2]⟩
  · intro hisop hsound hsmall plf0 o2 lf hrun htrue hlf
    have hsound2 := solver_sound_congr env _ f hn hg hsound
    have hsmall2 := solver_small_congr env _ f hn hg hsmall
    exact sound_of_contracts env _ plf0 lf o2 hsound2 hsmall2 (by rw [hg]; exact hisop)
      hrun htrue hlf

/-! ## The run on `x0 ∧ ¬x1` -/

theorem and_classify :
    classify and_not_table = some ([false, true], ⟨2, [false, false, false, true]⟩) := by
  decide

theorem and_isop_ok : isop_contract and_env.isop (normalized and_not_table) := by decide

theorem and_built : model_built and_env and_not_table := ⟨rfl, rfl, rfl, rfl⟩

theorem and_status : solver_status and_env and_not_table = OPTIMAL := rfl

theorem and_point :
    solver_point and_env and_not_table = fun k => (((if k = 2 then 2 else 1) : Int) : ℚ) := rfl

theorem and_sound : solver_sound and_env and_not_table := by
  intro _
  refine ⟨fun k _ => ⟨if k = 2 then 2 else 1, by rw [and_point]⟩, ?_⟩
  rw [satisfies_submitted, and_point]
  have h1 : and_env.isop (normalized and_not_table) = [⟨3, 3⟩] := by decide
  have h2 : and_env.isop (unary_not (normalized and_not_table)) = [⟨0, 1⟩, ⟨0, 2⟩] := by decide
  have hn : and_not_table.num_vars = 2 := rfl
  rw [h1, h2, hn]
  refine ⟨?_, ?_, ?_⟩
  · intro c hc
    simp only [List.mem_singleton] at hc
    subst hc
    simp [Finset.sum_range_succ, Nat.testBit]
    norm_num
  · intro c hc
    simp only [List.mem_cons, List.mem_singleton, List.not_mem_nil, or_false] at hc
    rcases hc with rfl | rfl
    · simp [Finset.sum_range_succ, Nat.testBit]
      norm_num
    · simp [Finset.sum_range_succ, Nat.testBit]
      norm_num
  · intro j _
    beta_reduce
    split <;> norm_num

theorem and_small : solver_small and_env and_not_table := by
  intro _
  rw [and_point]
  have hn : and_not_table.num_vars = 2 := rfl
  rw [hn]
  simp [Finset.sum_range_succ]
  norm_num

theorem and_run (plf0 : List Int) :
    ∃ calls, is_threshold and_env and_not_table (some plf0) =
      some ⟨true, some [1, -1, 1], calls⟩ := by
  obtain ⟨calls, h⟩ := is_threshold_solved and_env and_not_table (some plf0) _ _
    and_classify and_built
  refine ⟨calls, ?_⟩
  rw [h, and_point]
  have hn : and_not_table.num_vars = 2 := rfl
  rw [hn, back_translate_int _ _ _ _ (by decide)]
  simp [and_status, Finset.sum_range_succ]
  decide

theorem and_represents :
    represents and_not_table (fun i => (((if i = 0 then 1 else -1) : Int) : ℚ)) ((1 : Int) : ℚ) := by
  intro x hx
  have hx4 : x < 4 := hx
  interval_cases x <;>
    simp [weighted_sum, Finset.sum_range_succ, get_bit, and_not_table, Nat.testBit]

/-! ## Concrete runs of the statements -/

theorem and_complete : solver_complete and_env and_not_table := fun _ => and_status

theorem and_threshold : is_threshold_function and_not_table :=
  ⟨fun i => if i = 0 then 1 else -1, 1, and_represents⟩

theorem xor_classify : classify xor_table = none := by decide

theorem var_classify : classify var_table = some ([false], var_table) := by decide

theorem rejecting_run :
    ∃ calls, is_threshold rejecting_env var_table (some []) =
      some ⟨true, some [1, 1], calls⟩ := by
  obtain ⟨calls, h⟩ := is_threshold_solved rejecting_env var_table (some []) _ _
    var_classify ⟨rfl, rfl, rfl, rfl⟩
  refine ⟨calls, ?_⟩
  have hp : solver_point rejecting_env var_table = fun _ => ((1 : Int) : ℚ) := rfl
  have hs : solver_status rejecting_env var_table = OPTIMAL := rfl
  have hn : var_table.num_vars = 0 + 1 := rfl
  rw [h, hp, hn, back_translate_int _ _ _ _ (by decide)]
  simp [hs]

theorem and_normalized_num_vars :
    (normalized and_not_table).num_vars = and_not_table.num_vars := by decide

theorem and_normalized_rel : ∀ x, x < 2 ^ and_not_table.num_vars →
    get_bit (normalized and_not_table) x =
      get_bit and_not_table (x ^^^ flip_mask (flipped and_not_table) and_not_table.num_vars) := by
  have hc := and_classify
  obtain ⟨_, _, hg, _, _⟩ := classify_spec and_not_table _ _ hc
  rw [normalized_of_classify hc, flipped_of_classify hc]
  exact hg

theorem and_normalized_rep :
    represents (normalized and_not_table)
      (fun i => (((if i = 2 then 2 else 1) : Int) : ℚ))
      (((if and_not_table.num_vars = 2 then 2 else 1) : Int) : ℚ) := by
  rw [normalized_of_classify and_classify]
  intro x hx
  have hx4 : x < 4 := hx
  interval_cases x
  all_goals simp [weighted_sum, Finset.sum_range_succ, get_bit, and_not_table, Nat.testBit]
  all_goals norm_num

/-- Witness of C1: the run on `x0 ∧ ¬x1` returns `true` with the form `(1, -1, 1)`. -/
theorem is_threshold_sound_witness :
    solver_sound and_env and_not_table ∧ solver_small and_env and_not_table ∧
    isop_contract and_env.isop (normalized and_not_table) ∧
    ∃ o, is_threshold and_env and_not_table (some []) = some o ∧ o.result = true ∧
      o.plf = some [1, -1, 1] ∧
      ∀ x, x < 2 ^ and_not_table.num_vars →
        (get_bit and_not_table x = true ↔
          ((([1, -1, 1] : List Int).getD and_not_table.num_vars 0 : Int) : ℚ) ≤
            weighted_sum and_not_table.num_vars
              (fun i => ((([1, -1, 1] : List Int).getD i 0 : Int) : ℚ)) x) := by
  obtain ⟨calls, h⟩ := and_run []
  exact ⟨and_sound, and_small, and_isop_ok, _, h, rfl, rfl,
    is_threshold_sound and_env and_not_table [] [1, -1, 1] _ and_sound and_small and_isop_ok
      h rfl rfl⟩

/-- Witness of C2: `x0 ⊕ x1` is binate in `x0`. -/
theorem binate_returns_false_witness :
    0 < xor_table.num_vars ∧ binate_in xor_table 0 ∧
    ∃ o, is_threshold and_env xor_table none = some o ∧ o.result = false ∧
      ∀ c, Call.add_constraintex c ∉ o.calls :=
  ⟨by decide, by decide, binate_returns_false and_env xor_table none 0 (by decide) (by decide)⟩

/-- Witness of C3: the six rows submitted for `x0 ∧ ¬x1`. -/
theorem lp_exact_witness :
    classify and_not_table ≠ none ∧
    isop_contract and_env.isop (normalized and_not_table) ∧
    (feasible (submitted_rows and_env and_not_table) ↔
      is_threshold_function and_not_table) ∧
    (submitted_rows and_env and_not_table).length = 1 + 2 + (2 + 1) ∧
    ∃ o, is_threshold and_env and_not_table none = some o ∧ o.result = true := by
  have h := lp_exact and_env and_not_table (by rw [and_classify]; simp) and_isop_ok
  refine ⟨by rw [and_classify]; simp, and_isop_ok, h.1, ?_, ?_⟩
  · rw [h.2.1]; decide
  · exact h.2.2 and_threshold and_complete and_built none

/-- Witness of C4: `x0 ∧ ¬x1` is represented by `x0 - x1 ≥ 1`. -/
theorem threshold_is_unate_witness :
    represents and_not_table (fun i => (((if i = 0 then 1 else -1) : Int) : ℚ))
      ((1 : Int) : ℚ) ∧
    (∀ i, i < and_not_table.num_vars →
      implies (cofactor0 and_not_table i) (cofactor1 and_not_table i) = true ∨
        implies (cofactor1 and_not_table i) (cofactor0 and_not_table i) = true) ∧
    classify and_not_table ≠ none :=
  ⟨and_represents,
    threshold_is_unate and_not_table (fun i => if i = 0 then 1 else -1) 1 and_represents⟩

/-- Witness of C5: the run on `x0 ∧ ¬x1`. -/
theorem result_iff_optimal_witness :
    (∀ i, i < and_not_table.num_vars → ¬ binate_in and_not_table i) ∧
    model_built and_env and_not_table ∧
    ∃ o, is_threshold and_env and_not_table none = some o ∧
      (o.result = true ↔ solver_status and_env and_not_table = OPTIMAL) :=
  ⟨by decide, and_built, result_iff_optimal and_env and_not_table none (by decide) and_built⟩

/-- C6, evaluated on a run with rejected rows. With an LP library whose `add_constraintex`
rejects every row and whose `solve` reports `OPTIMAL` all the same, the run on the table of
`x0` has recorded the rejection in `ret` (value `5` after the last row), and it still
returns `true` and writes the linear form `(1, 1)`: the value of `ret` is replaced by the
status of `solve`. -/
theorem rejected_rows_still_true :
    (∀ rows c, rejecting_env.lp.add_constraintex rows c = false) ∧
    (build_final rejecting_env var_table.num_vars (normalized var_table)).ret = 5 ∧
    ∃ calls, is_threshold rejecting_env var_table (some []) =
      some ⟨true, some [1, 1], calls⟩ :=
  ⟨fun _ _ => rfl, rfl, rejecting_run⟩

/-- Witness of C7: the run on `x0 ⊕ x1` leaves `[7]` in `*plf`. -/
theorem plf_unchanged_on_false_witness :
    is_threshold and_env xor_table (some [7]) =
      some ⟨false, some [7], [Call.make_lp 0 (xor_table.num_vars + 1)]⟩ ∧
    (⟨false, some [7], [Call.make_lp 0 (xor_table.num_vars + 1)]⟩ : Outcome).plf = some [7] :=
  ⟨is_threshold_binate and_env xor_table (some [7]) xor_classify,
    plf_unchanged_on_false and_env xor_table (some [7]) _
      (is_threshold_binate and_env xor_table (some [7]) xor_classify) rfl⟩

/-- Witness of C8: the run on `x0 ∧ ¬x1` replaces the four entries of `*plf`. -/
theorem plf_shape_on_true_witness :
    ∃ o, is_threshold and_env and_not_table (some [9, 9, 9, 9]) = some o ∧ o.result = true ∧
      ∃ lf, o.plf = some lf ∧ lf.length = and_not_table.num_vars + 1 ∧
        (∀ i, i < and_not_table.num_vars → lf.getD i 0 =
          to_int64 and_env.int64_out_of_range
            (if (flipped and_not_table).getD i false = true
              then -solver_point and_env and_not_table i
              else solver_point and_env and_not_table i)) ∧
        lf.getD and_not_table.num_vars 0 =
          to_int64 and_env.int64_out_of_range
            (running_threshold (flipped and_not_table) (solver_point and_env and_not_table)
              and_not_table.num_vars and_not_table.num_vars) ∧
        (small_point (and_not_table.num_vars + 1) (solver_point and_env and_not_table) →
          ((lf.getD and_not_table.num_vars 0 : Int) : ℚ) =
            solver_point and_env and_not_table and_not_table.num_vars -
              ∑ i ∈ Finset.range and_not_table.num_vars,
                if (flipped and_not_table).getD i false = true
                  then solver_point and_env and_not_table i else 0) := by
  obtain ⟨calls, h⟩ := and_run [9, 9, 9, 9]
  exact ⟨_, h, rfl, plf_shape_on_true and_env and_not_table [9, 9, 9, 9] _ h rfl⟩

/-- Witness of C9: the solver point `(1, 1, 2)` of the run on `x0 ∧ ¬x1`. -/
theorem back_translation_witness :
    ∃ o, is_threshold and_env and_not_table (some []) = some o ∧ o.result = true ∧
      o.plf = some [1, -1, 1] ∧
      (∀ k, k < and_not_table.num_vars + 1 →
        solver_point and_env and_not_table k = (((if k = 2 then 2 else 1) : Int) : ℚ)) ∧
      ∑ k ∈ Finset.range (and_not_table.num_vars + 1), |((if k = 2 then 2 else 1) : Int)|
        ≤ 2 ^ 53 ∧
      (normalized and_not_table).num_vars = and_not_table.num_vars ∧
      (∀ x, x < 2 ^ and_not_table.num_vars →
        get_bit (normalized and_not_table) x =
          get_bit and_not_table
            (x ^^^ flip_mask (flipped and_not_table) and_not_table.num_vars)) ∧
      represents (normalized and_not_table)
          (fun i => (((if i = 2 then 2 else 1) : Int) : ℚ))
          (((if and_not_table.num_vars = 2 then 2 else 1) : Int) : ℚ) ∧
      (∀ i, i < and_not_table.num_vars →
        ([1, -1, 1] : List Int).getD i 0 =
          if (flipped and_not_table).getD i false = true
            then -(if i = 2 then 2 else 1) else (if i = 2 then 2 else 1)) ∧
      ([1, -1, 1] : List Int).getD and_not_table.num_vars 0 =
        (if and_not_table.num_vars = 2 then 2 else 1) -
          ∑ i ∈ Finset.range and_not_table.num_vars,
            (if (flipped and_not_table).getD i false = true
              then (if i = 2 then 2 else 1) else 0) ∧
      ∀ x, x < 2 ^ and_not_table.num_vars →
        (get_bit and_not_table x = true ↔
          ((([1, -1, 1] : List Int).getD and_not_table.num_vars 0 : Int) : ℚ) ≤
            weighted_sum and_not_table.num_vars
              (fun i => ((([1, -1, 1] : List Int).getD i 0 : Int) : ℚ)) x) := by
  obtain ⟨calls, h⟩ := and_run []
  have hv : ∀ k, k < and_not_table.num_vars + 1 →
      solver_point and_env and_not_table k = (((if k = 2 then 2 else 1) : Int) : ℚ) := by
    intro k _; rw [and_point]
  exact ⟨_, h, rfl, rfl, hv, by decide, and_normalized_num_vars, and_normalized_rel,
    and_normalized_rep,
    back_translation and_env and_not_table (normalized and_not_table) [] [1, -1, 1] _
      (fun k => if k = 2 then 2 else 1) h rfl rfl hv (by decide) and_normalized_num_vars
      and_normalized_rel and_normalized_rep⟩

/-- Witness of C10: `x0 ∧ ¬x1` with `x1` inverted. -/
theorem polarity_invariance_witness :
    well_formed and_not_table ∧ (∀ i, i ∈ [1] → i < and_not_table.num_vars) ∧
    is_threshold_function and_not_table ∧
    normalized (flip_vars and_not_table [1]) = normalized and_not_table ∧
    submitted_rows and_env (flip_vars and_not_table [1]) =
      submitted_rows and_env and_not_table ∧
    (∃ o o2, is_threshold and_env and_not_table none = some o ∧
      is_threshold and_env (flip_vars and_not_table [1]) none = some o2 ∧
      o.result = true ∧ o2.result = true) ∧
    (∀ plf0 o2 lf, is_threshold and_env (flip_vars and_not_table [1]) (some plf0) = some o2 →
      o2.result = true → o2.plf = some lf →
      linear_form_represents (flip_vars and_not_table [1]) lf) := by
  have hS : ∀ i, i ∈ [1] → i < and_not_table.num_vars := by decide
  have h := polarity_invariance and_env and_not_table [1] (by decide) hS and_threshold
  exact ⟨by decide, hS, and_threshold, h.1, h.2.1,
    h.2.2.2.1 and_isop_ok and_complete and_built none,
    h.2.2.2.2 and_isop_ok and_sound and_small⟩

/-! ## Runs with a fractional solver point -/

theorem truncate_frac1 : truncate (19 / 10) = 1 := by
  unfold truncate
  rw [if_pos (by norm_num), Int.floor_eq_iff]
  constructor <;> norm_num

theorem truncate_frac2 : truncate (19 / 5) = 3 := by
  unfold truncate
  rw [if_pos (by norm_num), Int.floor_eq_iff]
  constructor <;> norm_num

theorem to_int64_frac1 (c : ℚ → Int) : to_int64 c (19 / 10) = 1 := by
  rw [to_int64_in_range c _ (by rw [truncate_frac1]; decide) (by rw [truncate_frac1]; decide),
    truncate_frac1]

theorem to_int64_frac2 (c : ℚ → Int) : to_int64 c (19 / 5) = 3 := by
  rw [to_int64_in_range c _ (by rw [truncate_frac2]; decide) (by rw [truncate_frac2]; decide),
    truncate_frac2]

theorem frac_classify : classify and_table = some ([false, false], and_table) := by decide

theorem frac_point :
    solver_point frac_env and_table = fun k => if k = 2 then 19 / 5 else 19 / 10 := rfl

theorem frac_run :
    ∃ calls, is_threshold frac_env and_table (some []) =
      some ⟨true, some [1, 1, 3], calls⟩ := by
  obtain ⟨calls, h⟩ := is_threshold_solved frac_env and_table (some []) _ _
    frac_classify ⟨rfl, rfl, rfl, rfl⟩
  refine ⟨calls, ?_⟩
  have hs : solver_status frac_env and_table = OPTIMAL := rfl
  have hn : and_table.num_vars = 1 + 1 := rfl
  rw [h, frac_point, hn, back_translate_eq]
  simp [hs, running_threshold, List.range_succ, to_int64_frac1, to_int64_frac2]

theorem frac_rows : ∀ c, c ∈ submitted_rows frac_env and_table →
    satisfies (solver_point frac_env and_table) c := by
  rw [satisfies_submitted, frac_point]
  have h1 : frac_env.isop (normalized and_table) = [⟨3, 3⟩] := by decide
  have h2 : frac_env.isop (unary_not (normalized and_table)) = [⟨0, 1⟩, ⟨0, 2⟩] := by decide
  have hn : and_table.num_vars = 2 := rfl
  rw [h1, h2, hn]
  refine ⟨?_, ?_, ?_⟩
  · intro c hc
    simp only [List.mem_singleton] at hc
    subst hc
    simp [Finset.sum_range_succ, Nat.testBit]
    norm_num
  · intro c hc
    simp only [List.mem_cons, List.mem_singleton, List.not_mem_nil, or_false] at hc
    rcases hc with rfl | rfl
    · simp [Finset.sum_range_succ, Nat.testBit]
      norm_num
    · simp [Finset.sum_range_succ, Nat.testBit]
      norm_num
  · intro j _
    beta_reduce
    split <;> norm_num

theorem frac_represents :
    represents (normalized and_table) (solver_point frac_env and_table)
      (solver_point frac_env and_table and_table.num_vars) := by
  rw [normalized_of_classify frac_classify, frac_point]
  intro x hx
  have hx4 : x < 4 := hx
  interval_cases x
  all_goals simp [weighted_sum, Finset.sum_range_succ, get_bit, and_table, Nat.testBit]
  all_goals norm_num

theorem frac_not_represented : ¬ linear_form_represents and_table [1, 1, 3] := by
  intro h
  have h3 := (h 3 (by decide)).1 (by decide)
  simp [weighted_sum, Finset.sum_range_succ, and_table, Nat.testBit] at h3
  norm_num at h3

/-! ## Runs with a weight above `2^53` -/

theorem log_big : Int.log 2 |(-9007199254740993 : ℚ)| = 53 := by
  have h : |(-9007199254740993 : ℚ)| = ((9007199254740993 : Nat) : ℚ) := by norm_num
  rw [h, Int.log_natCast]
  have : Nat.log 2 9007199254740993 = 53 := by
    rw [Nat.log_eq_iff (by norm_num)]
    norm_num
  rw [this]; rfl

/-- The double nearest to `-(2^53 + 1)` is `-2^53`. -/
theorem round_double_big : round_double (-9007199254740993) = -9007199254740992 := by
  unfold round_double ulp_exponent
  rw [log_big]
  have hm : max ((53 : Int) - 52) (-1074) = 1 := by decide
  rw [hm]
  have hq : (-9007199254740993 : ℚ) / 2 ^ (1 : Int) = -9007199254740993 / 2 := by norm_num
  have hf : Int.floor (-9007199254740993 / 2 : ℚ) = -4503599627370497 := by
    rw [Int.floor_eq_iff]; constructor <;> norm_num
  rw [hq]
  unfold round_half_even
  rw [hf]
  norm_num

theorem double_sub_big :
    double_sub (((1 : Int) : ℚ)) (((9007199254740994 : Int) : ℚ)) =
      (((-9007199254740992 : Int)) : ℚ) := by
  unfold double_sub
  rw [if_neg (by unfold DBL_MAX; norm_num)]
  have : (((1 : Int) : ℚ)) - (((9007199254740994 : Int) : ℚ)) = -9007199254740993 := by
    norm_num
  rw [this, round_double_big]
  norm_num

/-- The entries of `linear_form` that come from integers in the range of `int64_t`. -/
theorem back_translate_weights (c : ℚ → Int) (F : List Bool) (n : Nat) (v : Nat → Int)
    (hv : ∀ i, i < n → INT64_MIN ≤ -v i ∧ -v i ≤ INT64_MAX ∧ INT64_MIN ≤ v i ∧ v i ≤ INT64_MAX) :
    back_translate c F (n + 1) (fun k => (v k : ℚ)) =
      (List.range n).map (fun i => if F.getD i false = true then -v i else v i) ++
        [to_int64 c (running_threshold F (fun k => (v k : ℚ)) n n)] := by
  rw [back_translate_eq]
  congr 1
  apply List.map_congr_left
  intro i hi
  obtain ⟨h1, h2, h3, h4⟩ := hv i (List.mem_range.1 hi)
  by_cases hF : F.getD i false = true
  · rw [if_pos hF, if_pos hF, ← Int.cast_neg, to_int64_intCast c _ h1 h2]
  · rw [if_neg hF, if_neg hF, to_int64_intCast c _ h3 h4]

/-- The form computed from the point `(2^53 + 2, 1, 1)` with `x0` flipped. -/
theorem big_form (c : ℚ → Int) :
    back_translate c [true, false] (2 + 1)
        (fun k => (((if k = 0 then 9007199254740994 else 1) : Int) : ℚ)) =
      [-9007199254740994, 1, -9007199254740992] := by
  rw [back_translate_weights c _ _ (fun k => if k = 0 then 9007199254740994 else 1)
    (by intro i _; beta_reduce; split <;> decide)]
  have e2 : running_threshold [true, false]
      (fun k => (((if k = 0 then 9007199254740994 else 1) : Int) : ℚ)) 2 2 =
      (((-9007199254740992 : Int)) : ℚ) := by
    simp only [running_threshold]
    rw [if_neg (by decide), if_pos (by decide)]
    exact double_sub_big
  rw [e2, to_int64_intCast c _ (by decide) (by decide)]
  rfl

theorem not_or_classify : classify not_or_table = some ([true, false], or_table) := by decide

theorem big_point : solver_point big_env not_or_table =
    fun k => (((if k = 0 then 9007199254740994 else 1) : Int) : ℚ) := rfl

theorem big_isop_ok : isop_contract big_env.isop (normalized not_or_table) := by decide

theorem big_sound : solver_sound big_env not_or_table := by
  intro _
  refine ⟨fun k _ => ⟨if k = 0 then 9007199254740994 else 1, by rw [big_point]⟩, ?_⟩
  rw [satisfies_submitted, big_point]
  have h1 : big_env.isop (normalized not_or_table) = [⟨1, 1⟩, ⟨2, 2⟩] := by decide
  have h2 : big_env.isop (unary_not (normalized not_or_table)) = [⟨0, 3⟩] := by decide
  have hn : not_or_table.num_vars = 2 := rfl
  rw [h1, h2, hn]
  refine ⟨?_, ?_, ?_⟩
  · intro c hc
    simp only [List.mem_cons, List.mem_singleton, List.not_mem_nil, or_false] at hc
    rcases hc with rfl | rfl
    · simp [Finset.sum_range_succ, Nat.testBit]
    · simp [Finset.sum_range_succ, Nat.testBit]
  · intro c hc
    simp only [List.mem_singleton] at hc
    subst hc
    simp [Finset.sum_range_succ, Nat.testBit]
  · intro j _
    beta_reduce
    split <;> norm_num

theorem big_run (plf0 : List Int) :
    ∃ calls, is_threshold big_env not_or_table (some plf0) =
      some ⟨true, some [-9007199254740994, 1, -9007199254740992], calls⟩ := by
  obtain ⟨calls, h⟩ := is_threshold_solved big_env not_or_table (some plf0) _ _
    not_or_classify ⟨rfl, rfl, rfl, rfl⟩
  refine ⟨calls, ?_⟩
  have hs : solver_status big_env not_or_table = OPTIMAL := rfl
  have hn : not_or_table.num_vars = 2 := rfl
  rw [h, big_point, hn, big_form]
  simp [hs]

theorem big_not_represented :
    ¬ linear_form_represents not_or_table [-9007199254740994, 1, -9007199254740992] := by
  intro h
  have h3 := (h 3 (by decide)).1 (by decide)
  simp [weighted_sum, Finset.sum_range_succ, not_or_table, Nat.testBit] at h3
  norm_num at h3

theorem big_represents :
    represents (normalized not_or_table) (solver_point big_env not_or_table)
      (solver_point big_env not_or_table not_or_table.num_vars) := by
  rw [normalized_of_classify not_or_classify, big_point]
  intro x hx
  have hx4 : x < 4 := hx
  interval_cases x
  all_goals simp [weighted_sum, Finset.sum_range_succ, get_bit, or_table, not_or_table,
    Nat.testBit]

theorem big_normalized_rel : ∀ x, x < 2 ^ not_or_table.num_vars →
    get_bit (normalized not_or_table) x =
      get_bit not_or_table (x ^^^ flip_mask (flipped not_or_table) not_or_table.num_vars) := by
  have hc := not_or_classify
  obtain ⟨_, _, hg, _, _⟩ := classify_spec not_or_table _ _ hc
  rw [normalized_of_classify hc, flipped_of_classify hc]
  exact hg

/-- Counterexample to C1 as stated for every integer-valued point: on `¬x0 ∨ x1` the
solver reports `OPTIMAL` with the integer point `(2^53 + 2, 1, 1)`, which satisfies every
submitted row, and `isop` keeps its contract. The subtraction `1 - (2^53 + 2)` is done on
doubles and gives `-2^53`, so the run returns `true` and writes `(-(2^53 + 2), 1, -2^53)`;
at `x0 = x1 = 1` the table is `1` while the weighted sum `-(2^53 + 1)` is below the
threshold `-2^53`. -/
theorem soundness_lost_by_rounding :
    solver_sound big_env not_or_table ∧
    isop_contract big_env.isop (normalized not_or_table) ∧
    (∃ calls, is_threshold big_env not_or_table (some []) =
      some ⟨true, some [-9007199254740994, 1, -9007199254740992], calls⟩) ∧
    double_sub (((1 : Int) : ℚ)) (((9007199254740994 : Int) : ℚ)) =
      (((-9007199254740992 : Int)) : ℚ) ∧
    get_bit not_or_table 3 = true ∧
    ¬ ((([-9007199254740994, 1, -9007199254740992] : List Int).getD
          not_or_table.num_vars 0 : Int) : ℚ) ≤
      weighted_sum not_or_table.num_vars
        (fun i => ((([-9007199254740994, 1, -9007199254740992] : List Int).getD i 0 :
          Int) : ℚ)) 3 := by
  refine ⟨big_sound, big_isop_ok, big_run [], double_sub_big, by decide, ?_⟩
  simp [weighted_sum, Finset.sum_range_succ, not_or_table, Nat.testBit]
  norm_num

/-- Counterexample to C9 as stated for arbitrary solution values. On `x0 ∧ x1` with the
solver point `(19/10, 19/10, 19/5)`, which satisfies every submitted row and represents
the working copy, the run returns `true` and writes `(1, 1, 3)`: the weight written for the
unflipped variable `x0` differs from the solver value, and the form does not represent the
table. On `¬x0 ∨ x1` with the integer point `(2^53 + 2, 1, 1)`, which represents the
working copy `x0 ∨ x1`, the run writes the threshold `-2^53`, not `1 - (2^53 + 2)`, and
the form does not represent the table. -/
theorem back_translation_inexact :
    ((∃ calls, is_threshold frac_env and_table (some []) =
        some ⟨true, some [1, 1, 3], calls⟩) ∧
      (∀ c, c ∈ submitted_rows frac_env and_table →
        satisfies (solver_point frac_env and_table) c) ∧
      (flipped and_table).getD 0 false = false ∧
      ((([1, 1, 3] : List Int).getD 0 0 : Int) : ℚ) ≠ solver_point frac_env and_table 0 ∧
      (∀ x, x < 2 ^ and_table.num_vars →
        get_bit (normalized and_table) x =
          get_bit and_table (x ^^^ flip_mask (flipped and_table) and_table.num_vars)) ∧
      represents (normalized and_table) (solver_point frac_env and_table)
        (solver_point frac_env and_table and_table.num_vars) ∧
      ¬ linear_form_represents and_table [1, 1, 3]) ∧
    ((∃ calls, is_threshold big_env not_or_table (some []) =
        some ⟨true, some [-9007199254740994, 1, -9007199254740992], calls⟩) ∧
      (∀ k, k < not_or_table.num_vars + 1 → solver_point big_env not_or_table k =
        (((if k = 0 then 9007199254740994 else 1) : Int) : ℚ)) ∧
      flipped not_or_table = [true, false] ∧
      ([-9007199254740994, 1, -9007199254740992] : List Int).getD not_or_table.num_vars 0 ≠
        (if not_or_table.num_vars = 0 then 9007199254740994 else 1) -
          ∑ i ∈ Finset.range not_or_table.num_vars,
            (if (flipped not_or_table).getD i false = true
              then (if i = 0 then 9007199254740994 else 1) else 0) ∧
      (∀ x, x < 2 ^ not_or_table.num_vars →
        get_bit (normalized not_or_table) x =
          get_bit not_or_table
            (x ^^^ flip_mask (flipped not_or_table) not_or_table.num_vars)) ∧
      represents (normalized not_or_table) (solver_point big_env not_or_table)
        (solver_point big_env not_or_table not_or_table.num_vars) ∧
      ¬ linear_form_represents not_or_table [-9007199254740994, 1, -9007199254740992]) := by
  refine ⟨⟨frac_run, frac_rows, by decide, ?_, ?_, frac_represents, frac_not_represented⟩,
    big_run [], ?_, flipped_of_classify not_or_classify, ?_, big_normalized_rel,
    big_represents, big_not_represented⟩
  · rw [frac_point]
    norm_num
  · have hc := frac_classify
    obtain ⟨_, _, hg, _, _⟩ := classify_spec and_table _ _ hc
    rw [normalized_of_classify hc, flipped_of_classify hc]
    exact hg
  · intro k _
    rw [big_point]
  · rw [flipped_of_classify not_or_classify]
    decide

theorem flip_and_not : flip_vars and_not_table [1] = and_table := by decide

theorem flip_or : flip_vars or_table [0] = not_or_table := by decide

theorem or_threshold : is_threshold_function or_table := by
  refine ⟨fun _ => 1, 1, ?_⟩
  intro x hx
  have hx4 : x < 4 := hx
  have hn : or_table.num_vars = 2 := rfl
  rw [hn]
  unfold weighted_sum
  rw [Finset.sum_range_succ, Finset.sum_range_succ, Finset.sum_range_zero]
  interval_cases x <;> norm_num [get_bit, or_table, Nat.testBit, Nat.shiftRight_eq_div_pow]

theorem or_normalized : normalized or_table = normalized not_or_table := by decide

/-- Counterexample to C10 as stated for an arbitrary deterministic solver. The table
`x0 ∧ ¬x1` is a threshold function, and on that table with `x1` inverted a solver
reporting `OPTIMAL` with the point `(19/10, 19/10, 19/5)`, which satisfies every submitted
row, makes the run return `true` with the form `(1, 1, 3)`, which does not represent the
inverted table. The table `x0 ∨ x1` is a threshold function, and on that table with `x0`
inverted a solver reporting `OPTIMAL` with the integer point `(2^53 + 2, 1, 1)`, which
satisfies every submitted row, makes the run return `true` with the form
`(-(2^53 + 2), 1, -2^53)`, which does not represent the inverted table. -/
theorem polarity_invariance_inexact :
    (is_threshold_function and_not_table ∧
      (∀ c, c ∈ submitted_rows frac_env (flip_vars and_not_table [1]) →
        satisfies (solver_point frac_env (flip_vars and_not_table [1])) c) ∧
      (∃ calls, is_threshold frac_env (flip_vars and_not_table [1]) (some []) =
        some ⟨true, some [1, 1, 3], calls⟩) ∧
      ¬ linear_form_represents (flip_vars and_not_table [1]) [1, 1, 3]) ∧
    (well_formed or_table ∧ is_threshold_function or_table ∧
      isop_contract big_env.isop (normalized or_table) ∧
      solver_sound big_env or_table ∧
      (∃ calls, is_threshold big_env (flip_vars or_table [0]) (some []) =
        some ⟨true, some [-9007199254740994, 1, -9007199254740992], calls⟩) ∧
      ¬ linear_form_represents (flip_vars or_table [0])
        [-9007199254740994, 1, -9007199254740992]) := by
  rw [flip_and_not, flip_or, or_normalized]
  exact ⟨⟨and_threshold, frac_rows, frac_run, frac_not_represented⟩,
    by decide, or_threshold, big_isop_ok,
    solver_sound_congr big_env or_table not_or_table rfl or_normalized big_sound,
    big_run [], big_not_represented⟩

/-! ## The rows of a run: ON-set, OFF-set and non-negativity rows (C13, C14, C16) -/

theorem rows_of_calls_map (l : List Constraint) :
    rows_of_calls (l.map Call.add_constraintex) = l := by
  unfold rows_of_calls
  induction l with
  | nil => rfl
  | cons c l ih => simp [List.filterMap_cons, call_row, ih]

/-- The `add_constraintex` calls of a run that builds the model are the submitted rows. -/
theorem run_rows (env : Env) (f : TruthTable) (plf : Option (List Int)) (o : Outcome)
    (hpass : classify f ≠ none) (hlp : env.lp.make_lp 0 (f.num_vars + 1) = true)
    (hrun : is_threshold env f plf = some o) :
    rows_of_calls o.calls = submitted_rows env f := by
  cases hc : classify f with
  | none => exact absurd hc hpass
  | some Fg =>
    obtain ⟨F, g⟩ := Fg
    have hn := normalized_of_classify hc
    unfold submitted_rows
    rw [hn]
    unfold is_threshold at hrun
    simp only [hc] at hrun
    have hmap := rows_of_calls_map (build_final env f.num_vars g).submitted
    by_cases h2 : env.malloc_colno = true
    · by_cases h3 : env.malloc_row = true
      · by_cases h4 : env.lp.set_obj_fnex (build_final env f.num_vars g).submitted
            (objective_of (f.num_vars + 1) (build_final env f.num_vars g)) = true
        · by_cases hs : env.lp.solve (build_final env f.num_vars g).submitted
              (objective_of (f.num_vars + 1) (build_final env f.num_vars g)) = OPTIMAL
          · simp [hlp, h2, h3, h4, hs] at hrun
            subst hrun
            simp only [rows_of_calls] at hmap ⊢
            simp only [List.filterMap_cons, List.filterMap_append, call_row, hmap,
              List.filterMap_nil, List.append_nil]
          · simp [hlp, h2, h3, h4, hs] at hrun
            subst hrun
            simp only [rows_of_calls] at hmap ⊢
            simp only [List.filterMap_cons, List.filterMap_append, call_row, hmap,
              List.filterMap_nil, List.append_nil]
        · simp [hlp, h2, h3, h4] at hrun
          subst hrun
          simp only [rows_of_calls] at hmap ⊢
          simp only [List.filterMap_cons, List.filterMap_append, call_row, hmap,
            List.filterMap_nil, List.append_nil]
      · simp [hlp, h2, h3] at hrun
    · simp [hlp, h2] at hrun

theorem take_map_append {α β : Type} (l : List α) (g : α → β) (r : List β) :
    (l.map g ++ r).take l.length = l.map g := by
  rw [List.take_append_of_le_length (by simp)]
  simp [List.take_of_length_le]

theorem onset_entries (n : Nat) (c : cube) :
    (onset_constraint n c).count = n + 1 ∧ (onset_constraint n c).row.length = n + 1 ∧
    (onset_constraint n c).constr_type = ConstrType.GE ∧ (onset_constraint n c).rh = 0 ∧
    (∀ i, i < n →
      (c.mask.testBit i = true → (onset_constraint n c).row.getD i 0 = 1) ∧
      (c.mask.testBit i = false → (onset_constraint n c).row.getD i 0 = 0)) ∧
    (onset_constraint n c).row.getD n 0 = -1 ∧
    (∀ k, k < n + 1 → (onset_constraint n c).colno.getD k 0 = k + 1) := by
  refine ⟨rfl, by simp [onset_constraint], rfl, rfl, ?_, ?_, ?_⟩
  · intro i hi
    unfold onset_constraint
    simp only
    rw [getD_map_range (n + 1) i (by omega)]
    constructor
    · intro h; simp [hi, h]
    · intro h; simp [hi, h]
  · unfold onset_constraint
    simp only
    rw [getD_map_range (n + 1) n (by omega)]
    simp
  · intro k hk
    unfold onset_constraint
    simp only
    rw [getD_map_range (n + 1) k hk]

theorem offset_entries (n : Nat) (c : cube) :
    (offset_constraint n c).count = n + 1 ∧ (offset_constraint n c).row.length = n + 1 ∧
    (offset_constraint n c).constr_type = ConstrType.LE ∧ (offset_constraint n c).rh = -1 ∧
    (∀ i, i < n →
      (c.mask.testBit i = true → (offset_constraint n c).row.getD i 0 = 0) ∧
      (c.mask.testBit i = false → (offset_constraint n c).row.getD i 0 = 1)) ∧
    (offset_constraint n c).row.getD n 0 = -1 ∧
    (∀ k, k < n + 1 → (offset_constraint n c).colno.getD k 0 = k + 1) := by
  refine ⟨rfl, by simp [offset_constraint], rfl, rfl, ?_, ?_, ?_⟩
  · intro i hi
    unfold offset_constraint
    simp only
    rw [getD_map_range (n + 1) i (by omega)]
    constructor
    · intro h; simp [hi, h]
    · intro h; simp [hi, h]
  · unfold offset_constraint
    simp only
    rw [getD_map_range (n + 1) n (by omega)]
    simp
  · intro k hk
    unfold offset_constraint
    simp only
    rw [getD_map_range (n + 1) k hk]

theorem nonneg_entries (Ncol j : Nat) :
    (nonneg_constraint Ncol j).count = Ncol ∧ (nonneg_constraint Ncol j).row.length = Ncol ∧
    (nonneg_constraint Ncol j).constr_type = ConstrType.GE ∧
    (nonneg_constraint Ncol j).rh = 0 ∧
    (∀ k, k < Ncol →
      (nonneg_constraint Ncol j).row.getD k 0 = (if k = j then 1 else 0) ∧
      (nonneg_constraint Ncol j).colno.getD k 0 = k + 1) := by
  refine ⟨rfl, by simp [nonneg_constraint], rfl, rfl, ?_⟩
  intro k hk
  unfold nonneg_constraint
  simp only
  rw [getD_map_range Ncol k hk, getD_map_range Ncol k hk]
  exact ⟨rfl, rfl⟩

/-- C14 (ON-set encoding). On every run on a table that passes the classification loop,
with the model created, the first rows passed to `add_constraintex` are, cube by cube of
the ON-set cover (`isop` of the working copy), one row each: `n + 1` coefficients in columns
`1..n+1`, relation `>=`, right-hand side `0`, coefficient `1` for a variable required true
in the cube, `0` for a variable that does not appear in it, `-1` for `T`. The row submitted
for a cube is this one whatever the scratch buffers and the rows submitted so far were. -/
theorem onset_encoding (env : Env) (f : TruthTable) (plf : Option (List Int)) (o : Outcome)
    (hpass : classify f ≠ none) (hlp : env.lp.make_lp 0 (f.num_vars + 1) = true)
    (hrun : is_threshold env f plf = some o) :
    (rows_of_calls o.calls).take (env.isop (normalized f)).length =
      (env.isop (normalized f)).map (onset_constraint f.num_vars) ∧
    (∀ c, (onset_constraint f.num_vars c).count = f.num_vars + 1 ∧
      (onset_constraint f.num_vars c).row.length = f.num_vars + 1 ∧
      (onset_constraint f.num_vars c).constr_type = ConstrType.GE ∧
      (onset_constraint f.num_vars c).rh = 0 ∧
      (∀ i, i < f.num_vars →
        (c.mask.testBit i = true ∧ c.bits.testBit i = true →
          (onset_constraint f.num_vars c).row.getD i 0 = 1) ∧
        (c.mask.testBit i = false → (onset_constraint f.num_vars c).row.getD i 0 = 0)) ∧
      (onset_constraint f.num_vars c).row.getD f.num_vars 0 = -1 ∧
      (∀ k, k < f.num_vars + 1 → (onset_constraint f.num_vars c).colno.getD k 0 = k + 1)) ∧
    (∀ (s : BuildState) (c : cube),
      (onset_cube env.lp f.num_vars s c).submitted =
        s.submitted ++ [onset_constraint f.num_vars c]) := by
  refine ⟨?_, ?_, fun s c => onset_cube_submitted env.lp f.num_vars s c⟩
  · rw [run_rows env f plf o hpass hlp hrun, submitted_rows_eq, List.append_assoc]
    exact take_map_append _ _ _
  · intro c
    obtain ⟨h1, h2, h3, h4, h5, h6, h7⟩ := onset_entries f.num_vars c
    exact ⟨h1, h2, h3, h4, fun i hi => ⟨fun h => (h5 i hi).1 h.1, (h5 i hi).2⟩, h6, h7⟩

/-- The rows after the ON-set rows in the trace are the OFF-set rows. -/
theorem offset_rows_of_run (env : Env) (f : TruthTable) (plf : Option (List Int))
    (o : Outcome) (hpass : classify f ≠ none)
    (hlp : env.lp.make_lp 0 (f.num_vars + 1) = true)
    (hrun : is_threshold env f plf = some o) :
    ((rows_of_calls o.calls).drop (env.isop (normalized f)).length).take
        (env.isop (unary_not (normalized f))).length =
      (env.isop (unary_not (normalized f))).map (offset_constraint f.num_vars) := by
  rw [run_rows env f plf o hpass hlp hrun, submitted_rows_eq, List.append_assoc]
  have hlen : (env.isop (normalized f)).length =
      ((env.isop (normalized f)).map (onset_constraint f.num_vars)).length := by simp
  rw [hlen, List.drop_left]
  exact take_map_append _ _ _

/-- C13 (OFF-set encoding, as the code builds it). On every run on a table that passes the
classification loop, with the model created, the rows passed to `add_constraintex` after
the ON-set rows are, cube by cube of the OFF-set cover (`isop` of the complement of the
working copy), one row each: `n + 1` coefficients in columns `1..n+1`, relation `<=`,
right-hand side `-1`, coefficient `0` for a variable that appears in the cube, `1` for a
variable that does not appear in it, `-1` for `T`. The row submitted for a cube is this one
whatever the scratch buffers and the rows submitted so far were. -/
theorem offset_encoding (env : Env) (f : TruthTable) (plf : Option (List Int)) (o : Outcome)
    (hpass : classify f ≠ none) (hlp : env.lp.make_lp 0 (f.num_vars + 1) = true)
    (hrun : is_threshold env f plf = some o) :
    ((rows_of_calls o.calls).drop (env.isop (normalized f)).length).take
        (env.isop (unary_not (normalized f))).length =
      (env.isop (unary_not (normalized f))).map (offset_constraint f.num_vars) ∧
    (∀ c, (offset_constraint f.num_vars c).count = f.num_vars + 1 ∧
      (offset_constraint f.num_vars c).row.length = f.num_vars + 1 ∧
      (offset_constraint f.num_vars c).constr_type = ConstrType.LE ∧
      (offset_constraint f.num_vars c).rh = -1 ∧
      (∀ i, i < f.num_vars →
        (c.mask.testBit i = true → (offset_constraint f.num_vars c).row.getD i 0 = 0) ∧
        (c.mask.testBit i = false → (offset_constraint f.num_vars c).row.getD i 0 = 1)) ∧
      (offset_constraint f.num_vars c).row.getD f.num_vars 0 = -1 ∧
      (∀ k, k < f.num_vars + 1 → (offset_constraint f.num_vars c).colno.getD k 0 = k + 1)) ∧
    (∀ (s : BuildState) (c : cube),
      (offset_cube env.lp f.num_vars s c).submitted =
        s.submitted ++ [offset_constraint f.num_vars c]) := by
  exact ⟨offset_rows_of_run env f plf o hpass hlp hrun,
    fun c => offset_entries f.num_vars c,
    fun s c => offset_cube_submitted env.lp f.num_vars s c⟩

/-- C16 (non-negativity rows). On every run on a table that passes the classification
loop, with the model created, the rows passed to `add_constraintex` are the ON-set rows,
then the OFF-set rows, then `n + 1` further rows, `|ON cover| + |OFF cover| + n + 1` in
total; the `j`-th of the further rows (`0 <= j <= n`) has coefficient `1` in column `j + 1`
and `0` in every other column, relation `>=` and right-hand side `0`. -/
theorem nonneg_rows (env : Env) (f : TruthTable) (plf : Option (List Int)) (o : Outcome)
    (hpass : classify f ≠ none) (hlp : env.lp.make_lp 0 (f.num_vars + 1) = true)
    (hrun : is_threshold env f plf = some o) :
    rows_of_calls o.calls =
      (env.isop (normalized f)).map (onset_constraint f.num_vars) ++
        (env.isop (unary_not (normalized f))).map (offset_constraint f.num_vars) ++
        (List.range (f.num_vars + 1)).map (nonneg_constraint (f.num_vars + 1)) ∧
    (rows_of_calls o.calls).length =
      (env.isop (normalized f)).length + (env.isop (unary_not (normalized f))).length +
        (f.num_vars + 1) ∧
    (∀ j, j < f.num_vars + 1 →
      (nonneg_constraint (f.num_vars + 1) j).count = f.num_vars + 1 ∧
      (nonneg_constraint (f.num_vars + 1) j).row.length = f.num_vars + 1 ∧
      (nonneg_constraint (f.num_vars + 1) j).constr_type = ConstrType.GE ∧
      (nonneg_constraint (f.num_vars + 1) j).rh = 0 ∧
      (∀ k, k < f.num_vars + 1 →
        (nonneg_constraint (f.num_vars + 1) j).row.getD k 0 = (if k = j then 1 else 0) ∧
        (nonneg_constraint (f.num_vars + 1) j).colno.getD k 0 = k + 1)) := by
  have h := run_rows env f plf o hpass hlp hrun
  refine ⟨by rw [h, submitted_rows_eq], ?_, fun j _ => nonneg_entries _ j⟩
  rw [h, submitted_rows_eq]
  simp
  omega

/-! ## The literal test and the concrete rows (C20, C13, C14, C16) -/

theorem and_run_any (plf : Option (List Int)) :
    ∃ o, is_threshold and_env and_not_table plf = some o := by
  obtain ⟨calls, h⟩ := is_threshold_solved and_env and_not_table plf _ _
    and_classify and_built
  exact ⟨_, h⟩

theorem and_pass : classify and_not_table ≠ none := by rw [and_classify]; simp

theorem and_on_cubes : and_env.isop (normalized and_not_table) = [⟨3, 3⟩] := by decide

theorem and_off_cubes :
    and_env.isop (unary_not (normalized and_not_table)) = [⟨0, 1⟩, ⟨0, 2⟩] := by decide

theorem map_range_congr {α : Type} (n : Nat) (a b : Nat → α) :
    (List.range n).map a = (List.range n).map b ↔ ∀ k, k < n → a k = b k := by
  constructor
  · intro h k hk
    have := congrArg (fun l => l[k]?) h
    simpa [List.getElem?_map, List.getElem?_range hk] using this
  · intro h
    apply List.map_congr_left
    intro k hk
    exact h k (List.mem_range.1 hk)

theorem onset_eq_required_true (n : Nat) (c : cube) :
    onset_constraint n c = required_true_constraint n c ↔
      ∀ i, i < n → c.mask.testBit i = true → c.bits.testBit i = true := by
  unfold onset_constraint required_true_constraint
  simp only [Constraint.mk.injEq, true_and, and_true]
  rw [map_range_congr]
  constructor
  · intro h i hi hm
    have := h i (by omega)
    simp only [hi, hm, if_true, true_and] at this
    by_contra hb
    rw [if_neg hb] at this
    norm_num at this
  · intro h k hk
    by_cases hkn : k < n
    · simp only [hkn, if_true]
      by_cases hm : c.mask.testBit k = true
      · simp [hm, h k hkn hm]
      · simp [hm]
    · simp [hkn]

theorem offset_eq_not_required_false (n : Nat) (c : cube) :
    offset_constraint n c = not_required_false_constraint n c ↔
      ∀ i, i < n → c.mask.testBit i = true → c.bits.testBit i = false := by
  unfold offset_constraint not_required_false_constraint
  simp only [Constraint.mk.injEq, true_and, and_true]
  rw [map_range_congr]
  constructor
  · intro h i hi hm
    have := h i (by omega)
    simp only [hi, hm, if_true, true_and] at this
    by_contra hb
    rw [if_neg hb] at this
    norm_num at this
  · intro h k hk
    by_cases hkn : k < n
    · simp only [hkn, if_true]
      by_cases hm : c.mask.testBit k = true
      · simp [hm, h k hkn hm]
      · simp [hm]
    · simp [hkn]

/-- C20 (the literal test ignores polarity). For a cube `c` and a variable `j < n`, from
any state of the scratch buffers: the ON-set loop leaves coefficient `1` for `j` iff
removing literal `j` changes the literal count of `c`; the OFF-set loop leaves coefficient
`1` for `j` iff removing literal `j` leaves the count unchanged; the count changes iff `j`
occurs in `c`, with either polarity. The submitted ON-set row is the row of the variables
required true iff `c` has no negative literal below `n`, and the submitted OFF-set row is
the row of the variables not required false iff `c` has no positive literal below `n`. -/
theorem literal_test_ignores_polarity (lp : LpSolve) (n : Nat) (c : cube) (j : Nat)
    (s : BuildState) (hj : j < n) :
    ((for_range n (onset_literal c) s).row j = 1 ↔
      c.num_literals ≠ (c.remove_literal j).num_literals) ∧
    ((for_range n (offset_literal c) s).row j = 1 ↔
      c.num_literals = (c.remove_literal j).num_literals) ∧
    (c.num_literals ≠ (c.remove_literal j).num_literals ↔ c.mask.testBit j = true) ∧
    ((onset_cube lp n s c).submitted = s.submitted ++ [required_true_constraint n c] ↔
      ∀ i, i < n → c.mask.testBit i = true → c.bits.testBit i = true) ∧
    ((offset_cube lp n s c).submitted = s.submitted ++ [not_required_false_constraint n c] ↔
      ∀ i, i < n → c.mask.testBit i = true → c.bits.testBit i = false) := by
  have hiff := num_literals_remove c j
  refine ⟨?_, ?_, hiff, ?_, ?_⟩
  · rw [onset_literals_spec, hiff]
    simp only [hj, if_true]
    by_cases hm : c.mask.testBit j = true
    · simp [hm]
    · simp [hm]
  · rw [offset_literals_spec]
    simp only [hj, if_true]
    by_cases hm : c.mask.testBit j = true
    · have : c.num_literals ≠ (c.remove_literal j).num_literals := hiff.2 hm
      simp [hm, this]
    · have : c.num_literals = (c.remove_literal j).num_literals := by
        by_contra h; exact hm (hiff.1 h)
      simp [hm, this]
  · rw [onset_cube_submitted, ← onset_eq_required_true]
    simp
  · rw [offset_cube_submitted, ← offset_eq_not_required_false]
    simp

/-- Witness of C20: the cube `x0·¬x1`, whose variable `x1` occurs negatively. -/
theorem literal_test_ignores_polarity_witness :
    1 < 2 ∧ mixed_cube.mask.testBit 1 = true ∧ mixed_cube.bits.testBit 1 = false ∧
    ((for_range 2 (onset_literal mixed_cube) (build_init and_env)).row 1 = 1 ↔
      mixed_cube.num_literals ≠ (mixed_cube.remove_literal 1).num_literals) ∧
    ((for_range 2 (offset_literal mixed_cube) (build_init and_env)).row 1 = 1 ↔
      mixed_cube.num_literals = (mixed_cube.remove_literal 1).num_literals) ∧
    (mixed_cube.num_literals ≠ (mixed_cube.remove_literal 1).num_literals ↔
      mixed_cube.mask.testBit 1 = true) ∧
    ((onset_cube and_lp 2 (build_init and_env) mixed_cube).submitted =
        (build_init and_env).submitted ++ [required_true_constraint 2 mixed_cube] ↔
      ∀ i, i < 2 → mixed_cube.mask.testBit i = true → mixed_cube.bits.testBit i = true) ∧
    ((offset_cube and_lp 2 (build_init and_env) mixed_cube).submitted =
        (build_init and_env).submitted ++ [not_required_false_constraint 2 mixed_cube] ↔
      ∀ i, i < 2 → mixed_cube.mask.testBit i = true → mixed_cube.bits.testBit i = false) :=
  ⟨by decide, by decide, by decide,
    literal_test_ignores_polarity and_lp 2 mixed_cube 1 (build_init and_env) (by decide)⟩

/-- Witness of C14: the ON-set row of the run on `x0 ∧ ¬x1`. -/
theorem onset_encoding_witness :
    classify and_not_table ≠ none ∧
    and_env.lp.make_lp 0 (and_not_table.num_vars + 1) = true ∧
    ∃ o, is_threshold and_env and_not_table none = some o ∧
      (rows_of_calls o.calls).take (and_env.isop (normalized and_not_table)).length =
        (and_env.isop (normalized and_not_table)).map
          (onset_constraint and_not_table.num_vars) := by
  obtain ⟨o, h⟩ := and_run_any none
  exact ⟨and_pass, rfl, o, h, (onset_encoding and_env and_not_table none o and_pass rfl h).1⟩

/-- Witness of C13: the OFF-set rows of the run on `x0 ∧ ¬x1`. -/
theorem offset_encoding_witness :
    classify and_not_table ≠ none ∧
    and_env.lp.make_lp 0 (and_not_table.num_vars + 1) = true ∧
    ∃ o, is_threshold and_env and_not_table none = some o ∧
      ((rows_of_calls o.calls).drop (and_env.isop (normalized and_not_table)).length).take
          (and_env.isop (unary_not (normalized and_not_table))).length =
        (and_env.isop (unary_not (normalized and_not_table))).map
          (offset_constraint and_not_table.num_vars) := by
  obtain ⟨o, h⟩ := and_run_any none
  exact ⟨and_pass, rfl, o, h, (offset_encoding and_env and_not_table none o and_pass rfl h).1⟩

/-- Witness of C16: the run on `x0 ∧ ¬x1` submits `1 + 2 + 3` rows. -/
theorem nonneg_rows_witness :
    classify and_not_table ≠ none ∧
    and_env.lp.make_lp 0 (and_not_table.num_vars + 1) = true ∧
    ∃ o, is_threshold and_env and_not_table none = some o ∧
      (rows_of_calls o.calls).length =
        (and_env.isop (normalized and_not_table)).length +
          (and_env.isop (unary_not (normalized and_not_table))).length +
          (and_not_table.num_vars + 1) := by
  obtain ⟨o, h⟩ := and_run_any none
  exact ⟨and_pass, rfl, o, h, (nonneg_rows and_env and_not_table none o and_pass rfl h).2.1⟩

theorem offset_row_first : offset_constraint 2 ⟨0, 1⟩ =
    ⟨3, [0, 1, -1], [1, 2, 3], ConstrType.LE, -1⟩ := by
  simp [offset_constraint, List.range_succ, Nat.testBit]

theorem offset_row_second : offset_constraint 2 ⟨0, 2⟩ =
    ⟨3, [1, 0, -1], [1, 2, 3], ConstrType.LE, -1⟩ := by
  simp [offset_constraint, List.range_succ, Nat.testBit]

theorem worded_row_first : worded_offset_constraint 2 ⟨0, 1⟩ =
    ⟨3, [1, 0, -1], [1, 2, 3], ConstrType.LE, -1⟩ := by
  simp [worded_offset_constraint, List.range_succ, Nat.testBit]

/-- Counterexample to C13 as worded: on the run on `x0 ∧ ¬x1` the OFF-set cover of the
working copy `x0 ∧ x1` is `¬x0, ¬x1`; the row submitted for `¬x0` has coefficient `0` for
`x0`, which appears in the cube, and `1` for `x1`, which does not, while the coefficient
rule of the ON-set rows gives `1` for `x0` and `0` for `x1`. -/
theorem offset_row_not_as_worded :
    ∃ o, is_threshold and_env and_not_table none = some o ∧
      (and_env.isop (normalized and_not_table)).length = 1 ∧
      and_env.isop (unary_not (normalized and_not_table)) = [⟨0, 1⟩, ⟨0, 2⟩] ∧
      ((rows_of_calls o.calls).drop 1).take 2 =
        [⟨3, [0, 1, -1], [1, 2, 3], ConstrType.LE, -1⟩,
         ⟨3, [1, 0, -1], [1, 2, 3], ConstrType.LE, -1⟩] ∧
      (⟨0, 1⟩ : cube).mask.testBit 0 = true ∧
      worded_offset_constraint 2 ⟨0, 1⟩ = ⟨3, [1, 0, -1], [1, 2, 3], ConstrType.LE, -1⟩ ∧
      ((rows_of_calls o.calls).drop 1).take 2 ≠
        [(⟨0, 1⟩ : cube), ⟨0, 2⟩].map (worded_offset_constraint 2) := by
  obtain ⟨o, h⟩ := and_run_any none
  have hrows := offset_rows_of_run and_env and_not_table none o and_pass rfl h
  rw [and_on_cubes, and_off_cubes] at hrows
  have hn : and_not_table.num_vars = 2 := rfl
  simp only [List.length_singleton, List.length_cons, List.length_nil, hn, List.map_cons,
    List.map_nil, offset_row_first, offset_row_second] at hrows
  refine ⟨o, h, by rw [and_on_cubes]; rfl, and_off_cubes, hrows, by decide, worded_row_first, ?_⟩
  rw [hrows]
  intro hc
  simp only [List.map_cons, List.map_nil, worded_row_first, List.cons.injEq,
    Constraint.mk.injEq] at hc
  norm_num at hc

/-! ## Normalizer, early returns and signs of the weights (C15, C18, C19) -/

theorem getD_set_bool (fl : List Bool) (i j : Nat) (b : Bool) (hi : i < fl.length) :
    (fl.set i b).getD j false = if j = i then b else fl.getD j false := by
  by_cases hj : j = i
  · subst hj; simp [List.getD_eq_getElem?_getD, List.getElem?_set, hi]
  · have : ¬ i = j := fun e => hj e.symm
    simp [List.getD_eq_getElem?_getD, List.getElem?_set, this, hj]

theorem flagged_vars_succ (fl : List Bool) (i : Nat) :
    flagged_vars fl (i + 1) =
      flagged_vars fl i ++ (if fl.getD i false = true then [i] else []) := by
  unfold flagged_vars
  rw [List.range_succ, List.filter_append]
  congr 1
  by_cases h : fl.getD i false = true
  · rw [if_pos h, List.filter_cons, if_pos h, List.filter_nil]
  · rw [if_neg h, List.filter_cons, if_neg h, List.filter_nil]

theorem flagged_vars_congr (fl gl : List Bool) (i : Nat)
    (h : ∀ j, j < i → fl.getD j false = gl.getD j false) :
    flagged_vars fl i = flagged_vars gl i := by
  unfold flagged_vars
  apply List.filter_congr
  intro j hj
  rw [h j (List.mem_range.1 hj)]

theorem flip_vars_append (f : TruthTable) (S : List Nat) (i : Nat) :
    flip_vars f (S ++ [i]) = flip_inplace (flip_vars f S) i := by
  simp [flip_vars, List.foldl_append]

/-- The working copy is the table with the flagged variables inverted, one
`flip_inplace` each. -/
theorem unate_loop_flips (f : TruthTable) (k i : Nat) (fl : List Bool) (tm : TruthTable)
    (F : List Bool) (g : TruthTable) (hlen : fl.length = k + i)
    (hinv : tm = flip_vars f (flagged_vars fl i))
    (hrun : unate_loop f k i fl tm = some (F, g)) :
    g = flip_vars f (flagged_vars F (k + i)) := by
  induction k generalizing i fl tm with
  | zero =>
    simp only [unate_loop, Option.some.injEq, Prod.mk.injEq] at hrun
    obtain ⟨rfl, rfl⟩ := hrun
    simpa using hinv
  | succ k ih =>
    have hi : i < fl.length := by omega
    simp only [unate_loop] at hrun
    have hcong : ∀ b, flagged_vars (fl.set i b) i = flagged_vars fl i := by
      intro b
      apply flagged_vars_congr
      intro j hj
      rw [getD_set_bool fl i j b hi, if_neg (by omega)]
    split at hrun
    · have := ih (i + 1) (fl.set i false) tm (by simp [hlen]; omega) (by
        rw [flagged_vars_succ, hcong, getD_set_bool fl i i false hi]
        simpa using hinv) hrun
      rw [this]; congr 2; omega
    · split at hrun
      · have := ih (i + 1) (fl.set i true) (flip_inplace tm i) (by simp [hlen]; omega) (by
          rw [flagged_vars_succ, hcong, getD_set_bool fl i i true hi]
          simp only [if_true]
          rw [flip_vars_append, ← hinv]) hrun
        rw [this]; congr 2; omega
      · exact absurd hrun (by simp)

theorem classify_flips (f : TruthTable) (F : List Bool) (g : TruthTable)
    (hc : classify f = some (F, g)) : g = flip_vars f (flagged_vars F f.num_vars) := by
  have := unate_loop_flips f f.num_vars 0 (List.replicate f.num_vars false) f F g
    (by simp) (by simp [flagged_vars, flip_vars]) hc
  simpa using this

/-- C15 (post-condition of the normalizer). If no variable of `f` is binate, the
classification loop ends with flags `F` and a working copy `g` such that: `g` is positive
unate in every variable; `g` is `f` with exactly the flagged variables inverted, one
`flip_inplace` per flagged variable, i.e. `g(x) = f(x` with the flagged variables
inverted`)`; and `F[i]` is true exactly when `cofactor0(f, i)` does not imply
`cofactor1(f, i)`. The table `f` is a value that the loop only reads. -/
theorem normalizer_postcondition (f : TruthTable)
    (hpass : ∀ i, i < f.num_vars → ¬ binate_in f i) :
    ∃ F g, classify f = some (F, g) ∧
      positive_unate g ∧
      g.num_vars = f.num_vars ∧
      g = flip_vars f (flagged_vars F f.num_vars) ∧
      (∀ x, x < 2 ^ f.num_vars →
        get_bit g x = get_bit f (x ^^^ flip_mask F f.num_vars)) ∧
      F.length = f.num_vars ∧
      (∀ i, i < f.num_vars →
        (F.getD i false = true ↔ implies (cofactor0 f i) (cofactor1 f i) = false)) := by
  obtain ⟨F, g, hc⟩ := classify_some_of_unate f hpass
  obtain ⟨hlen, hnv, hg, hF, _⟩ := classify_spec f F g hc
  refine ⟨F, g, hc, classify_positive_unate f F g hc, hnv, classify_flips f F g hc, hg,
    hlen, ?_⟩
  intro i hi
  rw [hF i hi]
  cases implies (cofactor0 f i) (cofactor1 f i) <;> simp

/-- Witness of C15: the table `x0 ∧ ¬x1`. -/
theorem normalizer_postcondition_witness :
    (∀ i, i < and_not_table.num_vars → ¬ binate_in and_not_table i) ∧
    ∃ F g, classify and_not_table = some (F, g) ∧
      positive_unate g ∧
      g.num_vars = and_not_table.num_vars ∧
      g = flip_vars and_not_table (flagged_vars F and_not_table.num_vars) ∧
      (∀ x, x < 2 ^ and_not_table.num_vars →
        get_bit g x = get_bit and_not_table (x ^^^ flip_mask F and_not_table.num_vars)) ∧
      F.length = and_not_table.num_vars ∧
      (∀ i, i < and_not_table.num_vars →
        (F.getD i false = true ↔
          implies (cofactor0 and_not_table i) (cofactor1 and_not_table i) = false)) :=
  ⟨by decide, normalizer_postcondition and_not_table (by decide)⟩

/-- The run that ends at the refused objective: nothing is released. -/
theorem objective_failure_run (env : Env) (f : TruthTable) (plf : Option (List Int))
    (F : List Bool) (g : TruthTable) (hc : classify f = some (F, g))
    (hlp : env.lp.make_lp 0 (f.num_vars + 1) = true) (h2 : env.malloc_colno = true)
    (h3 : env.malloc_row = true)
    (h4 : env.lp.set_obj_fnex (submitted_rows env f) (submitted_objective env f) = false) :
    ∃ o, is_threshold env f plf = some o ∧ o.result = false ∧
      Call.make_lp 0 (f.num_vars + 1) ∈ o.calls ∧
      Call.malloc_colno (f.num_vars + 1) ∈ o.calls ∧
      Call.malloc_row (f.num_vars + 1) ∈ o.calls ∧
      Call.free_row ∉ o.calls ∧ Call.free_colno ∉ o.calls ∧ Call.delete_lp ∉ o.calls := by
  have hn := normalized_of_classify hc
  unfold submitted_rows submitted_objective at h4
  rw [hn] at h4
  refine ⟨⟨false, plf,
    [Call.make_lp 0 (f.num_vars + 1), Call.malloc_colno (f.num_vars + 1),
      Call.malloc_row (f.num_vars + 1), Call.set_add_rowmode true]
    ++ (build_final env f.num_vars g).submitted.map Call.add_constraintex
    ++ [Call.set_add_rowmode false,
      Call.set_obj_fnex (objective_of (f.num_vars + 1) (build_final env f.num_vars g))]⟩,
    ?_, rfl, by simp, by simp, by simp, by simp, by simp, by simp⟩
  unfold is_threshold
  simp [hc, hlp, h2, h3, h4]

/-- C18, evaluated on the two early returns. On `x0 ⊕ x1` the model is created by
`make_lp` and the run returns `false` from the classification loop: `make_lp` is the only
call made, `delete_lp` is not. On the table of `x0`, with an LP library that refuses the
objective, the model and the two buffers are acquired and the run returns `false` with
neither `free(row)`, `free(colno)` nor `delete_lp` called. -/
theorem early_returns_leak :
    (and_env.lp.make_lp 0 (xor_table.num_vars + 1) = true ∧
      is_threshold and_env xor_table none =
        some ⟨false, none, [Call.make_lp 0 (xor_table.num_vars + 1)]⟩ ∧
      Call.delete_lp ∉ [Call.make_lp 0 (xor_table.num_vars + 1)]) ∧
    (no_objective_env.lp.make_lp 0 (var_table.num_vars + 1) = true ∧
      ∃ o, is_threshold no_objective_env var_table none = some o ∧ o.result = false ∧
        Call.make_lp 0 (var_table.num_vars + 1) ∈ o.calls ∧
        Call.malloc_colno (var_table.num_vars + 1) ∈ o.calls ∧
        Call.malloc_row (var_table.num_vars + 1) ∈ o.calls ∧
        Call.free_row ∉ o.calls ∧ Call.free_colno ∉ o.calls ∧ Call.delete_lp ∉ o.calls) :=
  ⟨⟨rfl, is_threshold_binate and_env xor_table none xor_classify, by simp⟩,
    rfl, objective_failure_run no_objective_env var_table none _ _ var_classify rfl rfl rfl rfl⟩

theorem to_int64_nonneg (c : ℚ → Int) (q : ℚ) (h : 0 ≤ q) (hr : q < 2 ^ 63) :
    0 ≤ to_int64 c q := by
  have ht : truncate q = Int.floor q := by unfold truncate; rw [if_pos h]
  have h0 : 0 ≤ Int.floor q := Int.floor_nonneg.2 h
  have h1 : Int.floor q < 2 ^ 63 := by
    rw [Int.floor_lt]; push_cast; exact hr
  rw [to_int64_in_range c q (by rw [ht]; unfold INT64_MIN; omega)
    (by rw [ht]; unfold INT64_MAX; omega), ht]
  exact h0

theorem to_int64_nonpos (c : ℚ → Int) (q : ℚ) (h : q ≤ 0) (hr : -2 ^ 63 ≤ q) :
    to_int64 c q ≤ 0 := by
  have h0 : truncate q ≤ 0 := by
    unfold truncate
    split
    · have : q = 0 := le_antisymm h (by assumption)
      rw [this]; simp
    · rw [Int.ceil_le]; simpa using h
  have h1 : -2 ^ 63 ≤ truncate q := by
    unfold truncate
    split
    · have : q = 0 := le_antisymm h (by assumption)
      rw [this]; simp
    · have hq : ((-2 ^ 63 : Int) : ℚ) ≤ ((Int.ceil q : Int) : ℚ) := by
        push_cast
        exact le_trans hr (Int.le_ceil q)
      exact_mod_cast hq
  rw [to_int64_in_range c q (by unfold INT64_MIN; omega) (by unfold INT64_MAX; omega)]
  exact h0

/-- C19 (signs of the returned weights, with the `double` arithmetic and the conversion to
`int64_t`). On a run that returns `true` with the form `lf` written, from a solver point
that satisfies the non-negativity rows and whose weights are below `2^63`: a variable is
not flipped iff `f` passes the positive-unate test in it; `lf[i] >= 0` for a variable that
is not flipped and `lf[i] <= 0` for a flipped one; the threshold of the solver is
non-negative; `lf[n]` is the conversion to `int64_t` of the threshold of the solver from
which the values of the flipped variables have been subtracted in `double` arithmetic, and
it equals the threshold of the solver minus the sum of the weights of the solver at the
flipped variables when the values are integers whose absolute values sum to at most
`2^53`. -/
theorem weight_signs (env : Env) (f : TruthTable) (plf0 lf : List Int) (o : Outcome)
    (hrun : is_threshold env f (some plf0) = some o) (htrue : o.result = true)
    (hlf : o.plf = some lf)
    (hnn : ∀ j, j < f.num_vars + 1 →
      satisfies (solver_point env f) (nonneg_constraint (f.num_vars + 1) j))
    (hrange : ∀ i, i < f.num_vars → solver_point env f i < 2 ^ 63) :
    (∀ i, i < f.num_vars →
      ((flipped f).getD i false = false ↔
        implies (cofactor0 f i) (cofactor1 f i) = true)) ∧
    (∀ i, i < f.num_vars → (flipped f).getD i false = false → 0 ≤ lf.getD i 0) ∧
    (∀ i, i < f.num_vars → (flipped f).getD i false = true → lf.getD i 0 ≤ 0) ∧
    0 ≤ solver_point env f f.num_vars ∧
    lf.getD f.num_vars 0 =
      to_int64 env.int64_out_of_range
        (running_threshold (flipped f) (solver_point env f) f.num_vars f.num_vars) ∧
    (small_point (f.num_vars + 1) (solver_point env f) →
      ((lf.getD f.num_vars 0 : Int) : ℚ) =
        solver_point env f f.num_vars -
          ∑ i ∈ Finset.range f.num_vars,
            if (flipped f).getD i false = true then solver_point env f i else 0) := by
  obtain ⟨F, g, hc, _, _, hplf⟩ := is_threshold_true env f (some plf0) o hrun htrue
  obtain ⟨_, _, _, hF, _⟩ := classify_spec f F g hc
  rw [flipped_of_classify hc]
  rw [hplf] at hlf
  simp only [Option.map_some', Option.some.injEq] at hlf
  subst hlf
  have hp : ∀ j, j < f.num_vars + 1 → 0 ≤ solver_point env f j :=
    fun j hj => (satisfies_nonneg _ j hj _).1 (hnn j hj)
  refine ⟨?_, ?_, ?_, hp _ (by omega), back_translate_getD_last _ _ _ _, ?_⟩
  · intro i hi
    rw [hF i hi]
    cases implies (cofactor0 f i) (cofactor1 f i) <;> simp
  · intro i hi hfl
    rw [back_translate_getD_lt _ _ _ _ i hi, hfl]
    simp only [Bool.false_eq_true, if_false]
    exact to_int64_nonneg _ _ (hp i (by omega)) (hrange i hi)
  · intro i hi hfl
    rw [back_translate_getD_lt _ _ _ _ i hi, hfl]
    simp only [if_true]
    apply to_int64_nonpos
    · have := hp i (by omega)
      linarith
    · have := hrange i hi
      linarith
  · intro hsmall
    obtain ⟨v, hv, hsum⟩ := small_point_ints _ _ hsmall
    rw [back_translate_congr _ F _ _ (fun k => (v k : ℚ)) hv, back_translate_int _ F _ v hsum,
      linear_getD_last, hv _ (by omega)]
    push_cast
    congr 1
    apply Finset.sum_congr rfl
    intro i hi
    rw [hv i (by have := Finset.mem_range.1 hi; omega)]

/-! ## Signs and threshold on concrete points (C11, C19) -/

theorem and_nonneg : ∀ j, j < and_not_table.num_vars + 1 →
    satisfies (solver_point and_env and_not_table)
      (nonneg_constraint (and_not_table.num_vars + 1) j) := by
  intro j hj
  rw [satisfies_nonneg _ j hj, and_point]
  beta_reduce
  split <;> norm_num

theorem and_range : ∀ i, i < and_not_table.num_vars →
    solver_point and_env and_not_table i < 2 ^ 63 := by
  intro i _
  rw [and_point]
  beta_reduce
  split <;> norm_num

/-- Witness of C19: the run on `x0 ∧ ¬x1` from the point `(1, 1, 2)` writes `(1, -1, 1)`. -/
theorem weight_signs_witness :
    (∀ j, j < and_not_table.num_vars + 1 →
      satisfies (solver_point and_env and_not_table)
        (nonneg_constraint (and_not_table.num_vars + 1) j)) ∧
    (∀ i, i < and_not_table.num_vars → solver_point and_env and_not_table i < 2 ^ 63) ∧
    ∃ o, is_threshold and_env and_not_table (some []) = some o ∧ o.result = true ∧
      o.plf = some [1, -1, 1] ∧
      (∀ i, i < and_not_table.num_vars → (flipped and_not_table).getD i false = false →
        0 ≤ ([1, -1, 1] : List Int).getD i 0) ∧
      (∀ i, i < and_not_table.num_vars → (flipped and_not_table).getD i false = true →
        ([1, -1, 1] : List Int).getD i 0 ≤ 0) := by
  obtain ⟨calls, h⟩ := and_run []
  have hw := weight_signs and_env and_not_table [] [1, -1, 1] _ h rfl rfl and_nonneg and_range
  exact ⟨and_nonneg, and_range, _, h, rfl, rfl, hw.2.1, hw.2.2.1⟩

theorem big_nonneg : ∀ j, j < not_or_table.num_vars + 1 →
    satisfies (solver_point big_env not_or_table)
      (nonneg_constraint (not_or_table.num_vars + 1) j) := by
  intro j hj
  rw [satisfies_nonneg _ j hj, big_point]
  beta_reduce
  split <;> norm_num

theorem big_range : ∀ i, i < not_or_table.num_vars →
    solver_point big_env not_or_table i < 2 ^ 63 := by
  intro i _
  rw [big_point]
  beta_reduce
  split <;> norm_num

theorem or_classify : classify or_table = some ([false, false], or_table) := by decide

theorem huge_point : solver_point huge_env or_table =
    fun k => (((if k = 0 then 10000000000000000000 else 1) : Int) : ℚ) := rfl

/-- The form computed from the point `(10^19, 1, 1)` with no variable flipped, when the
out-of-range conversion yields `INT64_MIN`. -/
theorem huge_form :
    back_translate (fun _ => INT64_MIN) [false, false] (2 + 1)
        (fun k => (((if k = 0 then 10000000000000000000 else 1) : Int) : ℚ)) =
      [INT64_MIN, 1, 1] := by
  rw [back_translate_eq]
  have e2 : running_threshold [false, false]
      (fun k => (((if k = 0 then 10000000000000000000 else 1) : Int) : ℚ)) 2 2 =
      (((1 : Int)) : ℚ) := by
    simp only [running_threshold]
    rw [if_neg (by decide), if_neg (by decide)]
    rfl
  rw [e2, to_int64_intCast _ _ (by decide) (by decide)]
  have m : ∀ i, i ∈ List.range 2 →
      to_int64 (fun _ => INT64_MIN)
        (if [false, false].getD i false = true
          then -(fun k => (((if k = 0 then 10000000000000000000 else 1) : Int) : ℚ)) i
          else (fun k => (((if k = 0 then 10000000000000000000 else 1) : Int) : ℚ)) i) =
        (if i = 0 then INT64_MIN else 1) := by
    intro i hi
    have hi2 : i = 0 ∨ i = 1 := by have := List.mem_range.1 hi; omega
    rcases hi2 with rfl | rfl
    · rw [if_neg (by decide)]
      beta_reduce
      rw [if_pos rfl, if_pos rfl]
      unfold to_int64
      rw [truncate_intCast, if_neg (by decide)]
    · rw [if_neg (by decide)]
      beta_reduce
      rw [if_neg (by decide), if_neg (by decide)]
      exact to_int64_intCast _ _ (by decide) (by decide)
  rw [List.map_congr_left m]
  rfl

theorem huge_run :
    ∃ calls, is_threshold huge_env or_table (some []) =
      some ⟨true, some [INT64_MIN, 1, 1], calls⟩ := by
  obtain ⟨calls, h⟩ := is_threshold_solved huge_env or_table (some []) _ _
    or_classify ⟨rfl, rfl, rfl, rfl⟩
  refine ⟨calls, ?_⟩
  have hs : solver_status huge_env or_table = OPTIMAL := rfl
  have hn : or_table.num_vars = 2 := rfl
  have hc : huge_env.int64_out_of_range = fun _ => INT64_MIN := rfl
  rw [h, huge_point, hn, hc, huge_form]
  simp [hs]

theorem huge_nonneg : ∀ j, j < or_table.num_vars + 1 →
    satisfies (solver_point huge_env or_table)
      (nonneg_constraint (or_table.num_vars + 1) j) := by
  intro j hj
  rw [satisfies_nonneg _ j hj, huge_point]
  beta_reduce
  split <;> norm_num

/-- Counterexample to C19 as stated for an arbitrary point. On `¬x0 ∨ x1` with the integer
point `(2^53 + 2, 1, 1)`, which satisfies the non-negativity rows, the run returns `true`
and writes the threshold `-2^53`, while the threshold of the solver minus the weight of
the flipped variable `x0` is `1 - (2^53 + 2)`. On `x0 ∨ x1` with the point `(10^19, 1, 1)`,
which satisfies the non-negativity rows, on a platform whose out-of-range conversion
yields `INT64_MIN`, the run returns `true` and writes the negative weight `INT64_MIN` for
`x0`, which is not flipped. -/
theorem threshold_entry_inexact :
    ((∃ calls, is_threshold big_env not_or_table (some []) =
        some ⟨true, some [-9007199254740994, 1, -9007199254740992], calls⟩) ∧
      (∀ j, j < not_or_table.num_vars + 1 →
        satisfies (solver_point big_env not_or_table)
          (nonneg_constraint (not_or_table.num_vars + 1) j)) ∧
      (flipped not_or_table).getD 0 false = true ∧
      (flipped not_or_table).getD 1 false = false ∧
      solver_point big_env not_or_table not_or_table.num_vars -
        ∑ i ∈ Finset.range not_or_table.num_vars,
          (if (flipped not_or_table).getD i false = true
            then solver_point big_env not_or_table i else 0) = -9007199254740993 ∧
      ((([-9007199254740994, 1, -9007199254740992] : List Int).getD
          not_or_table.num_vars 0 : Int) : ℚ) ≠ -9007199254740993) ∧
    ((∃ calls, is_threshold huge_env or_table (some []) =
        some ⟨true, some [INT64_MIN, 1, 1], calls⟩) ∧
      (∀ j, j < or_table.num_vars + 1 →
        satisfies (solver_point huge_env or_table)
          (nonneg_constraint (or_table.num_vars + 1) j)) ∧
      (flipped or_table).getD 0 false = false ∧
      implies (cofactor0 or_table 0) (cofactor1 or_table 0) = true ∧
      ([INT64_MIN, 1, 1] : List Int).getD 0 0 < 0) := by
  have hfl : flipped not_or_table = [true, false] := flipped_of_classify not_or_classify
  have hfl2 : flipped or_table = [false, false] := flipped_of_classify or_classify
  have hn : not_or_table.num_vars = 2 := rfl
  refine ⟨⟨big_run [], big_nonneg, by rw [hfl]; rfl, by rw [hfl]; rfl, ?_, ?_⟩,
    huge_run, huge_nonneg, by rw [hfl2]; rfl, by decide, by decide⟩
  · rw [hfl, hn, big_point]
    simp [Finset.sum_range_succ]
    norm_num
  · rw [hn]
    norm_num

/-- C11, evaluated on a feasible point that is not integer-valued. The table `x0 ∧ x1` has
no binate variable; the solver reports `OPTIMAL` with the point `(19/10, 19/10, 19/5)`,
which satisfies every submitted row; the run returns `true` and writes `(1, 1, 3)`; at the
assignment `x0 = x1 = 1` the table is `1` while the weighted sum `2` is below the
threshold `3`. -/
theorem feasible_point_truncated :
    (∀ i, i < and_table.num_vars → ¬ binate_in and_table i) ∧
    solver_status frac_env and_table = OPTIMAL ∧
    (∀ c, c ∈ submitted_rows frac_env and_table →
      satisfies (solver_point frac_env and_table) c) ∧
    (∃ calls, is_threshold frac_env and_table (some []) =
      some ⟨true, some [1, 1, 3], calls⟩) ∧
    get_bit and_table 3 = true ∧
    ¬ ((([1, 1, 3] : List Int).getD and_table.num_vars 0 : Int) : ℚ) ≤
      weighted_sum and_table.num_vars
        (fun i => ((([1, 1, 3] : List Int).getD i 0 : Int) : ℚ)) 3 := by
  refine ⟨by decide, rfl, frac_rows, frac_run, by decide, ?_⟩
  simp [weighted_sum, Finset.sum_range_succ, and_table, Nat.testBit]
  norm_num

/-! ## The majority function (C12) -/

/-- The objective `is_threshold` submits is `w_0 + … + w_{n-1} + T`. -/
theorem objective_value_submitted (env : Env) (f : TruthTable) (p : Nat → ℚ) :
    objective_value (submitted_objective env f) p = ∑ k ∈ Finset.range (f.num_vars + 1), p k := by
  unfold submitted_objective build_final objective_of objective_value
  rw [objective_entries_spec]
  simp only
  have h1 : snapshot (f.num_vars + 1) (fun k => if k < f.num_vars + 1 then (1 : ℚ) else
      (build_constraints env.lp f.num_vars (env.isop (normalized f))
        (env.isop (unary_not (normalized f))) (build_init env)).row k) =
      (List.range (f.num_vars + 1)).map (fun _ => (1 : ℚ)) := by
    unfold snapshot
    apply List.map_congr_left
    intro k hk
    simp [List.mem_range.1 hk]
  have h2 : snapshot (f.num_vars + 1) (fun k => if k < f.num_vars + 1 then k + 1 else
      (build_constraints env.lp f.num_vars (env.isop (normalized f))
        (env.isop (unary_not (normalized f))) (build_init env)).colno k) =
      (List.range (f.num_vars + 1)).map (fun k => k + 1) := by
    unfold snapshot
    apply List.map_congr_left
    intro k hk
    simp [List.mem_range.1 hk]
  rw [h1, h2, row_sum_eq]
  simp

theorem maj_classify : classify maj_table = some ([false, false, false], maj_table) := by
  decide

/-- The rows submitted for the majority function with its prime covers. -/
theorem maj_rows_iff (env : Env)
    (hon : ∀ c, c ∈ env.isop maj_table ↔ c ∈ [(⟨3, 3⟩ : cube), ⟨5, 5⟩, ⟨6, 6⟩])
    (hoff : ∀ c, c ∈ env.isop (unary_not maj_table) ↔ c ∈ [(⟨0, 3⟩ : cube), ⟨0, 5⟩, ⟨0, 6⟩])
    (q : Nat → ℚ) :
    (∀ c, c ∈ submitted_rows env maj_table → satisfies q c) ↔
      (q 3 ≤ q 0 + q 1 ∧ q 3 ≤ q 0 + q 2 ∧ q 3 ≤ q 1 + q 2) ∧
      (q 2 ≤ q 3 - 1 ∧ q 1 ≤ q 3 - 1 ∧ q 0 ≤ q 3 - 1) ∧
      (0 ≤ q 0 ∧ 0 ≤ q 1 ∧ 0 ≤ q 2 ∧ 0 ≤ q 3) := by
  rw [satisfies_submitted, normalized_of_classify maj_classify]
  have hn : maj_table.num_vars = 3 := rfl
  rw [hn]
  constructor
  · rintro ⟨h1, h2, h3⟩
    have a1 := h1 ⟨3, 3⟩ ((hon _).2 (by simp))
    have a2 := h1 ⟨5, 5⟩ ((hon _).2 (by simp))
    have a3 := h1 ⟨6, 6⟩ ((hon _).2 (by simp))
    have b1 := h2 ⟨0, 3⟩ ((hoff _).2 (by simp))
    have b2 := h2 ⟨0, 5⟩ ((hoff _).2 (by simp))
    have b3 := h2 ⟨0, 6⟩ ((hoff _).2 (by simp))
    simp [Finset.sum_range_succ, Nat.testBit] at a1 a2 a3 b1 b2 b3
    exact ⟨⟨a1, a2, a3⟩, ⟨b1, b2, b3⟩, h3 0 (by omega), h3 1 (by omega), h3 2 (by omega),
      h3 3 (by omega)⟩
  · rintro ⟨⟨a1, a2, a3⟩, ⟨b1, b2, b3⟩, c0, c1, c2, c3⟩
    refine ⟨?_, ?_, ?_⟩
    · intro c hc
      have := (hon c).1 hc
      simp only [List.mem_cons, List.mem_singleton, List.not_mem_nil, or_false] at this
      rcases this with rfl | rfl | rfl <;>
        simp [Finset.sum_range_succ, Nat.testBit] <;> assumption
    · intro c hc
      have := (hoff c).1 hc
      simp only [List.mem_cons, List.mem_singleton, List.not_mem_nil, or_false] at this
      rcases this with rfl | rfl | rfl <;>
        simp [Finset.sum_range_succ, Nat.testBit] <;> assumption
    · intro j hj
      interval_cases j <;> assumption

theorem maj_objective (env : Env) (q : Nat → ℚ) :
    objective_value (submitted_objective env maj_table) q = q 0 + q 1 + q 2 + q 3 := by
  rw [objective_value_submitted]
  have hn : maj_table.num_vars = 3 := rfl
  rw [hn]
  simp [Finset.sum_range_succ]

theorem maj_point_optimal (env : Env)
    (hon : ∀ c, c ∈ env.isop maj_table ↔ c ∈ [(⟨3, 3⟩ : cube), ⟨5, 5⟩, ⟨6, 6⟩])
    (hoff : ∀ c, c ∈ env.isop (unary_not maj_table) ↔ c ∈ [(⟨0, 3⟩ : cube), ⟨0, 5⟩, ⟨0, 6⟩]) :
    optimal_point (submitted_rows env maj_table) (submitted_objective env maj_table)
      (fun k => (((if k = 3 then 2 else 1) : Int) : ℚ)) := by
  constructor
  · rw [maj_rows_iff env hon hoff]
    norm_num
  · intro q hq
    rw [maj_rows_iff env hon hoff] at hq
    obtain ⟨⟨a1, a2, a3⟩, ⟨b1, b2, b3⟩, c0, c1, c2, c3⟩ := hq
    rw [maj_objective, maj_objective]
    norm_num
    linarith

theorem maj_optimal_unique (env : Env)
    (hon : ∀ c, c ∈ env.isop maj_table ↔ c ∈ [(⟨3, 3⟩ : cube), ⟨5, 5⟩, ⟨6, 6⟩])
    (hoff : ∀ c, c ∈ env.isop (unary_not maj_table) ↔ c ∈ [(⟨0, 3⟩ : cube), ⟨0, 5⟩, ⟨0, 6⟩])
    (q : Nat → ℚ)
    (hq : optimal_point (submitted_rows env maj_table) (submitted_objective env maj_table) q) :
    q 0 = 1 ∧ q 1 = 1 ∧ q 2 = 1 ∧ q 3 = 2 := by
  obtain ⟨hfeas, hmin⟩ := hq
  have hle := hmin _ (maj_point_optimal env hon hoff).1
  rw [maj_rows_iff env hon hoff] at hfeas
  obtain ⟨⟨a1, a2, a3⟩, ⟨b1, b2, b3⟩, c0, c1, c2, c3⟩ := hfeas
  rw [maj_objective, maj_objective] at hle
  norm_num at hle
  refine ⟨?_, ?_, ?_, ?_⟩ <;> linarith

/-- C12 (majority of three variables). The table `maj_table` is `1` exactly on the
assignments with at least two variables `1`. Let `isop` answer the cubes `x0x1, x0x2, x1x2`
for it and `!x0!x1, !x0!x2, !x1!x2` for its complement, let the model be built without
failure, and let the solver report `OPTIMAL` with an optimal point of the submitted
minimization problem. Then the run returns `true` and writes `(1, 1, 1, 2)`; the objective
is `w0 + w1 + w2 + T`; `(1, 1, 1, 2)` is an optimal point of the submitted problem and
every optimal point equals it. -/
theorem majority_canonical (env : Env) (plf0 : List Int)
    (hon : ∀ c, c ∈ env.isop maj_table ↔ c ∈ [(⟨3, 3⟩ : cube), ⟨5, 5⟩, ⟨6, 6⟩])
    (hoff : ∀ c, c ∈ env.isop (unary_not maj_table) ↔ c ∈ [(⟨0, 3⟩ : cube), ⟨0, 5⟩, ⟨0, 6⟩])
    (hbuilt : model_built env maj_table) (hopt : solver_optimal env maj_table) :
    (∀ x, x < 2 ^ maj_table.num_vars → (get_bit maj_table x = true ↔
      2 ≤ (if x.testBit 0 = true then 1 else 0) + (if x.testBit 1 = true then 1 else 0) +
        (if x.testBit 2 = true then 1 else 0))) ∧
    (∃ calls, is_threshold env maj_table (some plf0) =
      some ⟨true, some [1, 1, 1, 2], calls⟩) ∧
    (∀ q : Nat → ℚ,
      objective_value (submitted_objective env maj_table) q = q 0 + q 1 + q 2 + q 3) ∧
    optimal_point (submitted_rows env maj_table) (submitted_objective env maj_table)
      (fun k => ((([1, 1, 1, 2] : List Int).getD k 0 : Int) : ℚ)) ∧
    (∀ q : Nat → ℚ,
      optimal_point (submitted_rows env maj_table) (submitted_objective env maj_table) q →
        q 0 = 1 ∧ q 1 = 1 ∧ q 2 = 1 ∧ q 3 = 2) := by
  obtain ⟨hstatus, hpoint⟩ := hopt
  obtain ⟨p0, p1, p2, p3⟩ := maj_optimal_unique env hon hoff _ hpoint
  refine ⟨by decide, ?_, maj_objective env, ?_, maj_optimal_unique env hon hoff⟩
  · obtain ⟨calls, h⟩ := is_threshold_solved env maj_table (some plf0) _ _ maj_classify hbuilt
    refine ⟨calls, ?_⟩
    have hn : maj_table.num_vars = 2 + 1 := rfl
    have hbt : back_translate env.int64_out_of_range [false, false, false]
        (maj_table.num_vars + 1) (solver_point env maj_table) =
        back_translate env.int64_out_of_range [false, false, false] (maj_table.num_vars + 1)
          (fun k => (((if k = 3 then 2 else 1) : Int) : ℚ)) := by
      apply back_translate_congr
      intro k hk
      have hk4 : k < 4 := hk
      interval_cases k <;> simp [p0, p1, p2, p3]
    rw [h, hbt, hn, back_translate_int _ _ _ _ (by decide)]
    simp [hstatus, Finset.sum_range_succ, List.range_succ]
  · constructor
    · rw [maj_rows_iff env hon hoff]
      norm_num
    · intro q hq
      rw [maj_rows_iff env hon hoff] at hq
      obtain ⟨⟨a1, a2, a3⟩, ⟨b1, b2, b3⟩, c0, c1, c2, c3⟩ := hq
      rw [maj_objective, maj_objective]
      norm_num
      linarith

theorem maj_on : ∀ c, c ∈ maj_env.isop maj_table ↔ c ∈ [(⟨3, 3⟩ : cube), ⟨5, 5⟩, ⟨6, 6⟩] := by
  have : maj_env.isop maj_table = [⟨3, 3⟩, ⟨5, 5⟩, ⟨6, 6⟩] := by decide
  intro c; rw [this]

theorem maj_off :
    ∀ c, c ∈ maj_env.isop (unary_not maj_table) ↔ c ∈ [(⟨0, 3⟩ : cube), ⟨0, 5⟩, ⟨0, 6⟩] := by
  have : maj_env.isop (unary_not maj_table) = [⟨0, 3⟩, ⟨0, 5⟩, ⟨0, 6⟩] := by decide
  intro c; rw [this]

theorem maj_solver_optimal : solver_optimal maj_env maj_table :=
  ⟨rfl, maj_point_optimal maj_env maj_on maj_off⟩

/-- Witness of C12: a solver that reports `OPTIMAL` with the point `(1, 1, 1, 2)`. -/
theorem majority_canonical_witness :
    (∀ c, c ∈ maj_env.isop maj_table ↔ c ∈ [(⟨3, 3⟩ : cube), ⟨5, 5⟩, ⟨6, 6⟩]) ∧
    (∀ c, c ∈ maj_env.isop (unary_not maj_table) ↔
      c ∈ [(⟨0, 3⟩ : cube), ⟨0, 5⟩, ⟨0, 6⟩]) ∧
    model_built maj_env maj_table ∧ solver_optimal maj_env maj_table ∧
    ∃ calls, is_threshold maj_env maj_table (some []) =
      some ⟨true, some [1, 1, 1, 2], calls⟩ :=
  ⟨maj_on, maj_off, ⟨rfl, rfl, rfl, rfl⟩, maj_solver_optimal,
    (majority_canonical maj_env [] maj_on maj_off ⟨rfl, rfl, rfl, rfl⟩ maj_solver_optimal).2.1⟩

/-! ## Unate tables of at most three variables (C17) -/

theorem mem_bool_lists (l : List Bool) : l ∈ bool_lists l.length := by
  induction l with
  | nil => simp [bool_lists]
  | cons b l ih =>
    simp only [List.length_cons, bool_lists, List.mem_append, List.mem_map]
    cases b
    · exact Or.inl ⟨l, ih, rfl⟩
    · exact Or.inr ⟨l, ih, rfl⟩

theorem int_sum_eq (w : List Int) (x k : Nat) :
    ((int_sum w x k : Int) : ℚ) = weighted_sum k (fun i => ((w.getD i 0 : Int) : ℚ)) x := by
  unfold weighted_sum
  induction k with
  | zero => simp [int_sum]
  | succ k ih =>
    rw [Finset.sum_range_succ, ← ih]
    simp only [int_sum]
    push_cast
    split <;> simp

theorem represents_of_fits (t : TruthTable) (w : List Int) (T : Int)
    (h : fits t w T = true) :
    represents t (fun i => ((w.getD i 0 : Int) : ℚ)) (T : ℚ) := by
  intro x hx
  unfold fits at h
  rw [List.all_eq_true] at h
  have hx2 := h x (List.mem_range.2 hx)
  rw [beq_iff_eq] at hx2
  rw [← int_sum_eq, hx2]
  simp

theorem threshold_of_search (t : TruthTable) (h : small_search t = true) :
    is_threshold_function t := by
  unfold small_search at h
  rw [List.any_eq_true] at h
  obtain ⟨w, _, hw⟩ := h
  rw [List.any_eq_true] at hw
  obtain ⟨T, _, hT⟩ := hw
  exact ⟨fun i => w.getD i 0, T, represents_of_fits t w T hT⟩

theorem monotone_of_positive_unate (t : TruthTable) (h : positive_unate t) :
    monotone_table t = true := by
  unfold monotone_table
  rw [List.all_eq_true]
  intro i hi
  rw [List.all_eq_true]
  intro x hx
  have := (pos_test_iff t i).1 (h i (List.mem_range.1 hi)) x (List.mem_range.1 hx)
  cases h0 : get_bit t (set_var x i false)
  · simp
  · simp [this h0]

theorem threshold_of_check (n : Nat) (hcheck : small_check n = true) (t : TruthTable)
    (hn : t.num_vars = n) (hlen : t.bits.length = 2 ^ n) (hpu : positive_unate t) :
    is_threshold_function t := by
  unfold small_check at hcheck
  rw [List.all_eq_true] at hcheck
  have hmem : t.bits ∈ bool_lists (2 ^ n) := by
    rw [← hlen]; exact mem_bool_lists _
  have := hcheck t.bits hmem
  have ht : (⟨n, t.bits⟩ : TruthTable) = t := by
    obtain ⟨m, b⟩ := t
    simp only at hn
    subst hn
    rfl
  rw [ht, monotone_of_positive_unate t hpu] at this
  exact threshold_of_search t (by simpa using this)

theorem small_check_zero : small_check 0 = true := by decide

theorem small_check_one : small_check 1 = true := by decide

theorem small_check_two : small_check 2 = true := by decide

set_option maxRecDepth 100000 in
theorem small_check_three : small_check 3 = true := by decide

theorem positive_unate_tabulate (g : TruthTable) (h : positive_unate g) :
    positive_unate (tabulate g.num_vars (get_bit g)) := by
  intro i hi
  have hi2 : i < g.num_vars := hi
  rw [pos_test_iff]
  intro x hx
  have hx2 : x < 2 ^ g.num_vars := hx
  rw [get_bit_tabulate _ (set_var_lt false hx2 hi2), get_bit_tabulate _ (set_var_lt true hx2 hi2)]
  exact (pos_test_iff g i).1 (h i hi2) x hx2

theorem threshold_of_tabulate (g : TruthTable)
    (h : is_threshold_function (tabulate g.num_vars (get_bit g))) :
    is_threshold_function g := by
  obtain ⟨w, T, hrep⟩ := h
  refine ⟨w, T, ?_⟩
  intro x hx
  have := hrep x hx
  rw [get_bit_tabulate _ hx] at this
  exact this

/-- A table of at most three variables that is positive unate in each of them is a
threshold function. -/
theorem small_positive_unate (g : TruthTable) (hn : g.num_vars ≤ 3)
    (hpu : positive_unate g) : is_threshold_function g := by
  apply threshold_of_tabulate
  have hpu2 := positive_unate_tabulate g hpu
  have hlen : (tabulate g.num_vars (get_bit g)).bits.length = 2 ^ g.num_vars := by
    simp [tabulate]
  generalize hm : g.num_vars = m at hn hpu2 hlen ⊢
  interval_cases m
  · exact threshold_of_check 0 small_check_zero _ rfl hlen hpu2
  · exact threshold_of_check 1 small_check_one _ rfl hlen hpu2
  · exact threshold_of_check 2 small_check_two _ rfl hlen hpu2
  · exact threshold_of_check 3 small_check_three _ rfl hlen hpu2

/-- A table of at most three variables without binate variable is a threshold function. -/
theorem small_unate_threshold (f : TruthTable) (hn : f.num_vars ≤ 3)
    (hun : ∀ i, i < f.num_vars → ¬ binate_in f i) : is_threshold_function f := by
  obtain ⟨F, g, hc⟩ := classify_some_of_unate f hun
  obtain ⟨_, hnv, hg, _, _⟩ := classify_spec f F g hc
  have hpu := classify_positive_unate f F g hc
  obtain ⟨v, T, hrep⟩ := small_positive_unate g (by rw [hnv]; exact hn) hpu
  have hsym : ∀ x, x < 2 ^ g.num_vars →
      get_bit f x = get_bit g (x ^^^ flip_mask F g.num_vars) := by
    rw [hnv]
    exact xor_rel_symm f g _ (flip_mask_lt F _) hg
  exact threshold_of_rational f _ _ (represents_xor g f F hnv.symm hsym _ _ hrep)

/-- C17 (for at most three variables). Let `f` have at most three variables, let `isop`
keep its contract on the working copy, let the solver report `OPTIMAL` exactly when the
submitted rows are feasible, and let the model be built without failure. Then `f` has no
binate variable iff `f` is a threshold function, and the run returns, with result `false`
exactly when `f` has a binate variable. -/
theorem small_unate_exact (env : Env) (f : TruthTable) (plf : Option (List Int))
    (hn : f.num_vars ≤ 3) (hisop : isop_contract env.isop (normalized f))
    (hdec : solver_decides env f) (hbuilt : model_built env f) :
    ((∀ i, i < f.num_vars → ¬ binate_in f i) ↔ is_threshold_function f) ∧
    ∃ o, is_threshold env f plf = some o ∧
      (o.result = false ↔ ∃ i, i < f.num_vars ∧ binate_in f i) := by
  have hiff : (∀ i, i < f.num_vars → ¬ binate_in f i) ↔ is_threshold_function f := by
    constructor
    · exact small_unate_threshold f hn
    · rintro ⟨w, T, hrep⟩ i hi
      exact not_binate_of_represents f _ _ hrep i hi
  refine ⟨hiff, ?_⟩
  by_cases hb : ∃ i, i < f.num_vars ∧ binate_in f i
  · obtain ⟨i, hi, hbi⟩ := hb
    refine ⟨_, is_threshold_binate env f plf (classify_none_of_binate f i hi hbi), ?_⟩
    simp only [true_iff]
    exact ⟨i, hi, hbi⟩
  · have hun : ∀ i, i < f.num_vars → ¬ binate_in f i := fun i hi hbi => hb ⟨i, hi, hbi⟩
    obtain ⟨F, g, hc⟩ := classify_some_of_unate f hun
    obtain ⟨calls, hE⟩ := is_threshold_solved env f plf F g hc hbuilt
    have hfeas := feasible_of_threshold env f F g hc
      (by rw [← normalized_of_classify hc]; exact hisop) (hiff.1 hun)
    have hopt : solver_status env f = OPTIMAL := hdec.2 hfeas
    refine ⟨_, hE, ?_⟩
    simp [hopt, hb]

theorem and_decides : solver_decides and_env and_not_table :=
  ⟨fun h => ⟨_, (and_sound h).2⟩, fun _ => and_status⟩

/-- Witness of C17: the table `x0 ∧ ¬x1`. -/
theorem small_unate_exact_witness :
    and_not_table.num_vars ≤ 3 ∧
    isop_contract and_env.isop (normalized and_not_table) ∧
    solver_decides and_env and_not_table ∧ model_built and_env and_not_table ∧
    ((∀ i, i < and_not_table.num_vars → ¬ binate_in and_not_table i) ↔
      is_threshold_function and_not_table) ∧
    ∃ o, is_threshold and_env and_not_table none = some o ∧
      (o.result = false ↔ ∃ i, i < and_not_table.num_vars ∧ binate_in and_not_table i) :=
  ⟨by decide, and_isop_ok, and_decides, and_built,
    small_unate_exact and_env and_not_table none (by decide) and_isop_ok and_decides and_built⟩

/-! ## A unate table of four variables that is not a threshold function (C17) -/

theorem two_pairs_classify :
    classify two_pairs_table = some ([false, false, false, false], two_pairs_table) := by
  decide

theorem two_pairs_unate : ∀ i, i < two_pairs_table.num_vars → ¬ binate_in two_pairs_table i := by
  decide

theorem two_pairs_isop_ok :
    isop_contract two_pairs_env.isop (normalized two_pairs_table) := by
  decide

theorem two_pairs_not_threshold : ¬ is_threshold_function two_pairs_table := by
  rintro ⟨w, T, hrep⟩
  have h3 := (hrep 3 (by decide)).1 (by decide)
  have h12 := (hrep 12 (by decide)).1 (by decide)
  have h5 : ¬ _ := fun h => absurd ((hrep 5 (by decide)).2 h) (by decide)
  have h10 : ¬ _ := fun h => absurd ((hrep 10 (by decide)).2 h) (by decide)
  have hn : two_pairs_table.num_vars = 4 := rfl
  rw [hn] at h3 h12 h5 h10
  simp [weighted_sum, Finset.sum_range_succ, Nat.testBit] at h3 h12 h5 h10
  linarith

theorem two_pairs_decides : solver_decides two_pairs_env two_pairs_table := by
  constructor
  · intro h
    exact absurd h (by decide)
  · intro h
    exact absurd (threshold_of_feasible two_pairs_env two_pairs_table _ _ two_pairs_classify
      (by rw [← normalized_of_classify two_pairs_classify]; exact two_pairs_isop_ok) h)
      two_pairs_not_threshold

/-- Counterexample to C17 as stated for four variables: `x0x1 + x2x3` has no binate
variable and is not a threshold function; with `isop` answering its prime covers and a
solver that decides feasibility correctly (the rows are infeasible and it reports
`INFEASIBLE`), the run returns `false`. -/
theorem four_variables_unate_not_threshold :
    two_pairs_table.num_vars ≤ 4 ∧
    isop_contract two_pairs_env.isop (normalized two_pairs_table) ∧
    solver_decides two_pairs_env two_pairs_table ∧
    model_built two_pairs_env two_pairs_table ∧
    (∀ i, i < two_pairs_table.num_vars → ¬ binate_in two_pairs_table i) ∧
    ¬ is_threshold_function two_pairs_table ∧
    ∃ calls, is_threshold two_pairs_env two_pairs_table none = some ⟨false, none, calls⟩ := by
  refine ⟨by decide, two_pairs_isop_ok, two_pairs_decides, ⟨rfl, rfl, rfl, rfl⟩,
    two_pairs_unate, two_pairs_not_threshold, ?_⟩
  obtain ⟨calls, h⟩ := is_threshold_solved two_pairs_env two_pairs_table none _ _
    two_pairs_classify ⟨rfl, rfl, rfl, rfl⟩
  refine ⟨calls, ?_⟩
  have hs : solver_status two_pairs_env two_pairs_table = 2 := rfl
  rw [h, hs]
  simp [OPTIMAL]

end kitty
